import Mathlib

/-!
Verification development for the Autoscraping_Tool repository.

Python strings are modelled as lists of characters (`PyStr`); the string
helpers below reproduce the Python built-ins the source uses
(`str.strip`, `str.split`, `str.lower`, `in`, `startswith`, slicing, and
the small regular expressions of `converter.py` and `splitter.py`).
Machine integers are modelled as `Int`/`Nat` (Python integers are
unbounded, so no wrap-around is introduced).  All loops from the source
are translated either structurally or with an explicit fuel argument
instantiated with a bound that the source loop can never exceed.
-/

abbrev PyStr := List Char

/-- Whitespace class of Python `str.strip()` / `str.split()` / `\s`. -/
def pyWs (c : Char) : Bool :=
  c = ' ' || c = '\t' || c = '\n' || c = '\r' || c = '\x0b' || c = '\x0c'

/-- Python `str.lstrip()`. -/
def lstripWs (s : PyStr) : PyStr := s.dropWhile pyWs

/-- Python `str.rstrip()`. -/
def rstripWs (s : PyStr) : PyStr := (s.reverse.dropWhile pyWs).reverse

/-- Python `str.strip()`. -/
def stripWs (s : PyStr) : PyStr := rstripWs (lstripWs s)

/-- Python `str.strip(chars)`: strip the characters of `cs` from both ends. -/
def stripChars (cs : List Char) (s : PyStr) : PyStr :=
  ((s.dropWhile (cs.contains ·)).reverse.dropWhile (cs.contains ·)).reverse

/-- Python `str.rstrip(chars)`. -/
def rstripChars (cs : List Char) (s : PyStr) : PyStr :=
  (s.reverse.dropWhile (cs.contains ·)).reverse

/-- Accumulator pass of Python `str.split()`: `cur` holds the reversed
characters of the word currently open. -/
def splitWsGo (cur : PyStr) : PyStr → List PyStr
  | [] => if cur.isEmpty then [] else [cur.reverse]
  | c :: t =>
    if pyWs c then
      if cur.isEmpty then splitWsGo [] t else cur.reverse :: splitWsGo [] t
    else splitWsGo (c :: cur) t

/-- Python `str.split()` (split on whitespace runs, no empty parts). -/
def splitWs (s : PyStr) : List PyStr := splitWsGo [] s

/-- Join a list of strings with a single space (Python `' '.join`). -/
def joinSpace : List PyStr → PyStr
  | [] => []
  | [x] => x
  | x :: y :: t => x ++ ' ' :: joinSpace (y :: t)

/-- Python `' '.join(s.split())`: collapse internal whitespace, trim ends. -/
def normSpace (s : PyStr) : PyStr := joinSpace (splitWs s)

/-- Python `str.lower()` (ASCII case folding, all titles in scope are ASCII). -/
def lowerStr (s : PyStr) : PyStr := s.map Char.toLower

/-- Python `str.splitlines()` restricted to the newline character, i.e.
`str.split('\n')` — `page.extract_text` output only carries `\n` breaks. -/
def splitNl : PyStr → List PyStr
  | [] => [[]]
  | c :: t =>
    if c = '\n' then [] :: splitNl t
    else
      match splitNl t with
      | [] => [[c]]
      | h :: r => (c :: h) :: r

/-- Python `patt in s` helper: `pre` is a prefix of `s`. -/
def isPre : PyStr → PyStr → Bool
  | [], _ => true
  | _ :: _, [] => false
  | c :: p, d :: s => c = d && isPre p s

/-- Python substring test `pat in s`. -/
def subOf (pat : PyStr) : PyStr → Bool
  | [] => pat.isEmpty
  | c :: t => isPre pat (c :: t) || subOf pat t

/-- Leading indentation width: Python `len(line) - len(line.lstrip())`. -/
def indentOf (l : PyStr) : Nat := (l.takeWhile pyWs).length

/-- Python `'0' <= c <= '9'` digit test used by `str.isdigit` on ASCII input. -/
def pyDigit (c : Char) : Bool := '0' ≤ c && c ≤ '9'

/-- Python `str.isdigit()` (nonempty, all digits; input here is ASCII). -/
def isDigits (s : PyStr) : Bool := !s.isEmpty && s.all pyDigit

/-- Python `'a' <= c <= 'z'`. -/
def pyLower (c : Char) : Bool := 'a' ≤ c && c ≤ 'z'

/-- Python `c.isupper()` for the ASCII range the source handles. -/
def pyUpper (c : Char) : Bool := 'A' ≤ c && c ≤ 'Z'

/-- Update the last element of a list (Python `xs[-1] = f(xs[-1])`). -/
def updLast (f : α → α) : List α → List α
  | [] => []
  | [x] => [f x]
  | x :: y :: t => x :: updLast f (y :: t)

/-- Update the element at an index (Python item mutation through an alias). -/
def updAt (n : Nat) (f : α → α) : List α → List α
  | [] => []
  | x :: t =>
    match n with
    | 0 => f x :: t
    | m + 1 => x :: updAt m f t

/-- Python `list.insert(pos, x)`. -/
def insertAt (n : Nat) (x : α) : List α → List α
  | [] => [x]
  | y :: t =>
    match n with
    | 0 => x :: y :: t
    | m + 1 => y :: insertAt m x t

/-- Python `list(dict.fromkeys(xs))`: drop duplicates, keep first occurrences. -/
def dedupKF [DecidableEq α] : List α → List α → List α
  | _, [] => []
  | seen, x :: t =>
    if x ∈ seen then dedupKF seen t else x :: dedupKF (x :: seen) t

/-- Stable insertion used to model Python `sorted`: `before x y` means `x`
must come strictly before `y`; ties keep the original order, so `x` (which
precedes the already-sorted tail in the input) lands before its ties. -/
def insStable (before : α → α → Bool) (x : α) : List α → List α
  | [] => [x]
  | y :: t => if before y x then y :: insStable before x t else x :: y :: t

/-- Python `sorted(xs, key=...)` via a strict `before` relation (stable). -/
def sortStable (before : α → α → Bool) : List α → List α
  | [] => []
  | x :: t => insStable before x (sortStable before t)

/-- Emit a run of `k` newline characters, collapsing runs of three or more
to exactly two — one step of `re.sub(r'\n\x7b3,\x7d', '\n\n', s)`. -/
def emitNl (k : Nat) : PyStr :=
  if k ≥ 3 then ['\n', '\n'] else List.replicate k '\n'

/-- Python `re.sub(r'\n\x7b3,\x7d', '\n\n', s)` over the whole string:
`pending` counts the newline run currently open. -/
def collapseNlGo (pending : Nat) : PyStr → PyStr
  | [] => emitNl pending
  | c :: t =>
    if c = '\n' then collapseNlGo (pending + 1) t
    else emitNl pending ++ c :: collapseNlGo 0 t

def collapseNl (s : PyStr) : PyStr := collapseNlGo 0 s

/-- String literal convenience: a Lean string as a `PyStr`. -/
def pl (s : String) : PyStr := s.data

/-! ### splitter.py -/

/-- Characters removed by `re.sub(r'[<>:"/\\|?*]', '', name)`. -/
def invalidFileChar (c : Char) : Bool :=
  c = '<' || c = '>' || c = ':' || c = '"' || c = '/' || c = '\\' ||
  c = '|' || c = '?' || c = '*'

/-- Run-collapsing substitution `re.sub` needs: replace every maximal run of
characters satisfying `p` by the single character `r`; `inRun` records
whether the previous character was part of such a run. -/
def collapseRuns (p : Char → Bool) (r : Char) (inRun : Bool) : PyStr → PyStr
  | [] => []
  | c :: t =>
    if p c then
      if inRun then collapseRuns p r true t else r :: collapseRuns p r true t
    else c :: collapseRuns p r false t

/-- Python `re.sub(r'\s+', '_', s)`: every whitespace run becomes one `_`. -/
def wsToUnderscore (s : PyStr) : PyStr := collapseRuns pyWs '_' false s

/-- Python `re.sub(r'_+', '_', s)`: every underscore run becomes one `_`. -/
def squashUnderscore (s : PyStr) : PyStr := collapseRuns (· = '_') '_' false s

/-- `splitter.sanitize_filename`. -/
def sanitizeFilename (name : PyStr) : PyStr :=
  let n1 := name.filter (fun c => ¬ invalidFileChar c)
  let n2 := wsToUnderscore (stripWs n1)
  let n3 := squashUnderscore n2
  let n4 := stripChars ['_'] n3
  let n5 := if n4.length > 50 then rstripChars ['_'] (n4.take 50) else n4
  if n5.isEmpty then pl "Section" else n5

/-! ### heading_detector.py -/

/-- `heading_detector.TOCEntry`: optional target page already 0-indexed. -/
structure TOCEntry where
  title : PyStr
  level : Nat
  pageNum : Option Int
deriving DecidableEq, Repr

/-- `heading_detector.HeadingEntry` (only the fields the boundary builder
reads: the title and the 0-indexed page). -/
structure HeadingEntry where
  title : PyStr
  pageNum : Int
deriving DecidableEq, Repr

/-- One section boundary `(title, start_page, end_page)`. -/
structure Boundary where
  title : PyStr
  startPage : Int
  endPage : Int
deriving DecidableEq, Repr

/-- Loop body of `HeadingDetector._boundaries_from_toc`: `next?` is
`entries[i+1].page_num` when there is a next entry. -/
def tocBoundary (totalPages : Int) (e : TOCEntry) (next? : Option (Option Int)) : Boundary :=
  let startPage := match e.pageNum with | some p => p | none => 0
  let endPage := match next? with
    | some nextPage =>
      match nextPage with
      | some p => p
      | none => totalPages - 1
    | none => totalPages - 1
  let startPage := max 0 (min startPage (totalPages - 1))
  let endPage := max startPage (min endPage (totalPages - 1))
  ⟨e.title, startPage, endPage⟩

/-- `HeadingDetector._boundaries_from_toc`. -/
def boundariesFromToc (totalPages : Int) : List TOCEntry → List Boundary
  | [] => []
  | [e] => [tocBoundary totalPages e none]
  | e :: e2 :: rest =>
    tocBoundary totalPages e (some e2.pageNum) :: boundariesFromToc totalPages (e2 :: rest)

/-- Loop body of `HeadingDetector._boundaries_from_headings` (no clamping of
the start page; the end page is only forced to be at least the start). -/
def headingBoundary (totalPages : Int) (h : HeadingEntry) (next? : Option Int) : Boundary :=
  let startPage := h.pageNum
  let endPage := match next? with
    | some p => p
    | none => totalPages - 1
  ⟨h.title, startPage, max startPage endPage⟩

/-- `HeadingDetector._boundaries_from_headings`. -/
def boundariesFromHeadings (totalPages : Int) : List HeadingEntry → List Boundary
  | [] => []
  | [h] => [headingBoundary totalPages h none]
  | h :: h2 :: rest =>
    headingBoundary totalPages h (some h2.pageNum) :: boundariesFromHeadings totalPages (h2 :: rest)

/-- The TOC branch of `HeadingDetector.get_section_boundaries`: keep only the
level-1 entries and build boundaries from them. -/
def mainTocBoundaries (totalPages : Int) (toc : List TOCEntry) : List Boundary :=
  boundariesFromToc totalPages (toc.filter (fun e => e.level = 1))

/-! ### extractor.py -/

/-- `extractor.ExtractedHyperlink` (the fields the converter reads). -/
structure Hyperlink where
  url : PyStr
  text : PyStr
  isInternal : Bool
deriving DecidableEq, Repr

/-- The internal-link test of `PDFExtractor._extract_links_pymupdf` /
`_extract_links_pdfplumber`: `uri.startswith('#') or (not
uri.startswith(('http://', 'https://', 'mailto:')) and '://' not in uri and
not uri.startswith('www.'))`. -/
def isInternalUri (uri : PyStr) : Bool :=
  isPre (pl "#") uri ||
  (!(isPre (pl "http://") uri || isPre (pl "https://") uri || isPre (pl "mailto:") uri) &&
   !subOf (pl "://") uri && !isPre (pl "www.") uri)

/-- `extractor.ExtractedImage` (the fields `MarkdownConverter.convert` reads). -/
structure PImage where
  pageNum : Nat
  y : Int
  savedPath : Option PyStr
deriving DecidableEq, Repr

/-! ### converter.py: configuration and small predicates -/

/-- The read-only data a `MarkdownConverter` instance carries: its own section
title, the title-to-filename map of all sections, the TOC sub-titles, the
section's hyperlinks and images, and the header/footer entries. -/
structure Cfg where
  sectionTitle : PyStr
  allSections : List (PyStr × PyStr)
  subTitles : List PyStr
  links : List Hyperlink
  images : List PImage
  headerFooterEntries : List (Int × PyStr)
deriving Repr

/-- The header/footer texts `MarkdownConverter._clean_tables` extracts from
`self.header_footer_entries`. -/
def Cfg.headerTexts (cfg : Cfg) : List PyStr :=
  cfg.headerFooterEntries.map Prod.snd

/-- `MarkdownConverter._normalize_title`. -/
def normalizeTitle (s : PyStr) : PyStr :=
  normSpace (lowerStr (stripWs (stripChars [':'] s)))

/-- `MarkdownConverter._is_sub_title`. -/
def isSubTitle (cfg : Cfg) (text : PyStr) : Bool :=
  if text.isEmpty || cfg.subTitles.isEmpty then false
  else cfg.subTitles.any (fun sub => normalizeTitle text = normalizeTitle sub)

/-- `MarkdownConverter._is_next_section_title`. -/
def isNextSectionTitle (cfg : Cfg) (text : PyStr) : Bool :=
  if text.isEmpty then false
  else
    let textNorm := normSpace (lowerStr (stripWs (stripChars [':'] text)))
    let ownNorm := normSpace (lowerStr (stripWs (stripChars [':'] cfg.sectionTitle)))
    cfg.allSections.any (fun st =>
      let sectionTitle := st.1
      if lowerStr (stripWs (stripChars [':'] sectionTitle)) = ownNorm then false
      else
        let sectionNorm := normSpace (lowerStr (stripWs (stripChars [':'] sectionTitle)))
        textNorm = sectionNorm ||
        rstripChars [':', '.'] textNorm = rstripChars [':', '.'] sectionNorm ||
        (isPre sectionNorm textNorm && textNorm.length < sectionNorm.length + 20) ||
        (subOf sectionNorm textNorm && sectionNorm.length > 10))

/-- Word sets of `MarkdownConverter._is_heading`. -/
def sentenceStarters : List PyStr :=
  [pl "to", pl "the", pl "a", pl "an", pl "if", pl "when", pl "as", pl "for",
   pl "due", pl "in", pl "on", pl "by"]

def sentenceVerbs : List PyStr :=
  [pl "will", pl "have", pl "has", pl "been", pl "being", pl "are", pl "is",
   pl "was", pl "were"]

/-- Python `s.endswith(t)`. -/
def endsWithL (t s : PyStr) : Bool := isPre t.reverse s.reverse

/-- `MarkdownConverter._is_heading`. -/
def isHeadingLine (cfg : Cfg) (text : PyStr) : Bool :=
  if text.isEmpty || text.length > 60 then false
  else if lowerStr (stripChars [':'] text) = lowerStr (stripChars [':'] cfg.sectionTitle) then false
  else if !pyUpper (text.headD ' ') then false
  else
    let words := splitWs text
    if words.length > 8 then false
    else if text.contains ',' then false
    else if sentenceStarters.contains (lowerStr (words.headD [])) then false
    else
      let textLower := lowerStr text
      if sentenceVerbs.any (fun v =>
          subOf (' ' :: v ++ [' ']) textLower || endsWithL (' ' :: v) textLower) then false
      else if endsWithL (pl ".") text && words.length > 4 then false
      else if (rstripChars ['.', ',', ':', ';'] text).contains '.' then false
      else true

/-! ### converter.py: table cleaning -/

/-- A raw table as `pdfplumber`'s `Table.extract()` returns it: rows of
optional cell strings. -/
abbrev RawTable := List (List (Option PyStr))

/-- A cleaned table: rows of plain cell strings. -/
abbrev CleanTable := List (List PyStr)

/-- Fragment test of `MarkdownConverter._clean_table_cell`: `len(line) > 3`
and the line is contained in, or is a prefix of, some header/footer text. -/
def isHeaderFragment (headerTexts : List PyStr) (line : PyStr) : Bool :=
  line.length > 3 && headerTexts.any (fun h => subOf line h || isPre line h)

/-- `MarkdownConverter._clean_table_cell`. -/
def cleanTableCell (headerTexts : List PyStr) (cell : Option PyStr) : PyStr :=
  match cell with
  | none => []
  | some s =>
    let lines := ((splitNl s).map stripWs).filter (fun l => !l.isEmpty)
    let lines :=
      if headerTexts.isEmpty then lines
      else
        let filtered := lines.filter (fun l => !isHeaderFragment headerTexts l)
        if filtered.isEmpty then lines else filtered
    joinSpace lines

/-- Index just past the last cell of a row whose stripped text is nonempty
(the backwards scan of `_clean_tables` that sizes `max_used_cols`). -/
def lastUsed : List PyStr → Nat
  | [] => 0
  | c :: t =>
    let r := lastUsed t
    if r ≠ 0 then r + 1 else if (stripWs c).isEmpty then 0 else 1

/-- `max_used_cols` of `MarkdownConverter._clean_tables`. -/
def maxUsedCols (rows : CleanTable) : Nat :=
  rows.foldl (fun m row => max m (lastUsed row)) 0

/-- Continuation-row test of `_clean_tables`: first two cells blank. -/
def isContRow (row : List PyStr) : Bool :=
  (stripWs (row.getD 0 [])).isEmpty && (stripWs (row.getD 1 [])).isEmpty

/-- Merge a continuation row into the previous row: per shared column, append
the continuation cell (space separated, then stripped) when it is nonempty. -/
def mergeRowInto (prev row : List PyStr) : List PyStr :=
  ((prev.zip row).map (fun pc =>
    if (stripWs pc.2).isEmpty then pc.1 else stripWs (pc.1 ++ ' ' :: pc.2))) ++
  prev.drop row.length

/-- Continuation-row merging loop of `_clean_tables`; the accumulator keeps
the merged rows in reverse order (its head is Python's `merged[-1]`). -/
def mergeContGo (acc : CleanTable) : CleanTable → CleanTable
  | [] => acc.reverse
  | row :: rest =>
    match acc with
    | [] => mergeContGo [row] rest
    | prev :: acc0 =>
      if isContRow row then mergeContGo (mergeRowInto prev row :: acc0) rest
      else mergeContGo (row :: prev :: acc0) rest

def mergeContRows (rows : CleanTable) : CleanTable := mergeContGo [] rows

/-- Blank-row filter of `_clean_tables`. -/
def dropBlankRows (rows : CleanTable) : CleanTable :=
  rows.filter (fun row => row.any (fun c => !(stripWs c).isEmpty))

/-- Column indices of the nonempty header cells (`header_cols`). -/
def headerCols (header : List PyStr) : List Nat :=
  ((List.range header.length).filter (fun i => !(stripWs (header.getD i [])).isEmpty))

/-- Column groups of `_merge_sparse_columns`: one group per populated header
cell, each spanning from just past the previous populated cell. -/
def colGroupsGo (prevPlus1 : Nat) : List Nat → List (Nat × Nat)
  | [] => []
  | hc :: rest => (prevPlus1, hc) :: colGroupsGo (hc + 1) rest

/-- Extend the last group to cover trailing columns after the last header
cell (`groups[-1] = (groups[-1][0], num_cols - 1)`). -/
def extendLastGroup (numCols : Nat) : List (Nat × Nat) → List (Nat × Nat)
  | [] => []
  | [g] => [(g.1, numCols - 1)]
  | g :: g2 :: rest => g :: extendLastGroup numCols (g2 :: rest)

def colGroups (numCols : Nat) (hcols : List Nat) : List (Nat × Nat) :=
  let gs := colGroupsGo 0 hcols
  match hcols.getLast? with
  | some last => if last < numCols - 1 then extendLastGroup numCols gs else gs
  | none => gs

/-- Merge one row's cells inside one column group: strip, drop empties,
deduplicate exact repeats keeping first occurrences, drop cells that are
substrings of another cell, and join with spaces. -/
def groupJoin (row : List PyStr) (g : Nat × Nat) : PyStr :=
  let cells := ((List.range (g.2 + 1 - g.1)).map (· + g.1)).filterMap (fun c =>
    if c < row.length then some (stripWs (row.getD c [])) else none)
  let cells := dedupKF [] (cells.filter (fun c => !c.isEmpty))
  let deduped := cells.filter (fun c => !cells.any (fun other => c ≠ other && subOf c other))
  joinSpace deduped

/-- `MarkdownConverter._merge_sparse_columns`. -/
def mergeSparse (table : CleanTable) : CleanTable :=
  if table.isEmpty || table.length < 2 then table
  else
    let header := table.headD []
    let numCols := header.length
    let hcols := headerCols header
    if hcols.length ≥ numCols || hcols.length < 2 then table
    else
      let groups := colGroups numCols hcols
      table.map (fun row => groups.map (groupJoin row))

/-- Per-table body of `MarkdownConverter._clean_tables`: `none` when the
table is dropped (single-column, or fewer than two rows survive). -/
def cleanOne (headerTexts : List PyStr) (table : RawTable) : Option CleanTable :=
  if table.isEmpty then none
  else
    let cleaned := (table.filter (fun row => !row.isEmpty)).map
      (fun row => row.map (cleanTableCell headerTexts))
    let m := maxUsedCols cleaned
    if m < 2 then none
    else
      let trimmed := cleaned.map (List.take m)
      let merged := mergeContRows trimmed
      let merged := dropBlankRows merged
      let merged := mergeSparse merged
      if merged.length ≥ 2 then some merged else none

/-- `MarkdownConverter._clean_tables` with `bboxes=None`: the pure table
transformation (dropped tables disappear from the output list). -/
def cleanTables (headerTexts : List PyStr) (tables : List RawTable) : List CleanTable :=
  tables.filterMap (cleanOne headerTexts)

/-- `MarkdownConverter._clean_tables` with bounding boxes: each surviving
table keeps the `(top, bottom)` box of its raw table. -/
def cleanTablesB (headerTexts : List PyStr) (tables : List RawTable)
    (bboxes : List (Int × Int)) : List (CleanTable × (Int × Int)) :=
  (tables.zip bboxes).filterMap (fun tb => (cleanOne headerTexts tb.1).map (⟨·, tb.2⟩))

/-! ### converter.py: line-marker regular expressions -/

/-- `re.match(r'^(\d+)\.\s*(.*)$', s)`: a run of digits, a dot, optional
whitespace, then the item text. -/
def matchNumDot (s : PyStr) : Option (PyStr × PyStr) :=
  let ds := s.takeWhile pyDigit
  if ds.isEmpty then none
  else
    match s.dropWhile pyDigit with
    | '.' :: r => some (ds, r.dropWhile pyWs)
    | _ => none

/-- `re.match(r'^\d+\.\s*', s)` as a plain test. -/
def hasNumDot (s : PyStr) : Bool := (matchNumDot s).isSome

/-- `re.match(r'^([a-z])\.\s*(.*)$', s)`: one lowercase letter then a dot. -/
def matchLetterDot (s : PyStr) : Option (Char × PyStr) :=
  match s with
  | c :: '.' :: r => if pyLower c then some (c, r.dropWhile pyWs) else none
  | _ => none

/-- `re.match(r'^([a-z]+)\.\s*(.*)$', s)`: a maximal lowercase run then a
dot (the regex only succeeds when the character after the run is the dot). -/
def matchLettersDot (s : PyStr) : Option (PyStr × PyStr) :=
  let ls := s.takeWhile pyLower
  if ls.isEmpty then none
  else
    match s.dropWhile pyLower with
    | '.' :: r => some (ls, r.dropWhile pyWs)
    | _ => none

/-- `re.match(r'^(\d+|[a-z])\.\s*', s)` as a plain test (paragraph stop). -/
def hasNumOrLetterDot (s : PyStr) : Bool :=
  hasNumDot s ||
  (match s with
   | c :: '.' :: _ => pyLower c
   | _ => false)

/-- `MarkdownConverter._ROMAN_NUMERALS`. -/
def romanNumerals : List PyStr :=
  [pl "i", pl "ii", pl "iii", pl "iv", pl "v", pl "vi", pl "vii", pl "viii",
   pl "ix", pl "x", pl "xi", pl "xii", pl "xiii", pl "xiv", pl "xv", pl "xvi",
   pl "xvii", pl "xviii", pl "xix", pl "xx"]

/-! ### converter.py: table text sets -/

/-- `MarkdownConverter._get_table_text_content`. -/
def getTableTextContent (tables : List CleanTable) : List PyStr :=
  (tables.flatten.flatten).filterMap (fun cell =>
    let t := normSpace cell
    if t.length > 3 then some t else none)

/-- `MarkdownConverter._is_table_text`. -/
def isTableText (tableContent : List PyStr) (text : PyStr) : Bool :=
  let normalized := normSpace text
  tableContent.contains normalized ||
  tableContent.any (fun tc =>
    tc.length > 10 &&
    (subOf tc normalized || (normalized.length > 5 && subOf normalized tc)))

/-! ### converter.py: hyperlink substitution -/

/-- Adjacent same-URL merging loop of `MarkdownConverter._apply_hyperlinks`
(the accumulator is reversed; its head is Python's `merged[-1]`). A new link
is absorbed into the previous entry when the URLs agree and the new link is
not internal. -/
def mergeLinksGo (acc : List Hyperlink) : List Hyperlink → List Hyperlink
  | [] => acc.reverse
  | l :: t =>
    match acc with
    | [] => mergeLinksGo [l] t
    | prev :: acc0 =>
      if prev.url = l.url && !l.isInternal then
        mergeLinksGo ({ prev with text := prev.text ++ ' ' :: l.text } :: acc0) t
      else mergeLinksGo (l :: prev :: acc0) t

def mergeLinks (links : List Hyperlink) : List Hyperlink := mergeLinksGo [] links

/-- Python `text.replace(pat, rep, 1)`: rewrite the first occurrence only. -/
def replaceOnce (pat rep : PyStr) : PyStr → PyStr
  | [] => if pat.isEmpty then rep else []
  | c :: t => if isPre pat (c :: t) then rep ++ (c :: t).drop pat.length
              else c :: replaceOnce pat rep t

/-- Internal-link resolution of `_apply_hyperlinks`: the first section whose
title matches the link target by case-insensitive substring containment. -/
def findInternalTarget (allSections : List (PyStr × PyStr)) (url : PyStr) : Option PyStr :=
  (allSections.find? (fun st =>
    subOf (lowerStr st.1) (lowerStr url) || subOf (lowerStr url) (lowerStr st.1))).map Prod.snd

/-- Substitution of one logical link span into the paragraph text. -/
def applyLink (allSections : List (PyStr × PyStr)) (text : PyStr) (ml : Hyperlink) : PyStr :=
  if !subOf ml.text text then text
  else if ml.isInternal then
    match findInternalTarget allSections ml.url with
    | some md =>
      replaceOnce ml.text (pl "[" ++ ml.text ++ pl "](../markdown/" ++ md ++ pl ")") text
    | none => text
  else replaceOnce ml.text (pl "[" ++ ml.text ++ pl "](" ++ ml.url ++ pl ")") text

/-- `MarkdownConverter._apply_hyperlinks`: merge adjacent same-URL spans,
then substitute the spans longest-text-first, each at most once. -/
def applyHyperlinks (cfg : Cfg) (text : PyStr) : PyStr :=
  let merged := mergeLinks cfg.links
  let ordered := sortStable (fun a b => a.text.length > b.text.length) merged
  ordered.foldl (applyLink cfg.allSections) text

/-! ### converter.py: list parsing -/

/-- The indent-band classification of `_parse_numbered` (source lines
622-629): level 3 from `base+14`, level 2 from `base+9`, level 1 from
`base+4`, otherwise level 0. -/
def levelOf (baseIndent ni : Int) : Nat :=
  if ni ≥ baseIndent + 14 then 3
  else if ni ≥ baseIndent + 9 then 2
  else if ni ≥ baseIndent + 4 then 1
  else 0

/-- One parsed numbered sub-item. -/
structure NItem where
  level : Nat
  marker : PyStr
  text : PyStr
deriving DecidableEq, Repr

/-- `current_at` of `_parse_numbered`: for each of the levels 1..3, the index
in the sub-item list of the currently open item (the Python dict holds
aliases into `sub_items`; the model holds indices). -/
structure CurAt where
  l1 : Option Nat
  l2 : Option Nat
  l3 : Option Nat
deriving DecidableEq, Repr

/-- Register a freshly appended item (index `idx`) at `level`, resetting all
deeper levels. -/
def CurAt.setAt (cur : CurAt) (level idx : Nat) : CurAt :=
  match level with
  | 1 => ⟨some idx, none, none⟩
  | 2 => ⟨cur.l1, some idx, none⟩
  | _ => ⟨cur.l1, cur.l2, some idx⟩

/-- The continuation target: the deepest open item at or below `level`
(`while target >= 1 and target not in current_at: target -= 1`). -/
def CurAt.target (cur : CurAt) (level : Nat) : Option Nat :=
  match level with
  | 3 => match cur.l3 with
         | some i => some i
         | none => match cur.l2 with
                   | some i => some i
                   | none => cur.l1
  | 2 => match cur.l2 with
         | some i => some i
         | none => cur.l1
  | _ => cur.l1

/-- The new-item pattern for a level: a letter marker at level 1, a valid
roman-numeral marker at level 2, a digit marker at level 3. -/
def newItemFor (level : Nat) (ns : PyStr) : Option NItem :=
  match level with
  | 1 => (matchLetterDot ns).map (fun p => ⟨1, [p.1], p.2⟩)
  | 2 =>
    match matchLettersDot ns with
    | some p => if romanNumerals.contains p.1 then some ⟨2, p.1, p.2⟩ else none
    | none => none
  | _ => (matchNumDot ns).map (fun p => ⟨3, p.1, p.2⟩)

/-- Final trimming of `_parse_numbered` (strip the top text and each item). -/
def finishNumbered (numText : PyStr) (subs : List NItem) (j : Nat) :
    PyStr × List NItem × Nat :=
  (stripWs numText, subs.map (fun it => { it with text := stripWs it.text }), j)

/-- The scan loop of `MarkdownConverter._parse_numbered`.  The loop advances
`j` by one per iteration, so fuel `lines.length + 1` always reaches the
source loop's own exit. -/
def parseNumberedGo (cfg : Cfg) (lines : List PyStr) (baseIndent : Int) :
    Nat → Nat → PyStr → List NItem → CurAt → PyStr × List NItem × Nat
  | 0, j, numText, subs, _ => finishNumbered numText subs j
  | fuel + 1, j, numText, subs, cur =>
    if j < lines.length then
      let nl := lines.getD j []
      let ns := stripWs nl
      if ns.isEmpty then parseNumberedGo cfg lines baseIndent fuel (j + 1) numText subs cur
      else
        let ni : Int := indentOf nl
        let nn := normSpace ns
        if isNextSectionTitle cfg nn then finishNumbered numText subs j
        else if isSubTitle cfg nn then finishNumbered numText subs j
        else if isPre (pl "•") ns then finishNumbered numText subs j
        else
          let level := levelOf baseIndent ni
          if level = 0 then
            if hasNumDot ns then finishNumbered numText subs j
            else if subs.isEmpty && ni ≥ baseIndent then
              parseNumberedGo cfg lines baseIndent fuel (j + 1) (numText ++ ' ' :: ns) subs cur
            else finishNumbered numText subs j
          else
            match newItemFor level ns with
            | some item =>
              parseNumberedGo cfg lines baseIndent fuel (j + 1) numText (subs ++ [item])
                (cur.setAt level subs.length)
            | none =>
              match cur.target level with
              | some idx =>
                parseNumberedGo cfg lines baseIndent fuel (j + 1) numText
                  (updAt idx (fun it => { it with text := it.text ++ ' ' :: ns }) subs) cur
              | none =>
                parseNumberedGo cfg lines baseIndent fuel (j + 1) (numText ++ ' ' :: ns) subs cur
    else finishNumbered numText subs j

/-- `MarkdownConverter._parse_numbered`. -/
def parseNumbered (cfg : Cfg) (lines : List PyStr) (start : Nat) (baseIndent : Int)
    (startAsSub : Bool) : PyStr × List NItem × Nat :=
  if startAsSub then
    parseNumberedGo cfg lines baseIndent (lines.length + 1) start [] [] ⟨none, none, none⟩
  else
    let line := lines.getD start []
    let numText := match matchNumDot (stripWs line) with
      | some p => p.2
      | none => []
    parseNumberedGo cfg lines baseIndent (lines.length + 1) (start + 1) numText [] ⟨none, none, none⟩

/-- The sub-sub marker glyph `''` of `_parse_bullet`. -/
def glyphSq : Char := Char.ofNat 0xf0a7

/-- The scan loop of `MarkdownConverter._parse_bullet`; sub-items are
`(level, text)` pairs, `lastSkip` is Python's `last_was_marker_skip`. -/
def parseBulletGo (cfg : Cfg) (lines : List PyStr) (baseIndent : Int) :
    Nat → Nat → PyStr → List (Nat × PyStr) → Bool → PyStr × List (Nat × PyStr) × Nat
  | 0, j, text, subs, _ => (stripWs text, subs, j)
  | fuel + 1, j, text, subs, lastSkip =>
    if j < lines.length then
      let nl := lines.getD j []
      let ns := stripWs nl
      if ns.isEmpty then parseBulletGo cfg lines baseIndent fuel (j + 1) text subs lastSkip
      else
        let ni : Int := indentOf nl
        let nn := normSpace ns
        if isNextSectionTitle cfg nn then (stripWs text, subs, j)
        else if isSubTitle cfg nn then (stripWs text, subs, j)
        else if isPre (pl "•") ns then (stripWs text, subs, j)
        else if ns = pl "o" || ns = [glyphSq] then
          parseBulletGo cfg lines baseIndent fuel (j + 1) text subs true
        else if isPre [glyphSq] ns && ns.length > 1 then
          let t := stripWs (ns.drop 1)
          let subs := if t.isEmpty then subs else subs ++ [(2, t)]
          parseBulletGo cfg lines baseIndent fuel (j + 1) text subs false
        else if ni ≥ baseIndent + 9 then
          let subs :=
            if (subs.getLast?.map Prod.fst) = some 2 then
              updLast (fun s => (2, s.2 ++ ' ' :: ns)) subs
            else subs ++ [(1, ns)]
          parseBulletGo cfg lines baseIndent fuel (j + 1) text subs false
        else if ni ≥ baseIndent + 4 then
          let subs :=
            if lastSkip && !subs.isEmpty && (subs.getLast?.map Prod.fst) = some 1 then
              updLast (fun s => (1, s.2 ++ ' ' :: ns)) subs
            else subs ++ [(1, ns)]
          parseBulletGo cfg lines baseIndent fuel (j + 1) text subs false
        else if ni ≥ baseIndent && ni < baseIndent + 4 then
          if subs.isEmpty then
            parseBulletGo cfg lines baseIndent fuel (j + 1) (text ++ ' ' :: ns) subs false
          else (stripWs text, subs, j)
        else (stripWs text, subs, j)
    else (stripWs text, subs, j)

/-- `MarkdownConverter._parse_bullet`. -/
def parseBullet (cfg : Cfg) (lines : List PyStr) (start : Nat) (baseIndent : Int) :
    PyStr × List (Nat × PyStr) × Nat :=
  let line := lines.getD start []
  let btext := stripWs ((stripWs line).drop 1)
  parseBulletGo cfg lines baseIndent (lines.length + 1) (start + 1) btext [] false

/-! ### converter.py: paragraph parsing -/

/-- Index of the first non-blank line at or after `k` (the blank-skipping
inner loop of `_parse_paragraph`); `lines.length` when there is none. -/
def findNonblankFrom (lines : List PyStr) : Nat → Nat → Nat
  | 0, k => k
  | fuel + 1, k =>
    if k < lines.length then
      if (stripWs (lines.getD k [])).isEmpty then findNonblankFrom lines fuel (k + 1)
      else k
    else k

/-- The scan loop of `MarkdownConverter._parse_paragraph`. -/
def parseParagraphGo (cfg : Cfg) (lines : List PyStr) (baseIndent : Int)
    (tableContent : List PyStr) : Nat → Nat → PyStr → PyStr × Nat
  | 0, j, text => (text, j)
  | fuel + 1, j, text =>
    if j < lines.length then
      let nl := lines.getD j []
      let ns := stripWs nl
      if ns.isEmpty then
        let k := findNonblankFrom lines (lines.length + 1) (j + 1)
        if k < lines.length then
          let peek := stripWs (lines.getD k [])
          if !peek.isEmpty && pyLower (peek.headD ' ') then
            parseParagraphGo cfg lines baseIndent tableContent fuel k text
          else (text, j)
        else (text, j)
      else
        let ni : Int := indentOf nl
        let nn := normSpace ns
        if isNextSectionTitle cfg nn then (text, j)
        else if isSubTitle cfg nn then (text, j)
        else if isTableText tableContent ns then
          parseParagraphGo cfg lines baseIndent tableContent fuel (j + 1) text
        else if isHeadingLine cfg nn then (text, j)
        else if isPre (pl "•") ns then (text, j)
        else if hasNumOrLetterDot ns then (text, j)
        else if (ni - baseIndent).natAbs < 10 then
          parseParagraphGo cfg lines baseIndent tableContent fuel (j + 1) (text ++ ' ' :: ns)
        else (text, j)
    else (text, j)

/-- `MarkdownConverter._parse_paragraph`. -/
def parseParagraph (cfg : Cfg) (lines : List PyStr) (start : Nat) (baseIndent : Int)
    (tableContent : List PyStr) : PyStr × Nat :=
  parseParagraphGo cfg lines baseIndent tableContent (lines.length + 1) (start + 1)
    (stripWs (lines.getD start []))

/-! ### converter.py: page scan -/

/-- `ContentItem` — the typed content stream (the dict variants built by
`_process_page` and `convert`; image items carry no Y in the source). -/
inductive ContentItem where
  | heading (level : Nat) (text : PyStr) (y : Int)
  | bullet (level : Nat) (text : PyStr) (y : Int)
  | numbered (level : Nat) (marker : PyStr) (text : PyStr) (y : Int)
  | paragraph (text : PyStr) (y : Int)
  | table (text : PyStr) (y : Int)
  | image (path : PyStr) (alt : PyStr)
deriving DecidableEq, Repr

/-- Python `item.get('y', 0.0)`. -/
def ContentItem.yOf : ContentItem → Int
  | .heading _ _ y => y
  | .bullet _ _ y => y
  | .numbered _ _ _ y => y
  | .paragraph _ y => y
  | .table _ y => y
  | .image _ _ => 0

/-- The `effective_base` estimation of `_process_page` (source lines
173-180): scan up to the next 29 lines for a top-level numbered line with a
smaller indent; default `indent - 5`. -/
def effectiveBaseGo (lines : List PyStr) (indent : Int) : Nat → Nat → Int
  | 0, _ => indent - 5
  | fuel + 1, k =>
    if k < lines.length then
      let l := lines.getD k []
      if (stripWs l).isEmpty then effectiveBaseGo lines indent fuel (k + 1)
      else if hasNumDot (stripWs l) && (indentOf l : Int) < indent then (indentOf l : Int)
      else effectiveBaseGo lines indent fuel (k + 1)
    else indent - 5

def effectiveBase (lines : List PyStr) (i : Nat) (indent : Int) : Int :=
  effectiveBaseGo lines indent (min (i + 30) lines.length - (i + 1)) (i + 1)

/-- The central while loop of `MarkdownConverter._process_page` (source
lines 115-214).  Returns the content items, the stop Y (set when another
section's title is recognized) and the table insertion point with its Y.
Each iteration advances `i` by at least one, so fuel `lines.length + 1`
always reaches the source loop's own exit. -/
def scanGo (cfg : Cfg) (lines : List PyStr) (linesY : List Int)
    (cleanedTables : List CleanTable) (tableBBoxes : List (Int × Int))
    (tableContent : List PyStr) :
    Nat → Nat → List ContentItem → Option (Nat × Int) →
    List ContentItem × Option Int × Option (Nat × Int)
  | 0, _, result, tiPos => (result, none, tiPos)
  | fuel + 1, i, result, tiPos =>
    if i < lines.length then
      let line := lines.getD i []
      let stripped := stripWs line
      if stripped.isEmpty then
        scanGo cfg lines linesY cleanedTables tableBBoxes tableContent fuel (i + 1) result tiPos
      else
        let indent : Int := indentOf line
        let normalized := normSpace stripped
        let itemY : Int := if i < linesY.length then linesY.getD i 0 else 0
        if isNextSectionTitle cfg normalized then (result, some itemY, tiPos)
        else if isSubTitle cfg normalized then
          scanGo cfg lines linesY cleanedTables tableBBoxes tableContent fuel (i + 1)
            (result ++ [.heading 2 normalized itemY]) tiPos
        else if isPre (pl "•") stripped then
          let r := parseBullet cfg lines i indent
          scanGo cfg lines linesY cleanedTables tableBBoxes tableContent fuel r.2.2
            (result ++ .bullet 0 r.1 itemY :: r.2.1.map (fun s => .bullet s.1 s.2 itemY)) tiPos
        else
          match matchNumDot stripped with
          | some p =>
            let r := parseNumbered cfg lines i indent false
            scanGo cfg lines linesY cleanedTables tableBBoxes tableContent fuel r.2.2
              (result ++ .numbered 0 p.1 r.1 itemY ::
                r.2.1.map (fun s => .numbered s.level s.marker s.text itemY)) tiPos
          | none =>
            if (matchLetterDot stripped).isSome && indent > 0 then
              let eb := effectiveBase lines i indent
              let r := parseNumbered cfg lines i eb true
              scanGo cfg lines linesY cleanedTables tableBBoxes tableContent fuel r.2.2
                (result ++ r.2.1.map (fun s => .numbered s.level s.marker s.text itemY)) tiPos
            else if !cleanedTables.isEmpty &&
                (isTableText tableContent normalized ||
                 tableBBoxes.any (fun b => b.1 ≤ itemY && itemY ≤ b.2)) then
              match tiPos with
              | none =>
                scanGo cfg lines linesY cleanedTables tableBBoxes tableContent fuel (i + 1)
                  result (some (result.length, itemY))
              | some _ =>
                scanGo cfg lines linesY cleanedTables tableBBoxes tableContent fuel (i + 1)
                  result tiPos
            else if isHeadingLine cfg normalized then
              scanGo cfg lines linesY cleanedTables tableBBoxes tableContent fuel (i + 1)
                (result ++ [.heading 3 normalized itemY]) tiPos
            else
              let r := parseParagraph cfg lines i indent
                (if cleanedTables.isEmpty then [] else tableContent)
              if (stripWs r.1).isEmpty then
                scanGo cfg lines linesY cleanedTables tableBBoxes tableContent fuel r.2 result tiPos
              else
                scanGo cfg lines linesY cleanedTables tableBBoxes tableContent fuel r.2
                  (result ++ [.paragraph (applyHyperlinks cfg r.1) itemY]) tiPos
    else (result, none, tiPos)

/-- `MarkdownConverter._table_to_markdown`. -/
def joinL (sep : PyStr) : List PyStr → PyStr
  | [] => []
  | [x] => x
  | x :: y :: t => x ++ sep ++ joinL sep (y :: t)

def tableToMarkdown (table : CleanTable) : PyStr :=
  if table.isEmpty || table.length < 2 then []
  else
    let maxCols := (table.map List.length).foldl max 0
    let padded := table.map (fun row => row ++ List.replicate (maxCols - row.length) [])
    let header := padded.headD []
    let mdRow := fun (row : List PyStr) => pl "| " ++ joinL (pl " | ") row ++ pl " |"
    joinL (pl "\n")
      (mdRow header :: mdRow (List.replicate header.length (pl "---")) ::
       (padded.drop 1).map (fun row => mdRow (row.take header.length)))

/-- The table-splicing loop after the scan (source lines 217-227). -/
def insertTablesGo (stopY : Option Int) :
    List (CleanTable × (Int × Int)) → List ContentItem → Option (Nat × Int) → List ContentItem
  | [], result, _ => result
  | tb :: rest, result, tiPos =>
    let skip : Bool := match stopY with
      | some sy => decide (tb.2.1 ≥ sy)
      | none => false
    if skip then insertTablesGo stopY rest result tiPos
    else if !tb.1.isEmpty && tb.1.length ≥ 2 then
      let md := tableToMarkdown tb.1
      if md.isEmpty then insertTablesGo stopY rest result tiPos
      else
        match tiPos with
        | some pi =>
          insertTablesGo stopY rest (insertAt pi.1 (.table md pi.2) result) (some (pi.1 + 1, pi.2))
        | none => insertTablesGo stopY rest (result ++ [.table md 0]) none
    else insertTablesGo stopY rest result tiPos

/-- `MarkdownConverter._find_own_section_start`: index one past the first
line whose normalized text equals the normalized section title, else 0 (the
page is then treated as entirely ours — the function never reports failure,
so the skip branch of `_process_page` is unreachable). -/
def findOwnSectionStartGo (own : PyStr) : Nat → List PyStr → Nat
  | _, [] => 0
  | idx, l :: rest =>
    if normalizeTitle (stripWs l) = own then idx + 1
    else findOwnSectionStartGo own (idx + 1) rest

def findOwnSectionStart (cfg : Cfg) (lines : List PyStr) : Nat :=
  findOwnSectionStartGo (normalizeTitle cfg.sectionTitle) 0 lines

/-- The accumulator pass of `MarkdownConverter._clean_page_text`; the
accumulators are reversed (head = most recent). -/
def cleanPageTextGo (headerIdx : List Nat) (allLineY : List Int) :
    List PyStr → Nat → Bool → List PyStr → List Int → List PyStr × List Int
  | [], _, _, accL, accY => (accL.reverse, accY.reverse)
  | line :: rest, idx, prevBlank, accL, accY =>
    let stripped := stripWs line
    if headerIdx.contains idx then
      cleanPageTextGo headerIdx allLineY rest (idx + 1) prevBlank accL accY
    else if isDigits stripped && stripped.length ≤ 3 then
      cleanPageTextGo headerIdx allLineY rest (idx + 1) prevBlank accL accY
    else if stripped.isEmpty then
      if !prevBlank && !accL.isEmpty then
        cleanPageTextGo headerIdx allLineY rest (idx + 1) true ([] :: accL)
          ((accY.headD 0) :: accY)
      else cleanPageTextGo headerIdx allLineY rest (idx + 1) prevBlank accL accY
    else
      cleanPageTextGo headerIdx allLineY rest (idx + 1) false (line :: accL)
        ((if idx < allLineY.length then allLineY.getD idx 0 else 0) :: accY)

/-- `MarkdownConverter._clean_page_text`. -/
def cleanPageText (headerIdx : List Nat) (allLineY : List Int) (lines : List PyStr) :
    List PyStr × List Int :=
  cleanPageTextGo headerIdx allLineY lines 0 false [] []

/-- One page as the layout source hands it to `_process_page`: the text
lines of `page.extract_text(layout=True)`, the per-line Y positions of
`_get_line_y_positions`, the header line indices of
`_get_header_line_indices`, and the raw tables with their `(top, bottom)`
boxes from `page.find_tables()`. -/
structure PageIn where
  lines : List PyStr
  allLineY : List Int
  headerIdx : List Nat
  rawTables : List RawTable
  bboxes : List (Int × Int)
deriving Repr

/-- `MarkdownConverter._process_page` together with the
`self._content_started` gate (source lines 76-229): returns the page's
content items, the stop Y and the updated started flag. -/
def processPage (cfg : Cfg) (started : Bool) (pg : PageIn) :
    List ContentItem × Option Int × Bool :=
  if pg.lines.isEmpty then ([], none, started)
  else
    let cleanedWithB := cleanTablesB cfg.headerTexts pg.rawTables pg.bboxes
    let cleanedTables := cleanedWithB.map Prod.fst
    let tableContent := getTableTextContent cleanedTables
    let lp := cleanPageText pg.headerIdx pg.allLineY pg.lines
    let lp :=
      if started then lp
      else
        let s := findOwnSectionStart cfg lp.1
        (lp.1.drop s, lp.2.drop s)
    let scanned := scanGo cfg lp.1 lp.2 cleanedTables pg.bboxes tableContent
      (lp.1.length + 1) 0 [] none
    (insertTablesGo scanned.2.1 cleanedWithB scanned.1 scanned.2.2, scanned.2.1, true)

/-! ### converter.py: convert and rendering -/

/-- `Path(image_path).name`: the last `/`-separated segment. -/
def lastSegment (p : PyStr) : PyStr := (p.reverse.takeWhile (· ≠ '/')).reverse

/-- `MarkdownConverter._get_relative_image_path`. -/
def relImagePath (savedPath : PyStr) : PyStr := pl "../assets/images/" ++ lastSegment savedPath

/-- Decimal rendering of a page number for the image alt text. -/
def pageAlt (pageNum : Nat) : PyStr := pl "Image from page " ++ Nat.toDigits 10 (pageNum + 1)

/-- The image interleaving loop of `MarkdownConverter.convert` (source
lines 48-70): emit every image whose Y precedes the next item's Y. -/
def mergeImagesGo (pageNum : Nat) (imgs : List PImage) : List ContentItem → List ContentItem
  | [] => imgs.map (fun im => .image (relImagePath (im.savedPath.getD [])) (pageAlt pageNum))
  | item :: items =>
    let itY := item.yOf
    (imgs.takeWhile (fun im => im.y < itY)).map
      (fun im => ContentItem.image (relImagePath (im.savedPath.getD [])) (pageAlt pageNum)) ++
    item :: mergeImagesGo pageNum (imgs.dropWhile (fun im => im.y < itY)) items

/-- Per-page body of `MarkdownConverter.convert`: scan the page, then merge
the page's saved images into the stream by Y position. -/
def convertPage (cfg : Cfg) (pageNum : Nat) (started : Bool) (pg : PageIn) :
    List ContentItem × Bool :=
  let pr := processPage cfg started pg
  let pageImages := sortStable (fun a b => a.y < b.y)
    (cfg.images.filter (fun im => im.pageNum = pageNum && im.savedPath.isSome))
  let pageImages := match pr.2.1 with
    | some sy => pageImages.filter (fun im => im.y < sy)
    | none => pageImages
  let merged := if pageImages.isEmpty then pr.1 else mergeImagesGo pageNum pageImages pr.1
  (merged, pr.2.2)

def convertGo (cfg : Cfg) : Nat → Bool → List PageIn → List ContentItem
  | _, _, [] => []
  | pageNum, started, pg :: rest =>
    let r := convertPage cfg pageNum started pg
    r.1 ++ convertGo cfg (pageNum + 1) r.2 rest

/-- Markdown rendering of one content item (`_format_to_markdown`). -/
def itemMd : ContentItem → PyStr
  | .heading lvl text _ => '\n' :: (List.replicate lvl '#' ++ ' ' :: text ++ ['\n'])
  | .bullet lvl text _ => List.replicate (2 * lvl) ' ' ++ pl "- " ++ text
  | .numbered lvl marker text _ => List.replicate (2 * lvl) ' ' ++ marker ++ pl ". " ++ text
  | .paragraph text _ => '\n' :: (text ++ ['\n'])
  | .table text _ => '\n' :: (text ++ ['\n'])
  | .image path alt => '\n' :: (pl "![" ++ alt ++ pl "](" ++ path ++ pl ")" ++ ['\n'])

/-- `MarkdownConverter._format_to_markdown`. -/
def formatToMarkdown (title : PyStr) (items : List ContentItem) : PyStr :=
  collapseNl (joinL (pl "\n") ((pl "# " ++ title ++ pl "\n") :: items.map itemMd))

/-- `MarkdownConverter.convert`: the full section conversion, returning the
markdown text (and only the markdown text). -/
def convert (cfg : Cfg) (pages : List PageIn) : PyStr :=
  formatToMarkdown cfg.sectionTitle (convertGo cfg 0 false pages)

/-- Shift a line's leading indentation by `k` spaces (the reformatting
operation of the indent-invariance property: texts unchanged, every line's
indent grows by the same constant). -/
def shiftLine (k : Nat) (l : PyStr) : PyStr := List.replicate k ' ' ++ l

/-- The per-line Y positions in which the `i`-th line sits at Y coordinate
`i` (the simplest faithful layout, used to track which source line each
emitted content item came from). -/
def rangeY (n : Nat) : List Int := (List.range n).map (fun m : Nat => (m : Int))

/-- A cell as the table cleaner emits it: single-line and already stripped
(`_clean_table_cell` joins stripped nonempty lines with single spaces, and
the later merging steps re-strip everything they touch). -/
def CellClean (s : PyStr) : Prop := ¬ '\n' ∈ s ∧ stripWs s = s

/-- A row of a cleaned table: the table's uniform width, clean cells. -/
def RowOK (m : Nat) (r : List PyStr) : Prop := r.length = m ∧ ∀ s ∈ r, CellClean s

/-- The shape invariant `_clean_tables` guarantees of every table it emits
from a rectangular raw table: at least two rows, uniform width at least
two, clean cells, a populated last column, no continuation rows after the
first, a header that a second `_merge_sparse_columns` pass skips, and no
blank rows. -/
def CleanInv (u : CleanTable) : Prop :=
  2 ≤ u.length ∧
  2 ≤ (u.headD []).length ∧
  (∀ row ∈ u, RowOK (u.headD []).length row) ∧
  (∃ row ∈ u, (stripWs (row.getD ((u.headD []).length - 1) [])).isEmpty = false) ∧
  (∀ row ∈ u.drop 1, isContRow row = false) ∧
  ((headerCols (u.headD [])).length ≥ (u.headD []).length ∨
    (headerCols (u.headD [])).length < 2) ∧
  (∀ row ∈ u, row.any (fun c => !(stripWs c).isEmpty) = true)

/-! ## Lemma library -/

theorem dropWhile_len_le (p : α → Bool) (l : List α) : (l.dropWhile p).length ≤ l.length := by
  induction l with
  | nil => simp [List.dropWhile]
  | cons c t ih =>
    simp only [List.dropWhile]
    split
    · exact Nat.le_succ_of_le ih
    · simp

theorem mem_of_mem_dropWhile (p : α → Bool) {l : List α} {c : α}
    (h : c ∈ l.dropWhile p) : c ∈ l := by
  induction l with
  | nil => simp [List.dropWhile] at h
  | cons x t ih =>
    simp only [List.dropWhile] at h
    split at h
    · exact List.mem_cons_of_mem x (ih h)
    · exact h

theorem head_dropWhile_not (p : α → Bool) (l : List α) (d : α) :
    l.dropWhile p = [] ∨ p ((l.dropWhile p).headD d) = false := by
  induction l with
  | nil => simp [List.dropWhile]
  | cons x t ih =>
    simp only [List.dropWhile]
    split
    · exact ih
    · rename_i h
      right
      simpa using h

theorem mem_collapseRuns {p : Char → Bool} {r : Char} {b : Bool} {s : PyStr} {c : Char}
    (h : c ∈ collapseRuns p r b s) : c = r ∨ (c ∈ s ∧ p c = false) := by
  induction s generalizing b with
  | nil => simp [collapseRuns] at h
  | cons x t ih =>
    simp only [collapseRuns] at h
    by_cases hx : p x
    · simp only [hx, if_true] at h
      by_cases hb : b
      · subst hb
        simp only [if_true] at h
        rcases ih h with h1 | h2
        · exact Or.inl h1
        · exact Or.inr ⟨List.mem_cons_of_mem x h2.1, h2.2⟩
      · simp only [hb, if_false] at h
        rcases List.mem_cons.mp h with h1 | h1
        · exact Or.inl h1
        · rcases ih h1 with h2 | h3
          · exact Or.inl h2
          · exact Or.inr ⟨List.mem_cons_of_mem x h3.1, h3.2⟩
    · simp only [hx, if_false] at h
      rcases List.mem_cons.mp h with h1 | h1
      · subst h1
        exact Or.inr ⟨List.mem_cons_self c t, by simpa using hx⟩
      · rcases ih h1 with h2 | h3
        · exact Or.inl h2
        · exact Or.inr ⟨List.mem_cons_of_mem x h3.1, h3.2⟩

theorem mem_of_mem_take {l : List α} {n : Nat} {c : α} (h : c ∈ l.take n) : c ∈ l :=
  List.mem_of_mem_take h

theorem mem_of_mem_rstripChars {cs : List Char} {s : PyStr} {c : Char}
    (h : c ∈ rstripChars cs s) : c ∈ s := by
  unfold rstripChars at h
  have := mem_of_mem_dropWhile _ (List.mem_reverse.mp h)
  exact List.mem_reverse.mp this

theorem mem_of_mem_stripChars {cs : List Char} {s : PyStr} {c : Char}
    (h : c ∈ stripChars cs s) : c ∈ s := by
  unfold stripChars at h
  have h1 := mem_of_mem_dropWhile _ (List.mem_reverse.mp h)
  exact mem_of_mem_dropWhile _ (List.mem_reverse.mp h1)

theorem mem_of_mem_stripWs {s : PyStr} {c : Char} (h : c ∈ stripWs s) : c ∈ s := by
  unfold stripWs rstripWs lstripWs at h
  have h1 := mem_of_mem_dropWhile _ (List.mem_reverse.mp h)
  exact mem_of_mem_dropWhile _ (List.mem_reverse.mp h1)

theorem rstripChars_len_le (cs : List Char) (s : PyStr) :
    (rstripChars cs s).length ≤ s.length := by
  unfold rstripChars
  have := dropWhile_len_le (cs.contains ·) s.reverse
  simpa using this

/-- `rstripChars` removes only a suffix: the result followed by the removed
tail is the original string. -/
theorem rstripChars_append (cs : List Char) (s : PyStr) :
    rstripChars cs s ++ (s.reverse.takeWhile (cs.contains ·)).reverse = s := by
  unfold rstripChars
  rw [← List.reverse_append, List.takeWhile_append_dropWhile, List.reverse_reverse]

/-- A nonempty prefix keeps the head. -/
theorem headD_of_append {p t s : List α} {d : α} (hp : p ++ t = s) (hne : p ≠ []) :
    s.headD d = p.headD d := by
  cases p with
  | nil => exact absurd rfl hne
  | cons x r => simp [← hp]

/-- `rstripChars` keeps the head when the result is nonempty. -/
theorem rstripChars_head (cs : List Char) (s : PyStr) (d : Char)
    (h : rstripChars cs s ≠ []) : (rstripChars cs s).headD d = s.headD d :=
  (headD_of_append (rstripChars_append cs s) h).symm

theorem headD_reverse (l : List α) (d : α) : l.reverse.headD d = l.getLastD d := by
  simp [List.headD_eq_head?, List.getLastD_eq_getLast?, List.head?_reverse]

/-- The result of `stripChars` neither starts nor ends with a stripped
character (with the stripped character itself as the default, emptiness is
also excluded from the conclusion's use sites). -/
theorem stripChars_head (cs : List Char) (s : PyStr) (d : Char)
    (h : stripChars cs s ≠ []) : cs.contains ((stripChars cs s).headD d) = false := by
  have heq : stripChars cs s = rstripChars cs (s.dropWhile (cs.contains ·)) := rfl
  rw [heq] at h ⊢
  rw [rstripChars_head _ _ _ h]
  rcases head_dropWhile_not (cs.contains ·) s d with h1 | h2
  · rw [h1] at h
    exact absurd rfl h
  · exact h2

theorem rstripChars_last (cs : List Char) (s : PyStr) (d : Char)
    (h : rstripChars cs s ≠ []) : cs.contains ((rstripChars cs s).getLastD d) = false := by
  rw [← headD_reverse]
  have hrev : (rstripChars cs s).reverse = s.reverse.dropWhile (cs.contains ·) := by
    unfold rstripChars
    rw [List.reverse_reverse]
  rw [hrev]
  rcases head_dropWhile_not (cs.contains ·) s.reverse d with h1 | h2
  · exfalso
    apply h
    unfold rstripChars
    rw [h1]
    rfl
  · exact h2

theorem stripChars_last (cs : List Char) (s : PyStr) (d : Char)
    (h : stripChars cs s ≠ []) : cs.contains ((stripChars cs s).getLastD d) = false := by
  have heq : stripChars cs s = rstripChars cs (s.dropWhile (cs.contains ·)) := rfl
  rw [heq] at h ⊢
  exact rstripChars_last _ _ _ h

theorem stripWs_all_ws {s : PyStr} (h : ∀ c ∈ s, pyWs c = true) : stripWs s = [] := by
  unfold stripWs rstripWs lstripWs
  have h1 : s.dropWhile pyWs = [] := List.dropWhile_eq_nil_iff.mpr (by simpa using h)
  rw [h1]
  rfl

theorem headD_take {l : List α} {n : Nat} {d : α} (hl : l ≠ []) (hn : n ≠ 0) :
    (l.take n).headD d = l.headD d := by
  cases l with
  | nil => exact absurd rfl hl
  | cons x t =>
    cases n with
    | zero => exact absurd rfl hn
    | succ m => simp

/-- Every character of `sanitizeFilename`'s pre-fallback pipeline is neither
an invalid filename character nor whitespace. -/
theorem sanitize_pipeline_chars (name : PyStr) {c : Char}
    (h : c ∈ stripChars ['_'] (squashUnderscore (wsToUnderscore
      (stripWs (name.filter (fun c => ¬ invalidFileChar c)))))) :
    invalidFileChar c = false ∧ pyWs c = false := by
  have h3 := mem_of_mem_stripChars h
  rcases mem_collapseRuns h3 with h4 | h4
  · subst h4
    exact ⟨by decide, by decide⟩
  · rcases mem_collapseRuns h4.1 with h5 | h5
    · subst h5
      exact ⟨by decide, by decide⟩
    · have h6 := mem_of_mem_stripWs h5.1
      have h7 := (List.mem_filter.mp h6).2
      refine ⟨by simpa using h7, h5.2⟩

/-- C10: `sanitize_filename` always yields a nonempty name of at most 50
characters with no invalid filename characters and no whitespace, not
starting or ending with an underscore; an input consisting only of removed
characters (invalid characters and whitespace) yields the fallback
"Section".  Confirms the claim on `splitter.sanitize_filename`. -/
theorem c10_sanitize_filename (name : PyStr) :
    sanitizeFilename name ≠ [] ∧
    (sanitizeFilename name).length ≤ 50 ∧
    (∀ c ∈ sanitizeFilename name, invalidFileChar c = false ∧ pyWs c = false) ∧
    (sanitizeFilename name).headD '_' ≠ '_' ∧
    (sanitizeFilename name).getLastD '_' ≠ '_' ∧
    ((∀ c ∈ name, invalidFileChar c = true ∨ pyWs c = true) →
      sanitizeFilename name = pl "Section") := by
  have hdef : sanitizeFilename name =
      (if (if (stripChars ['_'] (squashUnderscore (wsToUnderscore
             (stripWs (name.filter (fun c => ¬ invalidFileChar c)))))).length > 50
          then rstripChars ['_'] ((stripChars ['_'] (squashUnderscore (wsToUnderscore
             (stripWs (name.filter (fun c => ¬ invalidFileChar c)))))).take 50)
          else stripChars ['_'] (squashUnderscore (wsToUnderscore
             (stripWs (name.filter (fun c => ¬ invalidFileChar c)))))).isEmpty
       then pl "Section"
       else (if (stripChars ['_'] (squashUnderscore (wsToUnderscore
             (stripWs (name.filter (fun c => ¬ invalidFileChar c)))))).length > 50
          then rstripChars ['_'] ((stripChars ['_'] (squashUnderscore (wsToUnderscore
             (stripWs (name.filter (fun c => ¬ invalidFileChar c)))))).take 50)
          else stripChars ['_'] (squashUnderscore (wsToUnderscore
             (stripWs (name.filter (fun c => ¬ invalidFileChar c))))))) := rfl
  generalize hn4 : stripChars ['_'] (squashUnderscore (wsToUnderscore
      (stripWs (name.filter (fun c => ¬ invalidFileChar c))))) = n4 at hdef
  have hn4chars : ∀ c ∈ n4, invalidFileChar c = false ∧ pyWs c = false := by
    intro c hc
    rw [← hn4] at hc
    exact sanitize_pipeline_chars name hc
  have hn4head : n4 ≠ [] → n4.headD '_' ≠ '_' := by
    intro hne
    rw [← hn4]
    have := stripChars_head ['_'] (squashUnderscore (wsToUnderscore
      (stripWs (name.filter (fun c => ¬ invalidFileChar c))))) '_' (by rw [hn4]; exact hne)
    simpa using this
  have hn4last : n4 ≠ [] → n4.getLastD '_' ≠ '_' := by
    intro hne
    rw [← hn4]
    have := stripChars_last ['_'] (squashUnderscore (wsToUnderscore
      (stripWs (name.filter (fun c => ¬ invalidFileChar c))))) '_' (by rw [hn4]; exact hne)
    simpa using this
  by_cases hlong : n4.length > 50
  all_goals simp only [hlong, if_true, if_false] at hdef
  · -- truncation branch
    generalize hn5 : rstripChars ['_'] (n4.take 50) = n5 at hdef
    by_cases hempty : n5.isEmpty
    all_goals simp only [hempty, if_true, if_false, Bool.false_eq_true] at hdef
    · -- fallback; but the fallback facts hold regardless of how we got here
      rw [hdef]
      refine ⟨by decide, by decide, by decide, by decide, by decide, fun _ => rfl⟩
    · rw [hdef]
      have hne : n5 ≠ [] := by
        intro h
        rw [h] at hempty
        exact hempty rfl
      refine ⟨hne, ?_, ?_, ?_, ?_, ?_⟩
      · rw [← hn5]
        calc (rstripChars ['_'] (n4.take 50)).length ≤ (n4.take 50).length :=
              rstripChars_len_le _ _
          _ ≤ 50 := by simp
      · intro c hc
        rw [← hn5] at hc
        exact hn4chars c (mem_of_mem_take (mem_of_mem_rstripChars hc))
      · rw [← hn5]
        rw [rstripChars_head _ _ _ (by rw [hn5]; exact hne)]
        rw [headD_take (by intro h; rw [h] at hlong; simp at hlong) (by omega)]
        exact hn4head (by intro h; rw [h] at hlong; simp at hlong)
      · rw [← hn5]
        have := rstripChars_last ['_'] (n4.take 50) '_' (by rw [hn5]; exact hne)
        simpa using this
      · intro hall
        exfalso
        -- all-removed input leads to an empty pipeline, contradicting n4.length > 50
        have h1 : ∀ c ∈ name.filter (fun c => ¬ invalidFileChar c), pyWs c = true := by
          intro c hc
          have hm := List.mem_filter.mp hc
          rcases hall c hm.1 with h | h
          · exfalso
            have := hm.2
            simp [h] at this
          · exact h
        have h2 : stripWs (name.filter (fun c => ¬ invalidFileChar c)) = [] :=
          stripWs_all_ws h1
        rw [h2] at hn4
        simp [wsToUnderscore, squashUnderscore, collapseRuns, stripChars,
          List.dropWhile] at hn4
        rw [hn4] at hlong
        simp at hlong
  · -- no-truncation branch: n5 = n4
    by_cases hempty : n4.isEmpty
    all_goals simp only [hempty, if_true, if_false, Bool.false_eq_true] at hdef
    · rw [hdef]
      refine ⟨by decide, by decide, by decide, by decide, by decide, fun _ => rfl⟩
    · rw [hdef]
      have hne : n4 ≠ [] := by
        intro h
        rw [h] at hempty
        exact hempty rfl
      refine ⟨hne, by omega, hn4chars, hn4head hne, hn4last hne, ?_⟩
      intro hall
      exfalso
      have h1 : ∀ c ∈ name.filter (fun c => ¬ invalidFileChar c), pyWs c = true := by
        intro c hc
        have hm := List.mem_filter.mp hc
        rcases hall c hm.1 with h | h
        · exfalso
          have := hm.2
          simp [h] at this
        · exact h
      have h2 : stripWs (name.filter (fun c => ¬ invalidFileChar c)) = [] :=
        stripWs_all_ws h1
      rw [h2] at hn4
      simp [wsToUnderscore, squashUnderscore, collapseRuns, stripChars,
        List.dropWhile] at hn4
      exact hne hn4

/-- C10 witness: the theorem applied at a concrete input with every
hypothesis discharged by evaluation. -/
theorem c10_sanitize_filename_witness :
    sanitizeFilename (pl "  My: Sec/tion  name  ") ≠ [] ∧
    (∀ c ∈ pl "<>??", invalidFileChar c = true ∨ pyWs c = true) ∧
    sanitizeFilename (pl "<>??") = pl "Section" := by
  refine ⟨(c10_sanitize_filename (pl "  My: Sec/tion  name  ")).1, by decide, ?_⟩
  exact (c10_sanitize_filename (pl "<>??")).2.2.2.2.2 (by decide)

/-! ## Boundary theorems (C3, C9) -/

theorem tocBoundary_clamped (total : Int) (ht : 1 ≤ total) (e : TOCEntry)
    (next? : Option (Option Int)) :
    0 ≤ (tocBoundary total e next?).startPage ∧
    (tocBoundary total e next?).startPage ≤ (tocBoundary total e next?).endPage ∧
    (tocBoundary total e next?).endPage ≤ total - 1 := by
  rcases hp : e.pageNum with _ | pa <;> rcases next? with _ | (_ | pb) <;>
    simp only [tocBoundary, hp] <;> refine ⟨?_, ?_, ?_⟩ <;> omega

theorem boundariesFromToc_clamped (total : Int) (ht : 1 ≤ total) :
    ∀ entries, ∀ b ∈ boundariesFromToc total entries,
      0 ≤ b.startPage ∧ b.startPage ≤ b.endPage ∧ b.endPage ≤ total - 1 := by
  intro entries
  induction entries with
  | nil => simp [boundariesFromToc]
  | cons e rest ih =>
    cases rest with
    | nil =>
      intro b hb
      simp only [boundariesFromToc, List.mem_singleton] at hb
      subst hb
      exact tocBoundary_clamped total ht e none
    | cons e2 rest2 =>
      intro b hb
      simp only [boundariesFromToc, List.mem_cons] at hb
      rcases hb with hb | hb
      · subst hb
        exact tocBoundary_clamped total ht e (some e2.pageNum)
      · exact ih b hb

theorem headingBoundary_clamped (total : Int) (h : HeadingEntry)
    (next? : Option Int) (hs : 0 ≤ h.pageNum ∧ h.pageNum ≤ total - 1)
    (hn : ∀ p, next? = some p → p ≤ total - 1) :
    0 ≤ (headingBoundary total h next?).startPage ∧
    (headingBoundary total h next?).startPage ≤ (headingBoundary total h next?).endPage ∧
    (headingBoundary total h next?).endPage ≤ total - 1 := by
  unfold headingBoundary
  cases next? with
  | none => dsimp only; omega
  | some p =>
    have := hn p rfl
    dsimp only
    omega

theorem boundariesFromHeadings_clamped (total : Int) :
    ∀ hs : List HeadingEntry,
      (∀ h ∈ hs, 0 ≤ h.pageNum ∧ h.pageNum ≤ total - 1) →
      ∀ b ∈ boundariesFromHeadings total hs,
        0 ≤ b.startPage ∧ b.startPage ≤ b.endPage ∧ b.endPage ≤ total - 1 := by
  intro hs
  induction hs with
  | nil => simp [boundariesFromHeadings]
  | cons h rest ih =>
    cases rest with
    | nil =>
      intro hin b hb
      simp only [boundariesFromHeadings, List.mem_singleton] at hb
      subst hb
      have h1 := hin h (List.mem_cons_self h [])
      unfold headingBoundary
      dsimp only
      omega
    | cons h2 rest2 =>
      intro hin b hb
      simp only [boundariesFromHeadings, List.mem_cons] at hb
      rcases hb with hb | hb
      · subst hb
        refine headingBoundary_clamped total h (some h2.pageNum)
          (hin h (List.mem_cons_self h _)) ?_
        intro p hp
        have h2r := hin h2 (List.mem_cons_of_mem h (List.mem_cons_self h2 _))
        rw [Option.some_inj] at hp
        omega
      · exact ih (fun x hx => hin x (List.mem_cons_of_mem h hx)) b hb

/-- C9 (corrected claim, as stated) counterexample: the heading fallback does
not clamp an out-of-range heading page — with 3 pages, a heading reported on
page 5 yields boundary (5,5), whose end page exceeds total_pages−1. -/
theorem c9_counterexample :
    boundariesFromHeadings 3 [⟨pl "H", 5⟩] = [⟨pl "H", 5, 5⟩] ∧
    ¬ (∀ b ∈ boundariesFromHeadings 3 [⟨pl "H", 5⟩],
        0 ≤ b.startPage ∧ b.startPage ≤ b.endPage ∧ b.endPage ≤ 3 - 1) := by
  refine ⟨rfl, ?_⟩
  intro h
  have h2 := h ⟨pl "H", 5, 5⟩ (by rw [(rfl : boundariesFromHeadings 3 [⟨pl "H", 5⟩] = [⟨pl "H", 5, 5⟩])]; exact List.mem_singleton.mpr rfl)
  simp only [] at h2
  omega

/-- C9 (amended): every boundary of the TOC path is clamped into
[0, total−1] with start ≤ end, for every input including out-of-range or
missing target pages; the heading-fallback path guarantees the same bounds
provided each heading's page index is in range (as `detect_h1_headings`
produces them), but does not itself clamp out-of-range pages. -/
theorem c9_boundary_clamping :
    (∀ (total : Int) (entries : List TOCEntry), 1 ≤ total →
      ∀ b ∈ boundariesFromToc total entries,
        0 ≤ b.startPage ∧ b.startPage ≤ b.endPage ∧ b.endPage ≤ total - 1) ∧
    (∀ (total : Int) (hs : List HeadingEntry),
      (∀ h ∈ hs, 0 ≤ h.pageNum ∧ h.pageNum ≤ total - 1) →
      ∀ b ∈ boundariesFromHeadings total hs,
        0 ≤ b.startPage ∧ b.startPage ≤ b.endPage ∧ b.endPage ≤ total - 1) :=
  ⟨fun total entries ht => boundariesFromToc_clamped total ht entries,
   fun total hs hin => boundariesFromHeadings_clamped total hs hin⟩

/-- C9 witness: the amended theorem applied at concrete inputs (a TOC entry
with an out-of-range negative page and one beyond the end; an in-range
heading list). -/
theorem c9_boundary_clamping_witness :
    (∀ b ∈ boundariesFromToc 3 [⟨pl "A", 1, some (-2)⟩, ⟨pl "B", 1, some 9⟩],
      0 ≤ b.startPage ∧ b.startPage ≤ b.endPage ∧ b.endPage ≤ 3 - 1) ∧
    (∀ b ∈ boundariesFromHeadings 3 [⟨pl "H", 1⟩, ⟨pl "K", 2⟩],
      0 ≤ b.startPage ∧ b.startPage ≤ b.endPage ∧ b.endPage ≤ 3 - 1) :=
  ⟨c9_boundary_clamping.1 3 _ (by decide),
   c9_boundary_clamping.2 3 _ (by decide)⟩

theorem boundariesFromToc_length (total : Int) :
    ∀ entries : List TOCEntry,
      (boundariesFromToc total entries).length = entries.length := by
  intro entries
  induction entries with
  | nil => rfl
  | cons e rest ih =>
    cases rest with
    | nil => rfl
    | cons e2 rest2 =>
      simp only [boundariesFromToc, List.length_cons] at *
      omega

theorem tocBoundary_start_of_some (total : Int) (e : TOCEntry) (n? : Option (Option Int))
    {p : Int} (hp : e.pageNum = some p) :
    (tocBoundary total e n?).startPage = max 0 (min p (total - 1)) := by
  rcases n? with _ | (_ | pb) <;> simp only [tocBoundary, hp]

/-- Shape of the boundary list on a nonempty entry list: a first boundary
followed by the boundaries of the tail. -/
theorem boundariesFromToc_cons_shape (total : Int) (e2 : TOCEntry) (rest2 : List TOCEntry) :
    ∃ n2, boundariesFromToc total (e2 :: rest2) =
      tocBoundary total e2 n2 :: boundariesFromToc total rest2 := by
  cases rest2 with
  | nil => exact ⟨none, rfl⟩
  | cons e3 rest3 => exact ⟨some e3.pageNum, rfl⟩

theorem boundariesFromToc_contig (total : Int) (ht : 1 ≤ total) :
    ∀ entries : List TOCEntry,
      (∀ e ∈ entries, ∃ p, e.pageNum = some p ∧ 0 ≤ p ∧ p ≤ total - 1) →
      List.Chain' (fun a b => a.pageNum.getD 0 ≤ b.pageNum.getD 0) entries →
      List.Chain' (fun b1 b2 => b1.endPage = b2.startPage) (boundariesFromToc total entries) ∧
      (entries ≠ [] →
        ((boundariesFromToc total entries).getLastD ⟨[], 0, 0⟩).endPage = total - 1) := by
  intro entries
  induction entries with
  | nil => exact fun _ _ => ⟨List.chain'_nil, fun h => absurd rfl h⟩
  | cons e rest ih =>
    intro hin hch
    cases rest with
    | nil =>
      obtain ⟨pa, hpa, hpa0, hpa1⟩ := hin e (List.mem_cons_self e [])
      constructor
      · exact List.chain'_singleton _
      · intro _
        simp only [boundariesFromToc, tocBoundary, hpa, List.getLastD_cons,
          List.getLastD_nil]
        omega
    | cons e2 rest2 =>
      obtain ⟨pa, hpa, hpa0, hpa1⟩ := hin e (List.mem_cons_self e _)
      obtain ⟨pb, hpb, hpb0, hpb1⟩ := hin e2 (List.mem_cons_of_mem e (List.mem_cons_self e2 _))
      have hch2 := List.chain'_cons.mp hch
      have hle : pa ≤ pb := by
        have h1 := hch2.1
        rw [hpa, hpb] at h1
        simpa using h1
      have ihr := ih (fun x hx => hin x (List.mem_cons_of_mem e hx)) hch2.2
      obtain ⟨n2, hshape⟩ := boundariesFromToc_cons_shape total e2 rest2
      have hb1 : boundariesFromToc total (e :: e2 :: rest2) =
          tocBoundary total e (some e2.pageNum) :: boundariesFromToc total (e2 :: rest2) := rfl
      have hend : (tocBoundary total e (some e2.pageNum)).endPage =
          (tocBoundary total e2 n2).startPage := by
        rw [tocBoundary_start_of_some total e2 n2 hpb]
        simp only [tocBoundary, hpa, hpb]
        omega
      constructor
      · rw [hb1, hshape]
        rw [List.chain'_cons]
        rw [hshape] at ihr
        exact ⟨hend, ihr.1⟩
      · intro _
        rw [hb1]
        rw [List.getLastD_cons]
        have hne2 : boundariesFromToc total (e2 :: rest2) ≠ [] := by
          rw [hshape]
          exact List.cons_ne_nil _ _
        have hlast := ihr.2 (List.cons_ne_nil e2 rest2)
        calc ((boundariesFromToc total (e2 :: rest2)).getLastD
                (tocBoundary total e (some e2.pageNum))).endPage
            = ((boundariesFromToc total (e2 :: rest2)).getLastD ⟨[], 0, 0⟩).endPage := by
              rw [List.getLastD_eq_getLast?, List.getLastD_eq_getLast?]
              cases hq : (boundariesFromToc total (e2 :: rest2)).getLast? with
              | none =>
                exfalso
                exact hne2 (List.getLast?_eq_none_iff.mp hq)
              | some b => rfl
          _ = total - 1 := hlast

/-- C3 (corrected claim) counterexample: a detected TOC whose second level-1
entry has no parseable target page produces non-contiguous boundaries — the
first boundary ends at the last page while the second starts at page 0. -/
theorem c3_counterexample :
    mainTocBoundaries 5 [⟨pl "Alpha", 1, some 0⟩, ⟨pl "Beta", 1, none⟩] =
      [⟨pl "Alpha", 0, 4⟩, ⟨pl "Beta", 0, 4⟩] ∧
    ((mainTocBoundaries 5 [⟨pl "Alpha", 1, some 0⟩, ⟨pl "Beta", 1, none⟩]).getD 0
        ⟨[], 0, 0⟩).endPage = 4 ∧
    ((mainTocBoundaries 5 [⟨pl "Alpha", 1, some 0⟩, ⟨pl "Beta", 1, none⟩]).getD 1
        ⟨[], 0, 0⟩).startPage = 0 ∧
    ¬ List.Chain' (fun b1 b2 => b1.endPage = b2.startPage)
      (mainTocBoundaries 5 [⟨pl "Alpha", 1, some 0⟩, ⟨pl "Beta", 1, none⟩]) := by
  refine ⟨rfl, rfl, rfl, ?_⟩
  intro h
  have := (List.chain'_cons.mp (by
    rw [(rfl : mainTocBoundaries 5 [⟨pl "Alpha", 1, some 0⟩, ⟨pl "Beta", 1, none⟩] =
      [⟨pl "Alpha", 0, 4⟩, ⟨pl "Beta", 0, 4⟩])] at h
    exact h)).1
  exact absurd this (by decide)

/-- C3 (amended): the boundary detector's TOC path produces exactly one
boundary per level-1 TOC entry, and when every level-1 entry carries an
in-range target page and the target pages are nondecreasing, the boundaries
are contiguous in page order with each end page equal to the next start page
and the last boundary ending at total_pages−1; with a missing or
out-of-order target page, contiguity can fail. -/
theorem c3_toc_section_boundaries :
    (∀ (total : Int) (toc : List TOCEntry),
      (mainTocBoundaries total toc).length =
        (toc.filter (fun e => e.level = 1)).length) ∧
    (∀ (total : Int) (toc : List TOCEntry), 1 ≤ total →
      (∀ e ∈ toc.filter (fun e => e.level = 1),
        ∃ p, e.pageNum = some p ∧ 0 ≤ p ∧ p ≤ total - 1) →
      List.Chain' (fun a b => a.pageNum.getD 0 ≤ b.pageNum.getD 0)
        (toc.filter (fun e => e.level = 1)) →
      List.Chain' (fun b1 b2 => b1.endPage = b2.startPage) (mainTocBoundaries total toc) ∧
      (toc.filter (fun e => e.level = 1) ≠ [] →
        ((mainTocBoundaries total toc).getLastD ⟨[], 0, 0⟩).endPage = total - 1)) := by
  constructor
  · intro total toc
    exact boundariesFromToc_length total _
  · intro total toc ht hin hch
    exact boundariesFromToc_contig total ht _ hin hch

/-- C3 witness: the amended theorem applied to a concrete TOC (two level-1
entries with nondecreasing in-range pages and a level-2 entry that is
filtered out), with the hypotheses discharged by evaluation. -/
theorem c3_toc_section_boundaries_witness :
    (mainTocBoundaries 6 [⟨pl "A", 1, some 1⟩, ⟨pl "Sub", 2, some 2⟩, ⟨pl "B", 1, some 3⟩]).length = 2 ∧
    List.Chain' (fun b1 b2 => b1.endPage = b2.startPage)
      (mainTocBoundaries 6 [⟨pl "A", 1, some 1⟩, ⟨pl "Sub", 2, some 2⟩, ⟨pl "B", 1, some 3⟩]) ∧
    ((mainTocBoundaries 6 [⟨pl "A", 1, some 1⟩, ⟨pl "Sub", 2, some 2⟩, ⟨pl "B", 1, some 3⟩]).getLastD
      ⟨[], 0, 0⟩).endPage = 5 := by
  have h1 := c3_toc_section_boundaries.1 6
    [⟨pl "A", 1, some 1⟩, ⟨pl "Sub", 2, some 2⟩, ⟨pl "B", 1, some 3⟩]
  have h2 := c3_toc_section_boundaries.2 6
    [⟨pl "A", 1, some 1⟩, ⟨pl "Sub", 2, some 2⟩, ⟨pl "B", 1, some 3⟩]
    (by decide)
    (by
      intro e he
      fin_cases he
      · exact ⟨1, rfl, by decide, by decide⟩
      · exact ⟨3, rfl, by decide, by decide⟩)
    (List.chain'_pair.mpr (by decide))
  refine ⟨?_, h2.1, ?_⟩
  · rw [h1]; rfl
  · have := h2.2 (by decide)
    simpa using this

/-- C4: numbered-list nesting levels are assigned by indent band relative to
the item's base indent (level 0 up to base+3, level 1 in [base+4, base+9),
level 2 in [base+9, base+14), level 3 from base+14), and a page carrying
"1. First item" / "    a. Sub item" / "         i. Roman sub" classifies as
exactly Numbered(0,"1","First item"), Numbered(1,"a","Sub item"),
Numbered(2,"i","Roman sub") in that order. -/
theorem c4_numbered_levels :
    (∀ baseIndent indent : Int,
      (indent ≤ baseIndent + 3 → levelOf baseIndent indent = 0) ∧
      (baseIndent + 4 ≤ indent → indent < baseIndent + 9 → levelOf baseIndent indent = 1) ∧
      (baseIndent + 9 ≤ indent → indent < baseIndent + 14 → levelOf baseIndent indent = 2) ∧
      (baseIndent + 14 ≤ indent → levelOf baseIndent indent = 3)) ∧
    (processPage (Cfg.mk (pl "Overview") [(pl "Overview", pl "S1.md")] [] [] [] []) true
      (PageIn.mk [pl "1. First item", pl "    a. Sub item", pl "         i. Roman sub"]
        [10, 20, 30] [] [] [])).1 =
      [.numbered 0 (pl "1") (pl "First item") 10,
       .numbered 1 (pl "a") (pl "Sub item") 10,
       .numbered 2 (pl "i") (pl "Roman sub") 10] := by
  constructor
  · intro baseIndent indent
    refine ⟨?_, ?_, ?_, ?_⟩ <;> intro h <;> try intro h2
    all_goals unfold levelOf
    all_goals split_ifs <;> omega
  · decide

/-- C4 witness: the band statements applied at concrete indents. -/
theorem c4_numbered_levels_witness :
    levelOf 0 2 = 0 ∧ levelOf 0 5 = 1 ∧ levelOf 0 10 = 2 ∧ levelOf 0 20 = 3 :=
  ⟨(c4_numbered_levels.1 0 2).1 (by decide),
   (c4_numbered_levels.1 0 5).2.1 (by decide) (by decide),
   (c4_numbered_levels.1 0 10).2.2.1 (by decide) (by decide),
   (c4_numbered_levels.1 0 20).2.2.2 (by decide)⟩

theorem fossGo_no_match (own : PyStr) :
    ∀ (lines : List PyStr) (idx : Nat),
      (∀ l ∈ lines, normalizeTitle (stripWs l) ≠ own) →
      findOwnSectionStartGo own idx lines = 0 := by
  intro lines
  induction lines with
  | nil => intro idx _; rfl
  | cons l rest ih =>
    intro idx hno
    rw [findOwnSectionStartGo, if_neg (hno l (List.mem_cons_self l rest))]
    exact ih (idx + 1) (fun x hx => hno x (List.mem_cons_of_mem l hx))

theorem fossGo_found (own : PyStr) :
    ∀ (lines : List PyStr) (idx i : Nat), i < lines.length →
      normalizeTitle (stripWs (lines.getD i [])) = own →
      (∀ j < i, normalizeTitle (stripWs (lines.getD j [])) ≠ own) →
      findOwnSectionStartGo own idx lines = idx + i + 1 := by
  intro lines
  induction lines with
  | nil => intro idx i hi; simp at hi
  | cons l rest ih =>
    intro idx i hi hmatch hbefore
    cases i with
    | zero =>
      simp only [List.getD_cons_zero] at hmatch
      rw [findOwnSectionStartGo, if_pos hmatch]
    | succ i0 =>
      have hl : normalizeTitle (stripWs l) ≠ own := by
        have := hbefore 0 (Nat.succ_pos i0)
        simpa using this
      have hrec := ih (idx + 1) i0 (by simpa using hi)
        (by simpa using hmatch)
        (by
          intro j hj
          have := hbefore (j + 1) (Nat.succ_lt_succ hj)
          simpa using this)
      rw [findOwnSectionStartGo]
      rw [if_neg hl]
      rw [hrec]
      omega

set_option maxHeartbeats 2000000 in
/-- C2 (corrected claim) counterexample: a page carrying no line matching the
section title, scanned before the section has started, still contributes
content (the skip branch of `_process_page` is dead: the title search
returns 0 rather than a failure marker), and the section is marked started. -/
theorem c2_counterexample :
    (∀ l ∈ [pl "Hello world"],
      normalizeTitle (stripWs l) ≠ normalizeTitle (pl "My Section")) ∧
    processPage (Cfg.mk (pl "My Section") [(pl "My Section", pl "S1.md")] [] [] [] []) false
      (PageIn.mk [pl "Hello world"] [7] [] [] []) =
      ([.heading 3 (pl "Hello world") 7], none, true) := by
  constructor
  · decide
  · decide

/-- C2 (amended): before the section has started, the title search behaves
as follows — if no line of the page normalizes to the section title the
search returns 0, so the page is processed from its first line rather than
skipped; if some line matches, the search returns one past the first
matching line, so everything up to and including it is discarded; in both
cases the section is marked started after any nonempty page. -/
theorem c2_section_start_gate :
    (∀ (cfg : Cfg) (lines : List PyStr),
      (∀ l ∈ lines, normalizeTitle (stripWs l) ≠ normalizeTitle cfg.sectionTitle) →
      findOwnSectionStart cfg lines = 0) ∧
    (∀ (cfg : Cfg) (lines : List PyStr) (i : Nat), i < lines.length →
      normalizeTitle (stripWs (lines.getD i [])) = normalizeTitle cfg.sectionTitle →
      (∀ j < i, normalizeTitle (stripWs (lines.getD j [])) ≠ normalizeTitle cfg.sectionTitle) →
      findOwnSectionStart cfg lines = i + 1) ∧
    (∀ (cfg : Cfg) (pg : PageIn), ¬ pg.lines.isEmpty →
      (processPage cfg false pg).2.2 = true) := by
  refine ⟨?_, ?_, ?_⟩
  · intro cfg lines hno
    exact fossGo_no_match _ lines 0 hno
  · intro cfg lines i hi hm hb
    have := fossGo_found (normalizeTitle cfg.sectionTitle) lines 0 i hi hm hb
    simpa [findOwnSectionStart] using this
  · intro cfg pg hne
    unfold processPage
    rw [if_neg (by simpa using hne)]

set_option maxHeartbeats 2000000 in
/-- C2 witness: the amended theorem applied at concrete pages — one without
the title (search returns 0, page still processed, section marked started)
and one with the title on its second line (search returns 2). -/
theorem c2_section_start_gate_witness :
    findOwnSectionStart (Cfg.mk (pl "My Section") [] [] [] [] []) [pl "Hello world"] = 0 ∧
    findOwnSectionStart (Cfg.mk (pl "My Section") [] [] [] [] [])
      [pl "before", pl "  my section:  ", pl "after"] = 2 ∧
    (processPage (Cfg.mk (pl "My Section") [] [] [] [] []) false
      (PageIn.mk [pl "Hello world"] [7] [] [] [])).2.2 = true := by
  refine ⟨?_, ?_, ?_⟩
  · exact c2_section_start_gate.1 _ _ (by decide)
  · exact c2_section_start_gate.2.1 _ _ 1 (by decide) (by decide)
      (by
        intro j hj
        interval_cases j
        decide)
  · exact c2_section_start_gate.2.2 _ _ (by decide)

set_option maxHeartbeats 2000000 in
/-- C1 evidence: on a section whose only page yields no extractable text,
`MarkdownConverter.convert` completes and returns nothing but the bare title
heading — a single markdown string with no separate "no meaningful content"
signal in its return value (the caller in `main.py` expects a
`(markdown, has_meaningful_content)` pair and a `next_section_title`
constructor argument that this converter does not provide). -/
theorem c1_convert_no_signal :
    convert (Cfg.mk (pl "Overview") [(pl "Overview", pl "S1.md")] [] [] [] [])
      [PageIn.mk [] [] [] [] []] = pl "# Overview\n" := by
  decide

theorem isPre_append {p s : PyStr} (h : isPre p s = true) : p ++ s.drop p.length = s := by
  induction p generalizing s with
  | nil => simp
  | cons c p0 ih =>
    cases s with
    | nil => simp [isPre] at h
    | cons d t =>
      simp only [isPre, Bool.and_eq_true, decide_eq_true_eq] at h
      obtain ⟨rfl, h2⟩ := h
      simp only [List.cons_append, List.length_cons, List.drop_succ_cons]
      rw [ih h2]

theorem replaceOnce_of_not_sub (pat rep : PyStr) :
    ∀ s, subOf pat s = false → replaceOnce pat rep s = s := by
  intro s
  induction s with
  | nil =>
    intro h
    simp only [subOf] at h
    simp [replaceOnce, h]
  | cons c t ih =>
    intro h
    simp only [subOf, Bool.or_eq_false_iff] at h
    simp only [replaceOnce, h.1, Bool.false_eq_true, if_false]
    rw [ih h.2]

theorem replaceOnce_of_sub (pat rep : PyStr) :
    ∀ s, subOf pat s = true →
      ∃ pre suf, s = pre ++ pat ++ suf ∧ replaceOnce pat rep s = pre ++ rep ++ suf := by
  intro s
  induction s with
  | nil =>
    intro h
    simp only [subOf, List.isEmpty_iff] at h
    subst h
    exact ⟨[], [], rfl, by simp [replaceOnce]⟩
  | cons c t ih =>
    intro h
    by_cases hp : isPre pat (c :: t) = true
    · refine ⟨[], (c :: t).drop pat.length, ?_, ?_⟩
      · simpa using (isPre_append hp).symm
      · simp [replaceOnce, hp]
    · simp only [subOf, Bool.or_eq_true] at h
      rcases h with h | h
      · exact absurd h hp
      · obtain ⟨pre, suf, hs, hr⟩ := ih h
        refine ⟨c :: pre, suf, by simp [hs], ?_⟩
        simp only [replaceOnce, hp, Bool.false_eq_true, if_false]
        · simp only [List.cons_append]
          rw [hr]

theorem mergeLinksGo_props (T : List PyStr) :
    ∀ (rest acc : List Hyperlink),
      (∀ l ∈ rest, l.isInternal = isInternalUri l.url) →
      (∀ l ∈ rest, l.isInternal = true → l.text ∈ T) →
      (∀ e ∈ acc, e.isInternal = isInternalUri e.url) →
      (∀ e ∈ acc, e.isInternal = true → e.text ∈ T) →
      List.Chain' (fun a b => b.url = a.url → a.isInternal = true) acc →
      (∀ e ∈ mergeLinksGo acc rest, e.isInternal = true → e.text ∈ T) ∧
      List.Chain' (fun a b => a.url = b.url → b.isInternal = true) (mergeLinksGo acc rest) := by
  intro rest
  induction rest with
  | nil =>
    intro acc _ _ _ hat hch
    constructor
    · intro e he
      exact hat e (List.mem_reverse.mp (by simpa [mergeLinksGo] using he))
    · show List.Chain' _ acc.reverse
      rw [List.chain'_reverse]
      exact hch
  | cons l rest0 ih =>
    intro acc hrf hrt haf hat hch
    have hlf := hrf l (List.mem_cons_self l rest0)
    have hlt := hrt l (List.mem_cons_self l rest0)
    have hrf0 := fun x hx => hrf x (List.mem_cons_of_mem l hx)
    have hrt0 := fun x hx => hrt x (List.mem_cons_of_mem l hx)
    cases acc with
    | nil =>
      show (∀ e ∈ mergeLinksGo [l] rest0, _) ∧ _
      refine ih [l] hrf0 hrt0 ?_ ?_ ?_
      · intro e he
        rw [List.mem_singleton] at he
        subst he
        exact hlf
      · intro e he
        rw [List.mem_singleton] at he
        subst he
        exact hlt
      · exact List.chain'_singleton l
    | cons prev acc0 =>
      by_cases hm : (prev.url = l.url && !l.isInternal) = true
      · -- merge branch
        rw [Bool.and_eq_true, Bool.not_eq_true', decide_eq_true_eq] at hm
        have hmerge : mergeLinksGo (prev :: acc0) (l :: rest0) =
            mergeLinksGo ({ prev with text := prev.text ++ ' ' :: l.text } :: acc0) rest0 := by
          simp [mergeLinksGo, hm.1, hm.2]
        rw [hmerge]
        have hprevflag := haf prev (List.mem_cons_self prev acc0)
        have hprevint : prev.isInternal = false := by
          rw [hprevflag, hm.1, ← hlf, hm.2]
        refine ih _ hrf0 hrt0 ?_ ?_ ?_
        · intro e he
          rcases List.mem_cons.mp he with rfl | he0
          · simpa using hprevflag
          · exact haf e (List.mem_cons_of_mem prev he0)
        · intro e he
          rcases List.mem_cons.mp he with rfl | he0
          · intro hint
            exfalso
            rw [show ({ prev with text := prev.text ++ ' ' :: l.text } : Hyperlink).isInternal
                = prev.isInternal from rfl] at hint
            rw [hprevint] at hint
            exact Bool.false_ne_true hint
          · exact hat e (List.mem_cons_of_mem prev he0)
        · cases acc0 with
          | nil => exact List.chain'_singleton _
          | cons b acc1 =>
            rw [List.chain'_cons] at hch ⊢
            exact ⟨hch.1, hch.2⟩
      · -- push branch
        have hpush : mergeLinksGo (prev :: acc0) (l :: rest0) =
            mergeLinksGo (l :: prev :: acc0) rest0 := by
          simp only [mergeLinksGo]
          rw [if_neg (by simpa using hm)]
        rw [hpush]
        refine ih _ hrf0 hrt0 ?_ ?_ ?_
        · intro e he
          rcases List.mem_cons.mp he with rfl | he0
          · exact hlf
          · exact haf e he0
        · intro e he
          rcases List.mem_cons.mp he with rfl | he0
          · exact hlt
          · exact hat e he0
        · rw [List.chain'_cons]
          refine ⟨?_, hch⟩
          intro hurl
          rw [Bool.and_eq_true] at hm
          push_neg at hm
          have h2 := hm (by simpa using hurl)
          simpa using h2

set_option maxHeartbeats 2000000 in
/-- C7: with hyperlink flags as the extractor computes them (internal iff the
URI is internal), adjacent same-URL external links are merged while internal
links are never merged (every internal logical span keeps the text of exactly
one extracted link, and no two adjacent logical spans share a URL unless the
later one is internal); substitution rewrites at most the first occurrence
of each span; and on "Contact the Help Desk today" with spans "Help
Desk"→http://a and "Help Desk today"→http://b, the longer span "Help Desk
today" is substituted (longest-text-first). -/
theorem c7_hyperlink_substitution :
    (∀ links : List Hyperlink,
      (∀ l ∈ links, l.isInternal = isInternalUri l.url) →
      (∀ e ∈ mergeLinks links, e.isInternal = true → e.text ∈ links.map Hyperlink.text) ∧
      List.Chain' (fun a b => a.url = b.url → b.isInternal = true) (mergeLinks links)) ∧
    (∀ pat rep s : PyStr,
      (subOf pat s = false → replaceOnce pat rep s = s) ∧
      (subOf pat s = true → ∃ pre suf, s = pre ++ pat ++ suf ∧
        replaceOnce pat rep s = pre ++ rep ++ suf)) ∧
    applyHyperlinks (Cfg.mk (pl "Overview") [] []
      [Hyperlink.mk (pl "http://a") (pl "Help Desk") false,
       Hyperlink.mk (pl "http://b") (pl "Help Desk today") false] [] [])
      (pl "Contact the Help Desk today") =
      pl "Contact the [[Help Desk](http://a) today](http://b)" := by
  refine ⟨?_, ?_, ?_⟩
  · intro links hflags
    have := mergeLinksGo_props (links.map Hyperlink.text) links [] hflags
      (fun l hl _ => List.mem_map.mpr ⟨l, hl, rfl⟩)
      (by intro e he; simp at he)
      (by intro e he; simp at he)
      List.chain'_nil
    exact this
  · intro pat rep s
    exact ⟨replaceOnce_of_not_sub pat rep s, replaceOnce_of_sub pat rep s⟩
  · decide

set_option maxHeartbeats 2000000 in
/-- C7 witness: the theorem applied at concrete inputs — two adjacent
external links with the same URL merge into one span, and `replaceOnce`
rewrites exactly the first occurrence. -/
theorem c7_hyperlink_substitution_witness :
    (∀ e ∈ mergeLinks [Hyperlink.mk (pl "http://a") (pl "x") false,
        Hyperlink.mk (pl "http://a") (pl "y") false],
      e.isInternal = true → e.text ∈ [pl "x", pl "y"]) ∧
    List.Chain' (fun a b => a.url = b.url → b.isInternal = true)
      (mergeLinks [Hyperlink.mk (pl "http://a") (pl "x") false,
        Hyperlink.mk (pl "http://a") (pl "y") false]) ∧
    (∃ pre suf, pl "xaxa" = pre ++ pl "a" ++ suf ∧
      replaceOnce (pl "a") (pl "b") (pl "xaxa") = pre ++ pl "b" ++ suf) := by
  have h1 := c7_hyperlink_substitution.1
    [Hyperlink.mk (pl "http://a") (pl "x") false,
     Hyperlink.mk (pl "http://a") (pl "y") false] (by decide)
  refine ⟨?_, h1.2, ?_⟩
  · intro e he hint
    have := h1.1 e he hint
    simpa using this
  · exact (c7_hyperlink_substitution.2.1 (pl "a") (pl "b") (pl "xaxa")).2 (by decide)

theorem stripWs_shiftLine (k : Nat) (l : PyStr) : stripWs (shiftLine k l) = stripWs l := by
  unfold shiftLine stripWs lstripWs
  congr 1
  induction k with
  | zero => simp
  | succ n ih => simpa [List.replicate_succ, List.dropWhile, pyWs] using ih

theorem indentOf_shiftLine (k : Nat) (l : PyStr) : indentOf (shiftLine k l) = k + indentOf l := by
  unfold shiftLine indentOf
  induction k with
  | zero => simp
  | succ n ih =>
    simp only [List.replicate_succ, List.cons_append]
    rw [List.takeWhile_cons_of_pos (by rfl)]
    simp only [List.length_cons]
    omega

theorem getD_map_lt {f : PyStr → PyStr} {lines : List PyStr} {j : Nat}
    (h : j < lines.length) : (lines.map f).getD j [] = f (lines.getD j []) := by
  rw [List.getD_eq_getElem?_getD, List.getD_eq_getElem?_getD]
  rw [List.getElem?_map]
  rw [List.getElem?_eq_getElem h]
  rfl

theorem levelOf_shift (b i : Int) (k : Nat) : levelOf (b + (k : Int)) ((k : Int) + i) = levelOf b i := by
  unfold levelOf
  split_ifs <;> first | rfl | omega

theorem parseNumberedGo_shift (cfg : Cfg) (lines : List PyStr) (baseIndent : Int) (k : Nat) :
    ∀ (fuel : Nat) (j : Nat) (numText : PyStr) (subs : List NItem) (cur : CurAt),
      parseNumberedGo cfg (lines.map (shiftLine k)) (baseIndent + (k : Int)) fuel j numText subs cur =
      parseNumberedGo cfg lines baseIndent fuel j numText subs cur := by
  intro fuel
  induction fuel with
  | zero => intro j numText subs cur; rfl
  | succ fuel ih =>
    intro j numText subs cur
    by_cases hj : j < lines.length
    · have hget : (lines.map (shiftLine k)).getD j [] = shiftLine k (lines.getD j []) :=
        getD_map_lt hj
      have hdec : (decide ((k : Int) + (indentOf (lines.getD j []) : Int) ≥ baseIndent + (k : Int))) =
          (decide ((indentOf (lines.getD j []) : Int) ≥ baseIndent)) :=
        decide_eq_decide.mpr (by omega)
      simp only [parseNumberedGo, List.length_map, hget, stripWs_shiftLine,
        indentOf_shiftLine, Nat.cast_add, levelOf_shift, hdec, ih]
    · simp only [parseNumberedGo, List.length_map]
      rw [if_neg hj, if_neg hj]

theorem parseBulletGo_shift (cfg : Cfg) (lines : List PyStr) (baseIndent : Int) (k : Nat) :
    ∀ (fuel : Nat) (j : Nat) (text : PyStr) (subs : List (Nat × PyStr)) (lastSkip : Bool),
      parseBulletGo cfg (lines.map (shiftLine k)) (baseIndent + (k : Int)) fuel j text subs lastSkip =
      parseBulletGo cfg lines baseIndent fuel j text subs lastSkip := by
  intro fuel
  induction fuel with
  | zero => intro j text subs lastSkip; rfl
  | succ fuel ih =>
    intro j text subs lastSkip
    by_cases hj : j < lines.length
    · have hget : (lines.map (shiftLine k)).getD j [] = shiftLine k (lines.getD j []) :=
        getD_map_lt hj
      have hdec9 : (decide ((k : Int) + (indentOf (lines.getD j []) : Int) ≥ baseIndent + (k : Int) + 9)) =
          (decide ((indentOf (lines.getD j []) : Int) ≥ baseIndent + 9)) :=
        decide_eq_decide.mpr (by omega)
      have hdec4 : (decide ((k : Int) + (indentOf (lines.getD j []) : Int) ≥ baseIndent + (k : Int) + 4)) =
          (decide ((indentOf (lines.getD j []) : Int) ≥ baseIndent + 4)) :=
        decide_eq_decide.mpr (by omega)
      have hdec0 : (decide ((k : Int) + (indentOf (lines.getD j []) : Int) ≥ baseIndent + (k : Int))) =
          (decide ((indentOf (lines.getD j []) : Int) ≥ baseIndent)) :=
        decide_eq_decide.mpr (by omega)
      have hdecLt : (decide ((k : Int) + (indentOf (lines.getD j []) : Int) < baseIndent + (k : Int) + 4)) =
          (decide ((indentOf (lines.getD j []) : Int) < baseIndent + 4)) :=
        decide_eq_decide.mpr (by omega)
      have h9p : ((k : Int) + (indentOf (lines.getD j []) : Int) ≥ baseIndent + (k : Int) + 9) =
          ((indentOf (lines.getD j []) : Int) ≥ baseIndent + 9) :=
        eq_iff_iff.mpr (by omega)
      have h4p : ((k : Int) + (indentOf (lines.getD j []) : Int) ≥ baseIndent + (k : Int) + 4) =
          ((indentOf (lines.getD j []) : Int) ≥ baseIndent + 4) :=
        eq_iff_iff.mpr (by omega)
      simp only [parseBulletGo, List.length_map, hget, stripWs_shiftLine,
        indentOf_shiftLine, Nat.cast_add, hdec9, hdec4, hdec0, hdecLt, h9p, h4p, ih]
    · simp only [parseBulletGo, List.length_map]
      rw [if_neg hj, if_neg hj]

/-- C5: shifting the leading indentation of every page line by the same
constant (and the item's base indent with it) leaves bullet parsing and
numbered-list parsing unchanged — the nesting structure depends only on
indentation relative to the item's own base indent, never on absolute
indent. -/
theorem c5_indent_shift_invariance (cfg : Cfg) (lines : List PyStr) (start : Nat)
    (baseIndent : Int) (k : Nat) (startAsSub : Bool) :
    parseBullet cfg (lines.map (shiftLine k)) start (baseIndent + (k : Int)) =
      parseBullet cfg lines start baseIndent ∧
    parseNumbered cfg (lines.map (shiftLine k)) start (baseIndent + (k : Int)) startAsSub =
      parseNumbered cfg lines start baseIndent startAsSub := by
  constructor
  · unfold parseBullet
    have hline : stripWs ((lines.map (shiftLine k)).getD start []) =
        stripWs (lines.getD start []) := by
      by_cases hs : start < lines.length
      · rw [getD_map_lt hs, stripWs_shiftLine]
      · rw [List.getD_eq_default _ _ (by simpa using Nat.le_of_not_lt hs),
          List.getD_eq_default _ _ (Nat.le_of_not_lt hs)]
    simp only [hline, List.length_map]
    exact parseBulletGo_shift cfg lines baseIndent k (lines.length + 1) (start + 1) _ [] false
  · unfold parseNumbered
    cases startAsSub with
    | true =>
      simp only [if_true, List.length_map]
      exact parseNumberedGo_shift cfg lines baseIndent k (lines.length + 1) start [] [] ⟨none, none, none⟩
    | false =>
      simp only [Bool.false_eq_true, if_false]
      have hline : stripWs ((lines.map (shiftLine k)).getD start []) =
          stripWs (lines.getD start []) := by
        by_cases hs : start < lines.length
        · rw [getD_map_lt hs, stripWs_shiftLine]
        · rw [List.getD_eq_default _ _ (by simpa using Nat.le_of_not_lt hs),
            List.getD_eq_default _ _ (Nat.le_of_not_lt hs)]
      simp only [hline, List.length_map]
      exact parseNumberedGo_shift cfg lines baseIndent k (lines.length + 1) (start + 1) _ [] ⟨none, none, none⟩

/-! ## Scan-stop theorems (C8) -/

theorem findNonblankFrom_le (lines : List PyStr) (k : Nat)
    (hnb : (stripWs (lines.getD k [])).isEmpty = false) :
    ∀ (fuel st : Nat), st ≤ k → findNonblankFrom lines fuel st ≤ k := by
  intro fuel
  induction fuel with
  | zero => intro st h; exact h
  | succ fuel ih =>
    intro st hst
    simp only [findNonblankFrom]
    by_cases hl : st < lines.length
    · rw [if_pos hl]
      by_cases hb : (stripWs (lines.getD st [])).isEmpty = true
      · rw [if_pos hb]
        have : st ≠ k := by
          intro h
          subst h
          rw [hb] at hnb
          exact Bool.true_eq_false ▸ hnb.symm ▸ rfl
        exact ih (st + 1) (by omega)
      · rw [if_neg hb]
        exact hst
    · rw [if_neg hl]
      exact hst

theorem parseBulletGo_le (cfg : Cfg) (lines : List PyStr) (baseIndent : Int) (k : Nat)
    (hnb : (stripWs (lines.getD k [])).isEmpty = false)
    (htrig : isNextSectionTitle cfg (normSpace (stripWs (lines.getD k []))) = true) :
    ∀ (fuel j : Nat) (text : PyStr) (subs : List (Nat × PyStr)) (ls : Bool), j ≤ k →
      (parseBulletGo cfg lines baseIndent fuel j text subs ls).2.2 ≤ k := by
  intro fuel
  induction fuel with
  | zero => intro j _ _ _ hj; exact hj
  | succ fuel ih =>
    intro j text subs ls hj
    simp only [parseBulletGo]
    by_cases hjl : j < lines.length
    · rw [if_pos hjl]
      by_cases hblank : (stripWs (lines.getD j [])).isEmpty = true
      · rw [if_pos hblank]
        have hjk : j ≠ k := by
          intro h
          subst h
          rw [hblank] at hnb
          exact absurd hnb (by simp)
        exact ih (j + 1) _ _ _ (by omega)
      · rw [if_neg hblank]
        by_cases hnext : isNextSectionTitle cfg (normSpace (stripWs (lines.getD j []))) = true
        · rw [if_pos hnext]
          exact hj
        · rw [if_neg hnext]
          have hj1 : j + 1 ≤ k := by
            have : j ≠ k := by
              intro h
              subst h
              exact hnext htrig
            omega
          split_ifs <;> first | exact hj | exact ih _ _ _ _ hj1
    · rw [if_neg hjl]
      exact hj

theorem parseNumberedGo_le (cfg : Cfg) (lines : List PyStr) (baseIndent : Int) (k : Nat)
    (hnb : (stripWs (lines.getD k [])).isEmpty = false)
    (htrig : isNextSectionTitle cfg (normSpace (stripWs (lines.getD k []))) = true) :
    ∀ (fuel j : Nat) (numText : PyStr) (subs : List NItem) (cur : CurAt), j ≤ k →
      (parseNumberedGo cfg lines baseIndent fuel j numText subs cur).2.2 ≤ k := by
  intro fuel
  induction fuel with
  | zero => intro j _ _ _ hj; exact hj
  | succ fuel ih =>
    intro j numText subs cur hj
    simp only [parseNumberedGo]
    by_cases hjl : j < lines.length
    · rw [if_pos hjl]
      by_cases hblank : (stripWs (lines.getD j [])).isEmpty = true
      · rw [if_pos hblank]
        have hjk : j ≠ k := by
          intro h
          subst h
          rw [hblank] at hnb
          exact absurd hnb (by simp)
        exact ih (j + 1) _ _ _ (by omega)
      · rw [if_neg hblank]
        by_cases hnext : isNextSectionTitle cfg (normSpace (stripWs (lines.getD j []))) = true
        · rw [if_pos hnext]
          exact hj
        · rw [if_neg hnext]
          have hj1 : j + 1 ≤ k := by
            have : j ≠ k := by
              intro h
              subst h
              exact hnext htrig
            omega
          by_cases hsub : isSubTitle cfg (normSpace (stripWs (lines.getD j []))) = true
          · rw [if_pos hsub]
            exact hj
          · rw [if_neg hsub]
            by_cases hbul : isPre (pl "•") (stripWs (lines.getD j [])) = true
            · rw [if_pos hbul]
              exact hj
            · rw [if_neg hbul]
              by_cases hl0 : levelOf baseIndent (indentOf (lines.getD j []) : Int) = 0
              · rw [if_pos hl0]
                split_ifs <;> first | exact hj | exact ih _ _ _ _ hj1
              · rw [if_neg hl0]
                cases hni : newItemFor (levelOf baseIndent (indentOf (lines.getD j []) : Int))
                    (stripWs (lines.getD j [])) with
                | some item => exact ih _ _ _ _ hj1
                | none =>
                  cases htg : cur.target (levelOf baseIndent (indentOf (lines.getD j []) : Int)) with
                  | some idx => exact ih _ _ _ _ hj1
                  | none => exact ih _ _ _ _ hj1
    · rw [if_neg hjl]
      exact hj

theorem parseParagraphGo_le (cfg : Cfg) (lines : List PyStr) (baseIndent : Int)
    (tableContent : List PyStr) (k : Nat)
    (hnb : (stripWs (lines.getD k [])).isEmpty = false)
    (htrig : isNextSectionTitle cfg (normSpace (stripWs (lines.getD k []))) = true) :
    ∀ (fuel j : Nat) (text : PyStr), j ≤ k →
      (parseParagraphGo cfg lines baseIndent tableContent fuel j text).2 ≤ k := by
  intro fuel
  induction fuel with
  | zero => intro j _ hj; exact hj
  | succ fuel ih =>
    intro j text hj
    simp only [parseParagraphGo]
    by_cases hjl : j < lines.length
    · rw [if_pos hjl]
      by_cases hblank : (stripWs (lines.getD j [])).isEmpty = true
      · rw [if_pos hblank]
        have hjk : j ≠ k := by
          intro h
          subst h
          rw [hblank] at hnb
          exact absurd hnb (by simp)
        have hk2 : findNonblankFrom lines (lines.length + 1) (j + 1) ≤ k :=
          findNonblankFrom_le lines k hnb (lines.length + 1) (j + 1) (by omega)
        split_ifs
        · exact ih _ _ hk2
        · exact hj
        · exact hj
      · rw [if_neg hblank]
        by_cases hnext : isNextSectionTitle cfg (normSpace (stripWs (lines.getD j []))) = true
        · rw [if_pos hnext]
          exact hj
        · rw [if_neg hnext]
          have hj1 : j + 1 ≤ k := by
            have : j ≠ k := by
              intro h
              subst h
              exact hnext htrig
            omega
          split_ifs <;> first | exact hj | exact ih _ _ hj1
    · rw [if_neg hjl]
      exact hj

theorem findNonblankFrom_ge (lines : List PyStr) :
    ∀ (fuel st : Nat), st ≤ findNonblankFrom lines fuel st := by
  intro fuel
  induction fuel with
  | zero => intro st; exact Nat.le_refl st
  | succ fuel ih =>
    intro st
    simp only [findNonblankFrom]
    split_ifs
    · exact Nat.le_trans (Nat.le_succ st) (ih (st + 1))
    · exact Nat.le_refl st
    · exact Nat.le_refl st

theorem parseBulletGo_ge (cfg : Cfg) (lines : List PyStr) (baseIndent : Int) :
    ∀ (fuel j : Nat) (text : PyStr) (subs : List (Nat × PyStr)) (ls : Bool),
      j ≤ (parseBulletGo cfg lines baseIndent fuel j text subs ls).2.2 := by
  intro fuel
  induction fuel with
  | zero => intro j _ _ _; exact Nat.le_refl j
  | succ fuel ih =>
    intro j text subs ls
    simp only [parseBulletGo]
    by_cases hjl : j < lines.length
    · rw [if_pos hjl]
      by_cases hblank : (stripWs (lines.getD j [])).isEmpty = true
      · rw [if_pos hblank]
        exact Nat.le_trans (Nat.le_succ j) (ih _ _ _ _)
      · rw [if_neg hblank]
        by_cases hnext : isNextSectionTitle cfg (normSpace (stripWs (lines.getD j []))) = true
        · rw [if_pos hnext]
        · rw [if_neg hnext]
          by_cases hsub : isSubTitle cfg (normSpace (stripWs (lines.getD j []))) = true
          · rw [if_pos hsub]
          · rw [if_neg hsub]
            split_ifs <;>
              first | exact Nat.le_refl j | exact Nat.le_trans (Nat.le_succ j) (ih _ _ _ _)
    · rw [if_neg hjl]

theorem parseNumberedGo_ge (cfg : Cfg) (lines : List PyStr) (baseIndent : Int) :
    ∀ (fuel j : Nat) (numText : PyStr) (subs : List NItem) (cur : CurAt),
      j ≤ (parseNumberedGo cfg lines baseIndent fuel j numText subs cur).2.2 := by
  intro fuel
  induction fuel with
  | zero => intro j _ _ _; exact Nat.le_refl j
  | succ fuel ih =>
    intro j numText subs cur
    simp only [parseNumberedGo]
    by_cases hjl : j < lines.length
    · rw [if_pos hjl]
      by_cases hblank : (stripWs (lines.getD j [])).isEmpty = true
      · rw [if_pos hblank]
        exact Nat.le_trans (Nat.le_succ j) (ih _ _ _ _)
      · rw [if_neg hblank]
        by_cases hnext : isNextSectionTitle cfg (normSpace (stripWs (lines.getD j []))) = true
        · rw [if_pos hnext]
          exact Nat.le_refl j
        · rw [if_neg hnext]
          by_cases hsub : isSubTitle cfg (normSpace (stripWs (lines.getD j []))) = true
          · rw [if_pos hsub]
            exact Nat.le_refl j
          · rw [if_neg hsub]
            by_cases hbul : isPre (pl "•") (stripWs (lines.getD j [])) = true
            · rw [if_pos hbul]
              exact Nat.le_refl j
            · rw [if_neg hbul]
              by_cases hl0 : levelOf baseIndent (indentOf (lines.getD j []) : Int) = 0
              · rw [if_pos hl0]
                split_ifs <;>
                  first | exact Nat.le_refl j | exact Nat.le_trans (Nat.le_succ j) (ih _ _ _ _)
              · rw [if_neg hl0]
                cases hni : newItemFor (levelOf baseIndent (indentOf (lines.getD j []) : Int))
                    (stripWs (lines.getD j [])) with
                | some item => exact Nat.le_trans (Nat.le_succ j) (ih _ _ _ _)
                | none =>
                  cases htg : cur.target (levelOf baseIndent (indentOf (lines.getD j []) : Int)) with
                  | some idx => exact Nat.le_trans (Nat.le_succ j) (ih _ _ _ _)
                  | none => exact Nat.le_trans (Nat.le_succ j) (ih _ _ _ _)
    · rw [if_neg hjl]
      exact Nat.le_refl j

theorem parseParagraphGo_ge (cfg : Cfg) (lines : List PyStr) (baseIndent : Int)
    (tableContent : List PyStr) :
    ∀ (fuel j : Nat) (text : PyStr),
      j ≤ (parseParagraphGo cfg lines baseIndent tableContent fuel j text).2 := by
  intro fuel
  induction fuel with
  | zero => intro j _; exact Nat.le_refl j
  | succ fuel ih =>
    intro j text
    simp only [parseParagraphGo]
    by_cases hjl : j < lines.length
    · rw [if_pos hjl]
      by_cases hblank : (stripWs (lines.getD j [])).isEmpty = true
      · rw [if_pos hblank]
        have hge := findNonblankFrom_ge lines (lines.length + 1) (j + 1)
        split_ifs
        · exact Nat.le_trans (Nat.le_trans (Nat.le_succ j) hge) (ih _ _)
        · exact Nat.le_refl j
        · exact Nat.le_refl j
      · rw [if_neg hblank]
        split_ifs <;> first | exact Nat.le_refl j | exact Nat.le_trans (Nat.le_succ j) (ih _ _)
    · rw [if_neg hjl]

theorem effectiveBaseGo_lt (lines : List PyStr) (indent : Int) :
    ∀ (fuel k : Nat), effectiveBaseGo lines indent fuel k < indent := by
  intro fuel
  induction fuel with
  | zero => intro k; simp only [effectiveBaseGo]; omega
  | succ fuel ih =>
    intro k
    simp only [effectiveBaseGo]
    split_ifs with h1 h2 h3
    · exact ih (k + 1)
    · simp only [Bool.and_eq_true, decide_eq_true_eq] at h3
      exact h3.2
    · exact ih (k + 1)
    · omega

theorem effectiveBase_lt (lines : List PyStr) (i : Nat) (indent : Int) :
    effectiveBase lines i indent < indent :=
  effectiveBaseGo_lt lines indent _ _

theorem parseNumberedGo_progress (cfg : Cfg) (lines : List PyStr) (b : Int) (j : Nat)
    (hjl : j < lines.length)
    (hnbj : (stripWs (lines.getD j [])).isEmpty = false)
    (hnext : isNextSectionTitle cfg (normSpace (stripWs (lines.getD j []))) = false)
    (hsub : isSubTitle cfg (normSpace (stripWs (lines.getD j []))) = false)
    (hbul : isPre (pl "•") (stripWs (lines.getD j [])) = false)
    (hnum : hasNumDot (stripWs (lines.getD j [])) = false)
    (hind : b < (indentOf (lines.getD j []) : Int)) :
    ∀ (fuel : Nat) (numText : PyStr) (cur : CurAt),
      j + 1 ≤ (parseNumberedGo cfg lines b (fuel + 1) j numText [] cur).2.2 := by
  intro fuel numText cur
  simp only [parseNumberedGo]
  rw [if_pos hjl, if_neg (by simp only [hnbj]; exact Bool.false_ne_true),
    if_neg (by simp only [hnext]; exact Bool.false_ne_true),
    if_neg (by simp only [hsub]; exact Bool.false_ne_true),
    if_neg (by simp only [hbul]; exact Bool.false_ne_true)]
  by_cases hl0 : levelOf b (indentOf (lines.getD j []) : Int) = 0
  · rw [if_pos hl0]
    split_ifs with h1 h2
    · exact absurd h1 (by simp only [hnum]; exact Bool.false_ne_true)
    · exact parseNumberedGo_ge cfg lines b fuel (j + 1) _ _ _
    · simp only [List.isEmpty_nil, Bool.true_and, decide_eq_true_eq] at h2
      omega
  · rw [if_neg hl0]
    cases hni : newItemFor (levelOf b (indentOf (lines.getD j []) : Int))
        (stripWs (lines.getD j [])) with
    | some item => exact parseNumberedGo_ge cfg lines b fuel (j + 1) _ _ _
    | none =>
      cases htg : cur.target (levelOf b (indentOf (lines.getD j []) : Int)) with
      | some idx => exact parseNumberedGo_ge cfg lines b fuel (j + 1) _ _ _
      | none => exact parseNumberedGo_ge cfg lines b fuel (j + 1) _ _ _

theorem rangeY_getD {n i : Nat} (h : i < n) : (rangeY n).getD i 0 = (i : Int) := by
  have hl : i < (rangeY n).length := by
    simpa only [rangeY, List.length_map, List.length_range] using h
  rw [List.getD_eq_getElem _ _ hl]
  simp only [rangeY, List.getElem_map, List.getElem_range]

theorem rangeY_itemY {n i : Nat} (h : i < n) :
    (if i < (rangeY n).length then (rangeY n).getD i 0 else 0) = (i : Int) := by
  rw [if_pos (show i < (rangeY n).length by
      simpa only [rangeY, List.length_map, List.length_range] using h),
    rangeY_getD h]

theorem scanGoStopInv (cfg : Cfg) (lines : List PyStr) (ct : List CleanTable)
    (bb : List (Int × Int)) (tc : List PyStr) (k : Nat)
    (hk : k < lines.length)
    (hnb : (stripWs (lines.getD k [])).isEmpty = false)
    (htrig : isNextSectionTitle cfg (normSpace (stripWs (lines.getD k []))) = true)
    (hfirst : ∀ j, j < k → (stripWs (lines.getD j [])).isEmpty = true ∨
      isNextSectionTitle cfg (normSpace (stripWs (lines.getD j []))) = false) :
    ∀ (fuel i : Nat) (result : List ContentItem) (tiPos : Option (Nat × Int)),
      i ≤ k → k - i < fuel → (∀ it ∈ result, it.yOf < (k : Int)) →
      (scanGo cfg lines (rangeY lines.length) ct bb tc fuel i result tiPos).2.1 =
          some (k : Int) ∧
      ∀ it ∈ (scanGo cfg lines (rangeY lines.length) ct bb tc fuel i result tiPos).1,
        it.yOf < (k : Int) := by
  intro fuel
  induction fuel with
  | zero => intro i result tiPos hi hf hacc; omega
  | succ fuel ih =>
    intro i result tiPos hi hf hacc
    have hil : i < lines.length := by omega
    simp only [scanGo]
    rw [if_pos hil]
    by_cases hbl : (stripWs (lines.getD i [])).isEmpty = true
    · rw [if_pos hbl]
      have hik : i ≠ k := by
        intro h
        subst h
        rw [hbl] at hnb
        exact absurd hnb (by simp)
      exact ih (i + 1) result tiPos (by omega) (by omega) hacc
    · rw [if_neg hbl]
      have hbl' : (stripWs (lines.getD i [])).isEmpty = false := Bool.eq_false_iff.mpr hbl
      rw [rangeY_itemY hil]
      by_cases hik : i = k
      · subst hik
        rw [if_pos htrig]
        exact ⟨rfl, hacc⟩
      · have hik2 : i < k := by omega
        have hnotrig : isNextSectionTitle cfg (normSpace (stripWs (lines.getD i []))) = false := by
          rcases hfirst i hik2 with h | h
          · exact absurd h hbl
          · exact h
        rw [if_neg (by simp only [hnotrig]; exact Bool.false_ne_true)]
        by_cases hsubt : isSubTitle cfg (normSpace (stripWs (lines.getD i []))) = true
        · rw [if_pos hsubt]
          refine ih (i + 1) _ tiPos (by omega) (by omega) ?_
          intro it hit
          rcases List.mem_append.mp hit with h | h
          · exact hacc it h
          · rw [List.mem_singleton] at h
            subst h
            simp only [ContentItem.yOf]
            omega
        · rw [if_neg hsubt]
          by_cases hbul : isPre (pl "•") (stripWs (lines.getD i [])) = true
          · rw [if_pos hbul]
            have hle : (parseBullet cfg lines i (indentOf (lines.getD i []) : Int)).2.2 ≤ k :=
              parseBulletGo_le cfg lines _ k hnb htrig _ _ _ _ _ (by omega)
            have hge : i + 1 ≤ (parseBullet cfg lines i (indentOf (lines.getD i []) : Int)).2.2 :=
              parseBulletGo_ge cfg lines _ _ _ _ _ _
            refine ih _ _ tiPos hle (by omega) ?_
            intro it hit
            simp only [List.mem_append, List.mem_cons, List.mem_map] at hit
            rcases hit with h | h | ⟨s, hs, rfl⟩
            · exact hacc it h
            · subst h
              simp only [ContentItem.yOf]
              omega
            · simp only [ContentItem.yOf]
              omega
          · rw [if_neg hbul]
            have hbul' : isPre (pl "•") (stripWs (lines.getD i [])) = false :=
              Bool.eq_false_iff.mpr hbul
            have hsubt' : isSubTitle cfg (normSpace (stripWs (lines.getD i []))) = false :=
              Bool.eq_false_iff.mpr hsubt
            cases hmn : matchNumDot (stripWs (lines.getD i [])) with
            | some p =>
              have hle :
                  (parseNumbered cfg lines i (indentOf (lines.getD i []) : Int) false).2.2 ≤ k := by
                unfold parseNumbered
                simp only [Bool.false_eq_true, if_false]
                exact parseNumberedGo_le cfg lines _ k hnb htrig _ _ _ _ _ (by omega)
              have hge : i + 1 ≤
                  (parseNumbered cfg lines i (indentOf (lines.getD i []) : Int) false).2.2 := by
                unfold parseNumbered
                simp only [Bool.false_eq_true, if_false]
                exact parseNumberedGo_ge cfg lines _ _ _ _ _ _
              refine ih _ _ tiPos hle (by omega) ?_
              intro it hit
              simp only [List.mem_append, List.mem_cons, List.mem_map] at hit
              rcases hit with h | h | ⟨s, hs, rfl⟩
              · exact hacc it h
              · subst h
                simp only [ContentItem.yOf]
                omega
              · simp only [ContentItem.yOf]
                omega
            | none =>
              have hnum : hasNumDot (stripWs (lines.getD i [])) = false := by
                simp only [hasNumDot, hmn, Option.isSome_none]
              by_cases hlet : ((matchLetterDot (stripWs (lines.getD i []))).isSome &&
                  decide ((indentOf (lines.getD i []) : Int) > 0)) = true
              · rw [if_pos hlet]
                have hle : (parseNumbered cfg lines i
                    (effectiveBase lines i (indentOf (lines.getD i []) : Int)) true).2.2 ≤ k := by
                  unfold parseNumbered
                  rw [if_pos rfl]
                  exact parseNumberedGo_le cfg lines _ k hnb htrig _ _ _ _ _ (by omega)
                have hge : i + 1 ≤ (parseNumbered cfg lines i
                    (effectiveBase lines i (indentOf (lines.getD i []) : Int)) true).2.2 := by
                  unfold parseNumbered
                  rw [if_pos rfl]
                  exact parseNumberedGo_progress cfg lines _ i hil hbl' hnotrig hsubt' hbul' hnum
                    (effectiveBase_lt lines i _) lines.length [] ⟨none, none, none⟩
                refine ih _ _ tiPos hle (by omega) ?_
                intro it hit
                simp only [List.mem_append, List.mem_map] at hit
                rcases hit with h | ⟨s, hs, rfl⟩
                · exact hacc it h
                · simp only [ContentItem.yOf]
                  omega
              · rw [if_neg hlet]
                by_cases htb : (!ct.isEmpty &&
                    (isTableText tc (normSpace (stripWs (lines.getD i []))) ||
                      bb.any (fun b => decide (b.1 ≤ (i : Int)) && decide ((i : Int) ≤ b.2)))) = true
                · rw [if_pos htb]
                  cases tiPos with
                  | none =>
                    exact ih (i + 1) result (some (result.length, (i : Int)))
                      (by omega) (by omega) hacc
                  | some tp =>
                    exact ih (i + 1) result (some tp) (by omega) (by omega) hacc
                · rw [if_neg htb]
                  by_cases hhd : isHeadingLine cfg (normSpace (stripWs (lines.getD i []))) = true
                  · rw [if_pos hhd]
                    refine ih (i + 1) _ tiPos (by omega) (by omega) ?_
                    intro it hit
                    rcases List.mem_append.mp hit with h | h
                    · exact hacc it h
                    · rw [List.mem_singleton] at h
                      subst h
                      simp only [ContentItem.yOf]
                      omega
                  · rw [if_neg hhd]
                    have hle : (parseParagraph cfg lines i (indentOf (lines.getD i []) : Int)
                        (if ct.isEmpty then [] else tc)).2 ≤ k :=
                      parseParagraphGo_le cfg lines _ _ k hnb htrig _ _ _ (by omega)
                    have hge : i + 1 ≤ (parseParagraph cfg lines i
                        (indentOf (lines.getD i []) : Int) (if ct.isEmpty then [] else tc)).2 :=
                      parseParagraphGo_ge cfg lines _ _ _ _ _
                    by_cases hpe : (stripWs (parseParagraph cfg lines i
                        (indentOf (lines.getD i []) : Int)
                        (if ct.isEmpty then [] else tc)).1).isEmpty = true
                    · rw [if_pos hpe]
                      exact ih _ result tiPos hle (by omega) hacc
                    · rw [if_neg hpe]
                      refine ih _ _ tiPos hle (by omega) ?_
                      intro it hit
                      rcases List.mem_append.mp hit with h | h
                      · exact hacc it h
                      · rw [List.mem_singleton] at h
                        subst h
                        simp only [ContentItem.yOf]
                        omega

set_option maxHeartbeats 2000000 in
/-- C8 counterexample to the blanket claim: with neighboring section "Short"
(11 characters or fewer, so the substring rule is off), the page line
"• Short" is not recognized as a next-section title — the bullet marker
shields it from the exact and prefix rules — so the scan emits a bullet
item whose text is exactly the neighbor's title. -/
theorem c8_counterexample :
    processPage
        (Cfg.mk (pl "My Section")
          [(pl "My Section", pl "S1.md"), (pl "Short", pl "S2.md")] [] [] [] [])
        true (PageIn.mk [pl "• Short"] [0] [] [] []) =
      ([ContentItem.bullet 0 (pl "Short") 0], none, true) ∧
    isNextSectionTitle
        (Cfg.mk (pl "My Section")
          [(pl "My Section", pl "S1.md"), (pl "Short", pl "S2.md")] [] [] [] [])
        (normSpace (stripWs (pl "• Short"))) = false ∧
    normalizeTitle (pl "Short") ≠ normalizeTitle (pl "My Section") := by
  refine ⟨?_, ?_, ?_⟩
  · decide
  · decide
  · decide

/-- C8 (amended): the stop itself is positional, not textual — when line `k`
is the first non-blank line of the page that `_is_next_section_title`
recognizes, the scan loop of `_process_page` stops exactly there: it reports
stop Y equal to line `k`'s Y position and every content item it emitted
comes from a line strictly above `k` (so no item is emitted from the
recognized title line or below it).  Items whose text merely equals a
neighbor's title can still be emitted from earlier lines when the trigger
rules miss them (see the counterexample: a short title behind a bullet
marker). -/
theorem c8_scan_stop (cfg : Cfg) (lines : List PyStr) (ct : List CleanTable)
    (bb : List (Int × Int)) (tc : List PyStr) (k : Nat)
    (hk : k < lines.length)
    (hnb : (stripWs (lines.getD k [])).isEmpty = false)
    (htrig : isNextSectionTitle cfg (normSpace (stripWs (lines.getD k []))) = true)
    (hfirst : ∀ j, j < k → (stripWs (lines.getD j [])).isEmpty = true ∨
      isNextSectionTitle cfg (normSpace (stripWs (lines.getD j []))) = false) :
    (scanGo cfg lines (rangeY lines.length) ct bb tc (lines.length + 1) 0 [] none).2.1 =
        some (k : Int) ∧
    ∀ it ∈ (scanGo cfg lines (rangeY lines.length) ct bb tc (lines.length + 1) 0 [] none).1,
      it.yOf < (k : Int) :=
  scanGoStopInv cfg lines ct bb tc k hk hnb htrig hfirst (lines.length + 1) 0 [] none
    (Nat.zero_le k) (by omega) (by intro it hit; exact absurd hit (List.not_mem_nil it))

set_option maxHeartbeats 2000000 in
/-- C8 witness: the amended theorem applied to a two-line page whose second
line is the neighboring section's title — the scan stops with stop Y 1 and
the single emitted item (the heading from line 0) lies strictly above the
title line. -/
theorem c8_scan_stop_witness :
    (scanGo
        (Cfg.mk (pl "Overview")
          [(pl "Overview", pl "S1.md"), (pl "Getting Started", pl "S2.md")] [] [] [] [])
        [pl "Intro text", pl "Getting Started"] (rangeY 2) [] [] [] 3 0 [] none).2.1 =
      some ((1 : Nat) : Int) ∧
    ContentItem.yOf (ContentItem.heading 3 (pl "Intro text") 0) < ((1 : Nat) : Int) := by
  constructor
  · exact (c8_scan_stop
      (Cfg.mk (pl "Overview")
        [(pl "Overview", pl "S1.md"), (pl "Getting Started", pl "S2.md")] [] [] [] [])
      [pl "Intro text", pl "Getting Started"] [] [] [] 1
      (by decide) (by decide) (by decide) (by decide)).1
  · exact (c8_scan_stop
      (Cfg.mk (pl "Overview")
        [(pl "Overview", pl "S1.md"), (pl "Getting Started", pl "S2.md")] [] [] [] [])
      [pl "Intro text", pl "Getting Started"] [] [] [] 1
      (by decide) (by decide) (by decide) (by decide)).2
      (ContentItem.heading 3 (pl "Intro text") 0) (by decide)

/-! ## String-layer lemmas for the table cleaner (C6) -/

theorem lstripWs_eq_self {s : PyStr} (h : pyWs (s.headD 'x') = false) : lstripWs s = s := by
  unfold lstripWs
  cases s with
  | nil => rfl
  | cons c t =>
    simp only [List.headD_cons] at h
    rw [List.dropWhile_cons, h]
    simp

theorem rstripWs_eq_self {s : PyStr} (h : pyWs (s.getLastD 'x') = false) : rstripWs s = s := by
  unfold rstripWs
  rw [← headD_reverse] at h
  cases hrev : s.reverse with
  | nil =>
    have hs : s = [] := List.reverse_eq_nil_iff.mp hrev
    subst hs
    rfl
  | cons c t =>
    rw [hrev] at h
    simp only [List.headD_cons] at h
    rw [List.dropWhile_cons, h]
    simp only [Bool.false_eq_true, if_false]
    rw [← hrev, List.reverse_reverse]

theorem stripWs_eq_self {s : PyStr} (hh : pyWs (s.headD 'x') = false)
    (hl : pyWs (s.getLastD 'x') = false) : stripWs s = s := by
  unfold stripWs
  rw [lstripWs_eq_self hh, rstripWs_eq_self hl]

theorem rstripWs_append (s : PyStr) :
    rstripWs s ++ (s.reverse.takeWhile pyWs).reverse = s := by
  unfold rstripWs
  rw [← List.reverse_append, List.takeWhile_append_dropWhile, List.reverse_reverse]

theorem rstripWs_headD (s : PyStr) (d : Char) (h : rstripWs s ≠ []) :
    (rstripWs s).headD d = s.headD d :=
  (headD_of_append (rstripWs_append s) h).symm

theorem stripWs_head_not (s : PyStr) (d : Char) (h : stripWs s ≠ []) :
    pyWs ((stripWs s).headD d) = false := by
  have heq : stripWs s = rstripWs (s.dropWhile pyWs) := rfl
  rw [heq] at h ⊢
  rw [rstripWs_headD _ _ h]
  rcases head_dropWhile_not pyWs s d with h1 | h2
  · rw [h1] at h
    exact absurd rfl h
  · exact h2

theorem stripWs_last_not (s : PyStr) (d : Char) (h : stripWs s ≠ []) :
    pyWs ((stripWs s).getLastD d) = false := by
  have heq : stripWs s = rstripWs (s.dropWhile pyWs) := rfl
  rw [heq] at h ⊢
  rw [← headD_reverse]
  have hrev : (rstripWs (s.dropWhile pyWs)).reverse =
      (s.dropWhile pyWs).reverse.dropWhile pyWs := by
    unfold rstripWs
    rw [List.reverse_reverse]
  rw [hrev]
  rcases head_dropWhile_not pyWs (s.dropWhile pyWs).reverse d with h1 | h2
  · exfalso
    apply h
    unfold rstripWs
    rw [h1]
    rfl
  · exact h2

theorem stripWs_idem (s : PyStr) : stripWs (stripWs s) = stripWs s := by
  by_cases h : stripWs s = []
  · rw [h]
    rfl
  · exact stripWs_eq_self (stripWs_head_not s 'x' h) (stripWs_last_not s 'x' h)

theorem stripWs_eq_nil_imp {s : PyStr} (h : stripWs s = []) : ∀ c ∈ s, pyWs c = true := by
  have heq : stripWs s = rstripWs (s.dropWhile pyWs) := rfl
  rw [heq] at h
  unfold rstripWs at h
  have hdw : (s.dropWhile pyWs).reverse.dropWhile pyWs = [] := by
    have := congrArg List.reverse h
    rwa [List.reverse_reverse] at this
  have hall : ∀ c ∈ (s.dropWhile pyWs).reverse, pyWs c = true := by
    simpa using List.dropWhile_eq_nil_iff.mp hdw
  intro c hc
  have hsplit := List.takeWhile_append_dropWhile pyWs s
  rw [← hsplit] at hc
  rcases List.mem_append.mp hc with h1 | h1
  · exact List.mem_takeWhile_imp h1
  · exact hall c (List.mem_reverse.mpr h1)

theorem stripWs_nonempty_of_mem {s : PyStr} {c : Char} (hc : c ∈ s) (hw : pyWs c = false) :
    (stripWs s).isEmpty = false := by
  cases hemp : (stripWs s).isEmpty with
  | false => rfl
  | true =>
    have hnil : stripWs s = [] := List.isEmpty_iff.mp hemp
    have := stripWs_eq_nil_imp hnil c hc
    rw [hw] at this
    exact absurd this (by simp)

theorem getLastD_default_irrel {l : List α} (h : l ≠ []) (d d' : α) :
    l.getLastD d = l.getLastD d' := by
  rw [List.getLastD_eq_getLast?, List.getLastD_eq_getLast?]
  cases ho : l.getLast? with
  | none => exact absurd (List.getLast?_eq_none_iff.mp ho) h
  | some a => rfl

theorem getLastD_mem {l : List α} (h : l ≠ []) (d : α) : l.getLastD d ∈ l := by
  rw [List.getLastD_eq_getLast?]
  cases ho : l.getLast? with
  | none => exact absurd (List.getLast?_eq_none_iff.mp ho) h
  | some a =>
    simp only [Option.getD_some]
    have hne : l ≠ [] := by
      intro hl
      subst hl
      simp at ho
    have := List.getLast?_eq_getLast l hne
    rw [ho] at this
    have ha : a = l.getLast hne := by
      injection this
    rw [ha]
    exact List.getLast_mem hne

theorem getLastD_eq_getD (l : List α) (d : α) : l.getLastD d = l.getD (l.length - 1) d := by
  induction l with
  | nil => rfl
  | cons x t ih =>
    cases t with
    | nil => rfl
    | cons y r =>
      rw [List.getLastD_cons, getLastD_default_irrel (by simp) x d, ih]
      have h1 : (x :: y :: r).length - 1 = ((y :: r).length - 1) + 1 := by
        simp
      rw [h1, List.getD_cons_succ]

theorem getD_map_gen {f : α → β} {l : List α} {i : Nat} (h : i < l.length) (d : β) (d' : α) :
    (l.map f).getD i d = f (l.getD i d') := by
  rw [List.getD_eq_getElem _ _ (by simpa using h), List.getElem_map,
    List.getD_eq_getElem _ _ h]

theorem getLastD_append_right {a t : List α} (h : t ≠ []) (d : α) :
    (a ++ t).getLastD d = t.getLastD d := by
  rw [List.getLastD_eq_getLast?, List.getLastD_eq_getLast?, List.getLast?_append_of_ne_nil _ h]

theorem joinSpace_ne_nil {L : List PyStr} (hL : L ≠ []) (hp : ∀ p ∈ L, p ≠ []) :
    joinSpace L ≠ [] := by
  cases L with
  | nil => exact absurd rfl hL
  | cons x rest =>
    cases rest with
    | nil => exact hp x (by simp)
    | cons y t => simp [joinSpace]

theorem joinSpace_headD {x : PyStr} {rest : List PyStr} (hx : x ≠ []) (d : Char) :
    (joinSpace (x :: rest)).headD d = x.headD d := by
  cases rest with
  | nil => rfl
  | cons y t =>
    show (x ++ ' ' :: joinSpace (y :: t)).headD d = x.headD d
    exact headD_of_append rfl hx

theorem joinSpace_getLastD {L : List PyStr} (hL : L ≠ []) (hp : ∀ p ∈ L, p ≠ []) (d : Char) :
    (joinSpace L).getLastD d = (L.getLastD []).getLastD d := by
  induction L with
  | nil => exact absurd rfl hL
  | cons x rest ih =>
    cases rest with
    | nil =>
      show x.getLastD d = ((x :: ([] : List PyStr)).getLastD []).getLastD d
      rw [List.getLastD_cons]
      rfl
    | cons y t =>
      have hjs : joinSpace (y :: t) ≠ [] :=
        joinSpace_ne_nil (by simp) (fun p hpm => hp p (List.mem_cons_of_mem x hpm))
      show (x ++ ' ' :: joinSpace (y :: t)).getLastD d = _
      rw [getLastD_append_right (by simp) d, List.getLastD_cons,
        getLastD_default_irrel hjs ' ' d,
        ih (by simp) (fun p hpm => hp p (List.mem_cons_of_mem x hpm)),
        List.getLastD_cons, List.getLastD_cons, List.getLastD_cons]

theorem mem_joinSpace {L : List PyStr} {c : Char} (h : c ∈ joinSpace L) :
    c = ' ' ∨ ∃ p ∈ L, c ∈ p := by
  induction L with
  | nil => simp [joinSpace] at h
  | cons x rest ih =>
    cases rest with
    | nil => exact Or.inr ⟨x, by simp, h⟩
    | cons y t =>
      simp only [joinSpace] at h
      rcases List.mem_append.mp h with h1 | h1
      · exact Or.inr ⟨x, by simp, h1⟩
      · rcases List.mem_cons.mp h1 with h2 | h2
        · exact Or.inl h2
        · rcases ih h2 with h3 | ⟨p, hpm, hc⟩
          · exact Or.inl h3
          · exact Or.inr ⟨p, List.mem_cons_of_mem x hpm, hc⟩

theorem joinSpace_stripped {L : List PyStr} (hp : ∀ p ∈ L, stripWs p = p ∧ p ≠ []) :
    stripWs (joinSpace L) = joinSpace L := by
  cases L with
  | nil => rfl
  | cons x rest =>
    have hx := hp x (by simp)
    apply stripWs_eq_self
    · rw [joinSpace_headD hx.2]
      have hxne : stripWs x ≠ [] := by rw [hx.1]; exact hx.2
      have hhead := stripWs_head_not x 'x' hxne
      rwa [hx.1] at hhead
    · rw [joinSpace_getLastD (by simp) (fun p h => (hp p h).2)]
      have hqm : (x :: rest).getLastD [] ∈ x :: rest := getLastD_mem (by simp) []
      have hqp := hp _ hqm
      have hqne : stripWs ((x :: rest).getLastD []) ≠ [] := by rw [hqp.1]; exact hqp.2
      have hlast := stripWs_last_not ((x :: rest).getLastD []) 'x' hqne
      rwa [hqp.1] at hlast

theorem splitNl_no_nl {s : PyStr} : ∀ p ∈ splitNl s, ¬ '\n' ∈ p := by
  induction s with
  | nil =>
    intro p hp
    simp only [splitNl, List.mem_singleton] at hp
    subst hp
    simp
  | cons c t ih =>
    intro p hp
    simp only [splitNl] at hp
    by_cases hc : c = '\n'
    · rw [if_pos hc] at hp
      rcases List.mem_cons.mp hp with h1 | h1
      · subst h1
        simp
      · exact ih p h1
    · rw [if_neg hc] at hp
      cases hsp : splitNl t with
      | nil =>
        rw [hsp] at hp
        simp only [List.mem_singleton] at hp
        subst hp
        intro hmem
        rcases List.mem_cons.mp hmem with h2 | h2
        · exact hc h2.symm
        · simp at h2
      | cons hh r =>
        rw [hsp] at hp
        rcases List.mem_cons.mp hp with h1 | h1
        · subst h1
          intro hmem
          rcases List.mem_cons.mp hmem with h2 | h2
          · exact hc h2.symm
          · exact ih hh (by rw [hsp]; exact List.mem_cons_self _ _) h2
        · exact ih p (by rw [hsp]; exact List.mem_cons_of_mem hh h1)

theorem splitNl_of_no_nl {s : PyStr} (h : ¬ '\n' ∈ s) : splitNl s = [s] := by
  induction s with
  | nil => rfl
  | cons c t ih =>
    have hc : ¬ c = '\n' := by
      intro hh
      exact h (by rw [hh]; exact List.mem_cons_self _ _)
    have ht : ¬ '\n' ∈ t := fun hh => h (List.mem_cons_of_mem c hh)
    simp only [splitNl]
    rw [if_neg hc, ih ht]

theorem isPre_length_le {p s : PyStr} (h : isPre p s = true) : p.length ≤ s.length := by
  induction p generalizing s with
  | nil => simp
  | cons c pt ih =>
    cases s with
    | nil => simp [isPre] at h
    | cons d st =>
      simp only [isPre, Bool.and_eq_true] at h
      have := ih h.2
      simp only [List.length_cons]
      omega

theorem isPre_eq_of_length {p s : PyStr} (h : isPre p s = true) (hl : p.length = s.length) :
    p = s := by
  induction p generalizing s with
  | nil =>
    cases s with
    | nil => rfl
    | cons d st => simp at hl
  | cons c pt ih =>
    cases s with
    | nil => simp [isPre] at h
    | cons d st =>
      simp only [isPre, Bool.and_eq_true, decide_eq_true_eq] at h
      rw [h.1, ih h.2 (by simpa using hl)]

theorem subOf_length_le {p s : PyStr} (h : subOf p s = true) : p.length ≤ s.length := by
  induction s with
  | nil =>
    simp only [subOf] at h
    rw [List.isEmpty_iff.mp h]
  | cons c t ih =>
    simp only [subOf, Bool.or_eq_true] at h
    rcases h with h1 | h1
    · exact isPre_length_le h1
    · exact Nat.le_trans (ih h1) (by simp)

theorem subOf_eq_of_length {p s : PyStr} (h : subOf p s = true) (hl : p.length = s.length) :
    p = s := by
  induction s with
  | nil =>
    simp only [subOf] at h
    exact List.isEmpty_iff.mp h
  | cons c t ih =>
    simp only [subOf, Bool.or_eq_true] at h
    rcases h with h1 | h1
    · exact isPre_eq_of_length h1 hl
    · have := subOf_length_le h1
      simp only [List.length_cons] at hl
      omega

theorem exists_max_length {L : List PyStr} (h : L ≠ []) :
    ∃ x ∈ L, ∀ z ∈ L, z.length ≤ x.length := by
  induction L with
  | nil => exact absurd rfl h
  | cons a t ih =>
    cases t with
    | nil =>
      refine ⟨a, by simp, ?_⟩
      intro z hz
      simp only [List.mem_singleton] at hz
      subst hz
      exact Nat.le_refl _
    | cons b r =>
      obtain ⟨x, hx, hmax⟩ := ih (by simp)
      by_cases hax : a.length ≤ x.length
      · refine ⟨x, List.mem_cons_of_mem a hx, ?_⟩
        intro z hz
        rcases List.mem_cons.mp hz with h1 | h1
        · subst h1
          exact hax
        · exact hmax z h1
      · refine ⟨a, by simp, ?_⟩
        intro z hz
        rcases List.mem_cons.mp hz with h1 | h1
        · subst h1
          exact Nat.le_refl _
        · exact Nat.le_trans (hmax z h1) (by omega)

theorem dedupKF_subset {seen L : List PyStr} {x : PyStr} (h : x ∈ dedupKF seen L) :
    x ∈ L := by
  induction L generalizing seen with
  | nil => simp [dedupKF] at h
  | cons a t ih =>
    simp only [dedupKF] at h
    by_cases ha : a ∈ seen
    · rw [if_pos ha] at h
      exact List.mem_cons_of_mem a (ih h)
    · rw [if_neg ha] at h
      rcases List.mem_cons.mp h with h1 | h1
      · subst h1
        exact List.mem_cons_self _ _
      · exact List.mem_cons_of_mem a (ih h1)

theorem dedupKF_mem {seen L : List PyStr} {x : PyStr} (hx : x ∈ L) (hs : x ∉ seen) :
    x ∈ dedupKF seen L := by
  induction L generalizing seen with
  | nil => simp at hx
  | cons a t ih =>
    simp only [dedupKF]
    by_cases ha : a ∈ seen
    · rw [if_pos ha]
      rcases List.mem_cons.mp hx with h1 | h1
      · subst h1
        exact absurd ha hs
      · exact ih h1 hs
    · rw [if_neg ha]
      rcases List.mem_cons.mp hx with h1 | h1
      · subst h1
        exact List.mem_cons_self _ _
      · by_cases hxa : x = a
        · subst hxa
          exact List.mem_cons_self _ _
        · refine List.mem_cons_of_mem a (ih h1 ?_)
          intro hmem
          rcases List.mem_cons.mp hmem with h2 | h2
          · exact hxa h2
          · exact hs h2

theorem map_eq_self_of {l : List α} {f : α → α} (h : ∀ x ∈ l, f x = x) : l.map f = l := by
  induction l with
  | nil => rfl
  | cons a t ih =>
    simp only [List.map_cons]
    rw [h a (by simp), ih (fun x hx => h x (List.mem_cons_of_mem a hx))]

theorem cleanTableCell_self (hts : List PyStr) {s : PyStr} (hnl : ¬ '\n' ∈ s)
    (hst : stripWs s = s) : cleanTableCell hts (some s) = s := by
  simp only [cleanTableCell]
  rw [splitNl_of_no_nl hnl]
  simp only [List.map_cons, List.map_nil, hst]
  by_cases hs : s = []
  · subst hs
    by_cases hh : hts.isEmpty = true <;> simp [hh, joinSpace]
  · have hne : (!s.isEmpty) = true := by
      cases hse : s.isEmpty with
      | false => rfl
      | true => exact absurd (List.isEmpty_iff.mp hse) hs
    have hf : List.filter (fun l => !l.isEmpty) [s] = [s] := by
      simp [List.filter_cons, hne]
    rw [hf]
    by_cases hh : hts.isEmpty = true
    · rw [if_pos hh]
      rfl
    · rw [if_neg hh]
      by_cases hfr : isHeaderFragment hts s = true
      · have hff : List.filter (fun l => !isHeaderFragment hts l) [s] = [] := by
          simp [List.filter_cons, hfr]
        rw [hff]
        rfl
      · have hff : List.filter (fun l => !isHeaderFragment hts l) [s] = [s] := by
          simp [List.filter_cons, hfr]
        rw [hff]
        rfl

theorem cleanTableCell_clean (hts : List PyStr) (c : Option PyStr) :
    CellClean (cleanTableCell hts c) := by
  have key : ∀ L : List PyStr, (∀ p ∈ L, stripWs p = p ∧ p ≠ [] ∧ ¬ '\n' ∈ p) →
      CellClean (joinSpace L) := by
    intro L hL
    constructor
    · intro hmem
      rcases mem_joinSpace hmem with h1 | ⟨p, hp, hc⟩
      · exact absurd h1 (by decide)
      · exact (hL p hp).2.2 hc
    · exact joinSpace_stripped (fun p hp => ⟨(hL p hp).1, (hL p hp).2.1⟩)
  cases c with
  | none => exact ⟨by simp [cleanTableCell], rfl⟩
  | some s =>
    simp only [cleanTableCell]
    have hL0p : ∀ p ∈ (List.map stripWs (splitNl s)).filter (fun l => !l.isEmpty),
        stripWs p = p ∧ p ≠ [] ∧ ¬ '\n' ∈ p := by
      intro p hp
      have hmem := List.mem_of_mem_filter hp
      have hfilt := List.of_mem_filter hp
      obtain ⟨q, hq, hpq⟩ := List.mem_map.mp hmem
      refine ⟨?_, ?_, ?_⟩
      · rw [← hpq, stripWs_idem]
      · intro hnil
        rw [hnil] at hfilt
        simp at hfilt
      · intro hnl
        rw [← hpq] at hnl
        exact splitNl_no_nl q hq (mem_of_mem_stripWs hnl)
    by_cases hh : hts.isEmpty = true
    · rw [if_pos hh]
      exact key _ hL0p
    · rw [if_neg hh]
      by_cases hfe : (((List.map stripWs (splitNl s)).filter (fun l => !l.isEmpty)).filter
          (fun l => !isHeaderFragment hts l)).isEmpty = true
      · rw [if_pos hfe]
        exact key _ hL0p
      · rw [if_neg hfe]
        exact key _ (fun p hp => hL0p p (List.mem_of_mem_filter hp))

theorem headD_mem {l : List α} (h : l ≠ []) (d : α) : l.headD d ∈ l := by
  cases l with
  | nil => exact absurd rfl h
  | cons x t => simp

theorem mergeRowInto_eq {prev row : List PyStr} (h : prev.length = row.length) :
    mergeRowInto prev row = (prev.zip row).map (fun pc =>
      if (stripWs pc.2).isEmpty then pc.1 else stripWs (pc.1 ++ ' ' :: pc.2)) := by
  unfold mergeRowInto
  rw [← h, List.drop_length, List.append_nil]

theorem mergeRowInto_length {prev row : List PyStr} (h : prev.length = row.length) :
    (mergeRowInto prev row).length = prev.length := by
  rw [mergeRowInto_eq h, List.length_map, List.length_zip, h, Nat.min_self]

theorem mergeRowInto_getD {prev row : List PyStr} (h : prev.length = row.length)
    {j : Nat} (hj : j < prev.length) :
    (mergeRowInto prev row).getD j [] =
      if (stripWs (row.getD j [])).isEmpty then prev.getD j []
      else stripWs (prev.getD j [] ++ ' ' :: row.getD j []) := by
  rw [mergeRowInto_eq h]
  have hz : j < (prev.zip row).length := by
    rw [List.length_zip]
    omega
  rw [getD_map_gen hz [] (([], []) : PyStr × PyStr),
    List.getD_eq_getElem _ _ hz, List.getElem_zip,
    List.getD_eq_getElem _ _ hj, List.getD_eq_getElem _ _ (h ▸ hj)]

theorem mergeRowInto_cells {prev row : List PyStr}
    (hp : ∀ s ∈ prev, CellClean s) (hr : ∀ s ∈ row, CellClean s) :
    ∀ s ∈ mergeRowInto prev row, CellClean s := by
  intro s hs
  unfold mergeRowInto at hs
  rcases List.mem_append.mp hs with h1 | h1
  · obtain ⟨pc, hpc, hmap⟩ := List.mem_map.mp h1
    rcases pc with ⟨a, b⟩
    have hm := List.mem_zip hpc
    rw [← hmap]
    by_cases hb : (stripWs b).isEmpty = true
    · rw [if_pos hb]
      exact hp a hm.1
    · rw [if_neg hb]
      constructor
      · intro hnl
        have hmm := mem_of_mem_stripWs hnl
        rcases List.mem_append.mp hmm with h2 | h2
        · exact (hp a hm.1).1 h2
        · rcases List.mem_cons.mp h2 with h3 | h3
          · exact absurd h3 (by decide)
          · exact (hr b hm.2).1 h3
      · exact stripWs_idem _
  · exact hp s (List.drop_subset _ _ h1)

theorem mergeRowInto_cell_nonempty {prev row : List PyStr} (h : prev.length = row.length)
    {j : Nat} (hj : j < prev.length)
    (hcell : (stripWs (prev.getD j [])).isEmpty = false ∨
      (stripWs (row.getD j [])).isEmpty = false) :
    (stripWs ((mergeRowInto prev row).getD j [])).isEmpty = false := by
  rw [mergeRowInto_getD h hj]
  by_cases hb : (stripWs (row.getD j [])).isEmpty = true
  · rw [if_pos hb]
    rcases hcell with hc | hc
    · exact hc
    · rw [hb] at hc
      exact absurd hc (by simp)
  · rw [if_neg hb]
    rw [stripWs_idem]
    have hrne : stripWs (row.getD j []) ≠ [] := by
      intro hx
      rw [hx] at hb
      exact hb rfl
    have hch := stripWs_head_not (row.getD j []) 'x' hrne
    have hmem : (stripWs (row.getD j [])).headD 'x' ∈ stripWs (row.getD j []) :=
      headD_mem hrne 'x'
    have hmem2 := mem_of_mem_stripWs hmem
    exact stripWs_nonempty_of_mem
      (List.mem_append.mpr (Or.inr (List.mem_cons_of_mem ' ' hmem2))) hch

theorem mergeRowInto_noncont {prev row : List PyStr} (h : prev.length = row.length)
    (hlen : 2 ≤ prev.length) (hnc : isContRow prev = false) :
    isContRow (mergeRowInto prev row) = false := by
  unfold isContRow at hnc ⊢
  cases ha : (stripWs (prev.getD 0 [])).isEmpty with
  | false =>
    have := mergeRowInto_cell_nonempty h (by omega) (Or.inl ha)
    rw [this]
    rfl
  | true =>
    rw [ha] at hnc
    simp only [Bool.true_and] at hnc
    have := mergeRowInto_cell_nonempty h (by omega) (Or.inl hnc)
    rw [this]
    simp

theorem mem_dropLast_of_rev {l : List α} {r : α} (h : r ∈ l.reverse.drop 1) :
    r ∈ l.dropLast := by
  rw [List.drop_one, List.tail_reverse] at h
  exact List.mem_reverse.mp h

theorem foldl_max_le : ∀ (rows : CleanTable) (a b : Nat), a ≤ b →
    (∀ r ∈ rows, lastUsed r ≤ b) →
    rows.foldl (fun m row => max m (lastUsed row)) a ≤ b := by
  intro rows
  induction rows with
  | nil =>
    intro a b ha _
    exact ha
  | cons r t ih =>
    intro a b ha h
    simp only [List.foldl_cons]
    exact ih _ _ (Nat.max_le.mpr ⟨ha, h r (by simp)⟩)
      (fun x hx => h x (List.mem_cons_of_mem r hx))

theorem foldl_max_acc : ∀ (rows : CleanTable) (a : Nat),
    a ≤ rows.foldl (fun m row => max m (lastUsed row)) a := by
  intro rows
  induction rows with
  | nil =>
    intro a
    exact Nat.le_refl a
  | cons r t ih =>
    intro a
    simp only [List.foldl_cons]
    exact Nat.le_trans (Nat.le_max_left _ _) (ih _)

theorem foldl_max_ge : ∀ (rows : CleanTable) (a : Nat) (x : List PyStr), x ∈ rows →
    lastUsed x ≤ rows.foldl (fun m row => max m (lastUsed row)) a := by
  intro rows
  induction rows with
  | nil =>
    intro a x hx
    simp at hx
  | cons r t ih =>
    intro a x hx
    simp only [List.foldl_cons]
    rcases List.mem_cons.mp hx with h1 | h1
    · subst h1
      exact Nat.le_trans (Nat.le_max_right _ _) (foldl_max_acc t _)
    · exact ih _ x h1

theorem foldl_max_attain : ∀ (rows : CleanTable) (a : Nat),
    rows.foldl (fun m row => max m (lastUsed row)) a = a ∨
    ∃ x ∈ rows, lastUsed x = rows.foldl (fun m row => max m (lastUsed row)) a := by
  intro rows
  induction rows with
  | nil =>
    intro a
    exact Or.inl rfl
  | cons r t ih =>
    intro a
    simp only [List.foldl_cons]
    rcases ih (max a (lastUsed r)) with h1 | ⟨x, hx, h2⟩
    · rw [h1]
      rcases Nat.le_total (lastUsed r) a with hle | hle
      · exact Or.inl (Nat.max_eq_left hle)
      · exact Or.inr ⟨r, by simp, (Nat.max_eq_right hle).symm⟩
    · exact Or.inr ⟨x, List.mem_cons_of_mem r hx, h2⟩

theorem lastUsed_le_length (row : List PyStr) : lastUsed row ≤ row.length := by
  induction row with
  | nil => simp [lastUsed]
  | cons c t ih =>
    simp only [lastUsed]
    split_ifs
    · simp only [List.length_cons]
      omega
    · simp
    · simp only [List.length_cons]
      omega

theorem lastUsed_eq_length {row : List PyStr} (hne : row ≠ [])
    (h : (stripWs (row.getD (row.length - 1) [])).isEmpty = false) :
    lastUsed row = row.length := by
  induction row with
  | nil => exact absurd rfl hne
  | cons c t ih =>
    cases t with
    | nil =>
      have h' : (stripWs c).isEmpty = false := h
      simp only [lastUsed]
      rw [if_neg (by simp [lastUsed]), if_neg (by simp [h'])]
      rfl
    | cons y r =>
      have hgl : (stripWs ((y :: r).getD ((y :: r).length - 1) [])).isEmpty = false := by
        have hidx : (c :: y :: r).length - 1 = ((y :: r).length - 1) + 1 := by simp
        rw [hidx, List.getD_cons_succ] at h
        exact h
      have ihr := ih (by simp) hgl
      rw [lastUsed, ihr]
      simp

theorem lastUsed_pos_cell {row : List PyStr} :
    ∀ {r : Nat}, lastUsed row = r → r ≠ 0 →
      (stripWs (row.getD (r - 1) [])).isEmpty = false := by
  induction row with
  | nil =>
    intro r h h0
    rw [← h] at h0
    simp [lastUsed] at h0
  | cons c t ih =>
    intro r h h0
    simp only [lastUsed] at h
    by_cases hr : lastUsed t ≠ 0
    · rw [if_pos hr] at h
      rw [← h]
      have hc := ih rfl hr
      have hidx : lastUsed t + 1 - 1 = (lastUsed t - 1) + 1 := by omega
      rw [hidx, List.getD_cons_succ]
      exact hc
    · rw [if_neg hr] at h
      by_cases hc : (stripWs c).isEmpty = true
      · rw [if_pos hc] at h
        exact absurd h.symm h0
      · rw [if_neg hc] at h
        rw [← h]
        exact Bool.eq_false_iff.mpr hc

theorem getD_take_lt {l : List α} {m j : Nat} (hj : j < m) (hm : m ≤ l.length) (d : α) :
    (l.take m).getD j d = l.getD j d := by
  rw [List.getD_eq_getElem _ _ (by rw [List.length_take]; omega),
    List.getD_eq_getElem _ _ (by omega)]
  exact List.getElem_take _

theorem mergeContGo_no_cont : ∀ (rest acc : CleanTable),
    (∀ r ∈ rest, isContRow r = false) → acc ≠ [] →
    mergeContGo acc rest = acc.reverse ++ rest := by
  intro rest
  induction rest with
  | nil =>
    intro acc _ _
    simp [mergeContGo]
  | cons row t ih =>
    intro acc h hacc
    cases acc with
    | nil => exact absurd rfl hacc
    | cons prev acc0 =>
      simp only [mergeContGo]
      rw [if_neg (by rw [h row (by simp)]; exact Bool.false_ne_true),
        ih (row :: prev :: acc0) (fun r hr => h r (List.mem_cons_of_mem row hr)) (by simp)]
      simp

theorem mergeContRows_no_cont {rows : CleanTable}
    (h : ∀ r ∈ rows.drop 1, isContRow r = false) : mergeContRows rows = rows := by
  cases rows with
  | nil => rfl
  | cons r0 rest =>
    unfold mergeContRows
    simp only [mergeContGo]
    rw [mergeContGo_no_cont rest [r0] (by simpa using h) (by simp)]
    rfl

theorem mergeContGo_inv (m : Nat) (hm : 2 ≤ m) :
    ∀ (rows acc : CleanTable),
      (∀ r ∈ acc, RowOK m r) → (∀ r ∈ rows, RowOK m r) →
      (∀ r ∈ acc.dropLast, isContRow r = false) →
      ((∃ r ∈ acc, (stripWs (r.getD (m - 1) [])).isEmpty = false) ∨
       (∃ r ∈ rows, (stripWs (r.getD (m - 1) [])).isEmpty = false)) →
      (∀ r ∈ mergeContGo acc rows, RowOK m r) ∧
      (∀ r ∈ (mergeContGo acc rows).drop 1, isContRow r = false) ∧
      (∃ r ∈ mergeContGo acc rows, (stripWs (r.getD (m - 1) [])).isEmpty = false) := by
  intro rows
  induction rows with
  | nil =>
    intro acc hacc _ hnc hex
    simp only [mergeContGo]
    refine ⟨?_, ?_, ?_⟩
    · intro r hr
      exact hacc r (List.mem_reverse.mp hr)
    · intro r hr
      exact hnc r (mem_dropLast_of_rev hr)
    · rcases hex with ⟨r, hr, hp⟩ | ⟨r, hr, _⟩
      · exact ⟨r, List.mem_reverse.mpr hr, hp⟩
      · simp at hr
  | cons row rest ih =>
    intro acc hacc hrows hnc hex
    cases acc with
    | nil =>
      simp only [mergeContGo]
      apply ih [row]
      · intro r hr
        simp only [List.mem_singleton] at hr
        rw [hr]
        exact hrows row (by simp)
      · intro r hr
        exact hrows r (List.mem_cons_of_mem row hr)
      · intro r hr
        simp at hr
      · rcases hex with ⟨r, hr, _⟩ | ⟨r, hr, hp⟩
        · simp at hr
        · rcases List.mem_cons.mp hr with h1 | h1
          · subst h1
            exact Or.inl ⟨r, by simp, hp⟩
          · exact Or.inr ⟨r, h1, hp⟩
    | cons prev acc0 =>
      simp only [mergeContGo]
      have hprev := hacc prev (by simp)
      have hrow := hrows row (by simp)
      by_cases hc : isContRow row = true
      · rw [if_pos hc]
        have hlen : prev.length = row.length := by rw [hprev.1, hrow.1]
        apply ih (mergeRowInto prev row :: acc0)
        · intro r hr
          rcases List.mem_cons.mp hr with h1 | h1
          · subst h1
            constructor
            · rw [mergeRowInto_length hlen, hprev.1]
            · exact mergeRowInto_cells hprev.2 hrow.2
          · exact hacc r (List.mem_cons_of_mem prev h1)
        · intro r hr
          exact hrows r (List.mem_cons_of_mem row hr)
        · intro r hr
          cases acc0 with
          | nil => simp at hr
          | cons p2 a2 =>
            simp only [List.dropLast] at hr
            rcases List.mem_cons.mp hr with h1 | h1
            · subst h1
              refine mergeRowInto_noncont hlen (by rw [hprev.1]; omega) ?_
              exact hnc prev (by simp only [List.dropLast]; exact List.mem_cons_self _ _)
            · exact hnc r (by simp only [List.dropLast]; exact List.mem_cons_of_mem prev h1)
        · rcases hex with ⟨r, hr, hp⟩ | ⟨r, hr, hp⟩
          · rcases List.mem_cons.mp hr with h1 | h1
            · subst h1
              refine Or.inl ⟨mergeRowInto r row, List.mem_cons_self _ _, ?_⟩
              exact mergeRowInto_cell_nonempty (by rw [(hacc r (by simp)).1, hrow.1])
                (by rw [(hacc r (by simp)).1]; omega) (Or.inl hp)
            · exact Or.inl ⟨r, List.mem_cons_of_mem _ h1, hp⟩
          · rcases List.mem_cons.mp hr with h1 | h1
            · subst h1
              refine Or.inl ⟨mergeRowInto prev r, List.mem_cons_self _ _, ?_⟩
              exact mergeRowInto_cell_nonempty (by rw [hprev.1, (hrows r (by simp)).1])
                (by rw [hprev.1]; omega) (Or.inr hp)
            · exact Or.inr ⟨r, h1, hp⟩
      · rw [if_neg hc]
        apply ih (row :: prev :: acc0)
        · intro r hr
          rcases List.mem_cons.mp hr with h1 | h1
          · subst h1
            exact hrow
          · exact hacc r h1
        · intro r hr
          exact hrows r (List.mem_cons_of_mem row hr)
        · intro r hr
          simp only [List.dropLast] at hr
          rcases List.mem_cons.mp hr with h1 | h1
          · subst h1
            exact Bool.eq_false_iff.mpr hc
          · exact hnc r h1
        · rcases hex with ⟨r, hr, hp⟩ | ⟨r, hr, hp⟩
          · exact Or.inl ⟨r, List.mem_cons_of_mem row hr, hp⟩
          · rcases List.mem_cons.mp hr with h1 | h1
            · subst h1
              exact Or.inl ⟨r, List.mem_cons_self _ _, hp⟩
            · exact Or.inr ⟨r, h1, hp⟩

theorem colGroupsGo_length : ∀ (hcs : List Nat) (p : Nat),
    (colGroupsGo p hcs).length = hcs.length := by
  intro hcs
  induction hcs with
  | nil => intro p; rfl
  | cons hc rest ih =>
    intro p
    simp only [colGroupsGo, List.length_cons]
    rw [ih]

theorem extendLastGroup_length (n : Nat) : ∀ (gs : List (Nat × Nat)),
    (extendLastGroup n gs).length = gs.length := by
  intro gs
  induction gs with
  | nil => rfl
  | cons g t ih =>
    cases t with
    | nil => rfl
    | cons g2 r =>
      simp only [extendLastGroup, List.length_cons]
      rw [ih]
      simp

theorem colGroups_length (numCols : Nat) (hcols : List Nat) :
    (colGroups numCols hcols).length = hcols.length := by
  unfold colGroups
  cases hlast : hcols.getLast? with
  | none => exact colGroupsGo_length hcols 0
  | some last =>
    dsimp only
    by_cases hc : last < numCols - 1
    · rw [if_pos hc, extendLastGroup_length, colGroupsGo_length]
    · rw [if_neg hc, colGroupsGo_length]

theorem colGroupsGo_end_mem : ∀ (hcs : List Nat) (p : Nat),
    ∀ g ∈ colGroupsGo p hcs, g.2 ∈ hcs := by
  intro hcs
  induction hcs with
  | nil =>
    intro p g hg
    simp [colGroupsGo] at hg
  | cons hc rest ih =>
    intro p g hg
    simp only [colGroupsGo] at hg
    rcases List.mem_cons.mp hg with h1 | h1
    · subst h1
      simp
    · exact List.mem_cons_of_mem hc (ih (hc + 1) g h1)

theorem colGroupsGo_mem_hcol : ∀ (hcs : List Nat) (p : Nat),
    List.Pairwise (· < ·) hcs → (∀ h ∈ hcs, p ≤ h) →
    ∀ g ∈ colGroupsGo p hcs, ∃ hc ∈ hcs, g.1 ≤ hc ∧ hc ≤ g.2 := by
  intro hcs
  induction hcs with
  | nil =>
    intro p _ _ g hg
    simp [colGroupsGo] at hg
  | cons hc rest ih =>
    intro p hpw hge g hg
    simp only [colGroupsGo] at hg
    rcases List.mem_cons.mp hg with h1 | h1
    · subst h1
      exact ⟨hc, by simp, hge hc (by simp), Nat.le_refl _⟩
    · obtain ⟨hc2, hm, h2, h3⟩ := ih (hc + 1) hpw.of_cons
        (fun h hh => by
          have := (List.pairwise_cons.mp hpw).1 h hh
          omega) g h1
      exact ⟨hc2, List.mem_cons_of_mem hc hm, h2, h3⟩

theorem extendLastGroup_mem (n : Nat) : ∀ (gs : List (Nat × Nat)),
    (∀ g ∈ gs, g.2 ≤ n - 1) → ∀ g2 ∈ extendLastGroup n gs,
    ∃ g ∈ gs, g2.1 = g.1 ∧ g.2 ≤ g2.2 := by
  intro gs
  induction gs with
  | nil =>
    intro _ g2 hg
    simp [extendLastGroup] at hg
  | cons g t ih =>
    intro hb g2 hg
    cases t with
    | nil =>
      simp only [extendLastGroup, List.mem_singleton] at hg
      subst hg
      exact ⟨g, by simp, rfl, hb g (by simp)⟩
    | cons gg r =>
      simp only [extendLastGroup] at hg
      rcases List.mem_cons.mp hg with h1 | h1
      · subst h1
        exact ⟨g2, by simp, rfl, Nat.le_refl _⟩
      · obtain ⟨g0, hm, h2, h3⟩ := ih (fun x hx => hb x (List.mem_cons_of_mem g hx)) g2 h1
        exact ⟨g0, List.mem_cons_of_mem g hm, h2, h3⟩

theorem colGroups_contain {numCols : Nat} {hcols : List Nat}
    (hb : ∀ h ∈ hcols, h < numCols) (hpw : List.Pairwise (· < ·) hcols) :
    ∀ g ∈ colGroups numCols hcols, ∃ hc ∈ hcols, g.1 ≤ hc ∧ hc ≤ g.2 := by
  intro g hg
  unfold colGroups at hg
  cases hlast : hcols.getLast? with
  | none =>
    simp only [hlast] at hg
    exact colGroupsGo_mem_hcol hcols 0 hpw (fun h _ => Nat.zero_le h) g hg
  | some last =>
    simp only [hlast] at hg
    by_cases hc : last < numCols - 1
    · rw [if_pos hc] at hg
      obtain ⟨g0, hm, h2, h3⟩ := extendLastGroup_mem numCols (colGroupsGo 0 hcols)
        (fun x hx => by
          have := hb x.2 (colGroupsGo_end_mem hcols 0 x hx)
          omega) g hg
      obtain ⟨hc2, hmm, h4, h5⟩ :=
        colGroupsGo_mem_hcol hcols 0 hpw (fun h _ => Nat.zero_le h) g0 hm
      exact ⟨hc2, hmm, by omega, by omega⟩
    · rw [if_neg hc] at hg
      exact colGroupsGo_mem_hcol hcols 0 hpw (fun h _ => Nat.zero_le h) g hg

theorem headerCols_pairwise (hdr : List PyStr) : List.Pairwise (· < ·) (headerCols hdr) :=
  (List.pairwise_lt_range hdr.length).filter _

theorem headerCols_lt {hdr : List PyStr} : ∀ h ∈ headerCols hdr, h < hdr.length := by
  intro h hm
  unfold headerCols at hm
  exact List.mem_range.mp (List.mem_of_mem_filter hm)

theorem headerCols_full {hdr : List PyStr}
    (h : ∀ i, i < hdr.length → (stripWs (hdr.getD i [])).isEmpty = false) :
    (headerCols hdr).length = hdr.length := by
  unfold headerCols
  rw [List.filter_eq_self.mpr, List.length_range]
  intro i hi
  rw [h i (List.mem_range.mp hi)]
  rfl

theorem joinSpace_clean {L : List PyStr}
    (hL : ∀ p ∈ L, stripWs p = p ∧ p ≠ [] ∧ ¬ '\n' ∈ p) : CellClean (joinSpace L) := by
  constructor
  · intro hmem
    rcases mem_joinSpace hmem with h1 | ⟨p, hp, hc⟩
    · exact absurd h1 (by decide)
    · exact (hL p hp).2.2 hc
  · exact joinSpace_stripped (fun p hp => ⟨(hL p hp).1, (hL p hp).2.1⟩)

theorem groupJoin_pieces {row : List PyStr} {g : Nat × Nat} {p : PyStr}
    (hp : p ∈ ((List.range (g.2 + 1 - g.1)).map (· + g.1)).filterMap (fun c =>
      if c < row.length then some (stripWs (row.getD c [])) else none)) :
    ∃ c, c < row.length ∧ p = stripWs (row.getD c []) := by
  obtain ⟨a, _, ha⟩ := List.mem_filterMap.mp hp
  by_cases hal : a < row.length
  · rw [if_pos hal] at ha
    exact ⟨a, hal, (Option.some_inj.mp ha).symm⟩
  · rw [if_neg hal] at ha
    exact absurd ha (by simp)

theorem groupJoin_clean {row : List PyStr} (g : Nat × Nat)
    (hrow : ∀ s ∈ row, CellClean s) : CellClean (groupJoin row g) := by
  simp only [groupJoin]
  apply joinSpace_clean
  intro p hp
  have hp2 := List.mem_of_mem_filter hp
  have hp3 := dedupKF_subset hp2
  have hp4 := List.of_mem_filter hp3
  have hp5 := List.mem_of_mem_filter hp3
  obtain ⟨c, hcl, hpc⟩ := groupJoin_pieces hp5
  refine ⟨?_, ?_, ?_⟩
  · rw [hpc, stripWs_idem]
  · intro hnil
    rw [hnil] at hp4
    simp at hp4
  · intro hnl
    rw [hpc] at hnl
    have hmm := mem_of_mem_stripWs hnl
    have hcell : row.getD c [] ∈ row := by
      rw [List.getD_eq_getElem _ _ hcl]
      exact List.getElem_mem _
    exact (hrow _ hcell).1 hmm

theorem groupJoin_nonempty {row : List PyStr} {g : Nat × Nat} {c : Nat}
    (hc1 : g.1 ≤ c) (hc2 : c ≤ g.2) (hcl : c < row.length)
    (hne : (stripWs (row.getD c [])).isEmpty = false) : groupJoin row g ≠ [] := by
  simp only [groupJoin]
  have hx0 : stripWs (row.getD c []) ∈
      ((List.range (g.2 + 1 - g.1)).map (· + g.1)).filterMap (fun c =>
        if c < row.length then some (stripWs (row.getD c [])) else none) := by
    apply List.mem_filterMap.mpr
    refine ⟨c, ?_, by rw [if_pos hcl]⟩
    apply List.mem_map.mpr
    exact ⟨c - g.1, List.mem_range.mpr (by omega), by omega⟩
  have hx1 : stripWs (row.getD c []) ∈
      (((List.range (g.2 + 1 - g.1)).map (· + g.1)).filterMap (fun c =>
        if c < row.length then some (stripWs (row.getD c [])) else none)).filter
        (fun c => !c.isEmpty) := by
    apply List.mem_filter.mpr
    refine ⟨hx0, ?_⟩
    rw [hne]
    rfl
  have hx2 := @dedupKF_mem [] _ _ hx1 (by simp)
  have hcne : dedupKF []
      ((((List.range (g.2 + 1 - g.1)).map (· + g.1)).filterMap (fun c =>
        if c < row.length then some (stripWs (row.getD c [])) else none)).filter
        (fun c => !c.isEmpty)) ≠ [] := List.ne_nil_of_mem hx2
  obtain ⟨y, hy, hymax⟩ := exists_max_length hcne
  apply joinSpace_ne_nil
  · apply List.ne_nil_of_mem
    apply List.mem_filter.mpr
    refine ⟨hy, ?_⟩
    have hany : (dedupKF []
        ((((List.range (g.2 + 1 - g.1)).map (· + g.1)).filterMap (fun c =>
          if c < row.length then some (stripWs (row.getD c [])) else none)).filter
          (fun c => !c.isEmpty))).any (fun other => y ≠ other && subOf y other) = false := by
      cases hh : (dedupKF []
          ((((List.range (g.2 + 1 - g.1)).map (· + g.1)).filterMap (fun c =>
            if c < row.length then some (stripWs (row.getD c [])) else none)).filter
            (fun c => !c.isEmpty))).any (fun other => y ≠ other && subOf y other) with
      | false => rfl
      | true =>
        obtain ⟨other, hom, hop⟩ := List.any_eq_true.mp hh
        simp only [Bool.and_eq_true, decide_eq_true_eq, ne_eq] at hop
        have hlen := subOf_length_le hop.2
        have hmax2 := hymax other hom
        have : y = other := subOf_eq_of_length hop.2 (by omega)
        exact absurd this hop.1
    rw [hany]
    rfl
  · intro p hpm
    have hp3 := dedupKF_subset (List.mem_of_mem_filter hpm)
    have hp4 := List.of_mem_filter hp3
    intro hnil
    rw [hnil] at hp4
    simp at hp4

theorem mergeSparse_length (V : CleanTable) : (mergeSparse V).length = V.length := by
  simp only [mergeSparse]
  split_ifs
  · rfl
  · rfl
  · rw [List.length_map]

theorem getD_mem_of_lt {l : List α} {i : Nat} (h : i < l.length) (d : α) : l.getD i d ∈ l := by
  rw [List.getD_eq_getElem _ _ h]
  exact List.getElem_mem _

theorem noncont_any {m : Nat} {r : List PyStr} (hr : RowOK m r) (hm : 2 ≤ m)
    (hnc : isContRow r = false) : r.any (fun c => !(stripWs c).isEmpty) = true := by
  unfold isContRow at hnc
  apply List.any_eq_true.mpr
  cases h0 : (stripWs (r.getD 0 [])).isEmpty with
  | false =>
    refine ⟨r.getD 0 [], getD_mem_of_lt (by rw [hr.1]; omega) [], ?_⟩
    rw [h0]
    rfl
  | true =>
    rw [h0] at hnc
    simp only [Bool.true_and] at hnc
    refine ⟨r.getD 1 [], getD_mem_of_lt (by rw [hr.1]; omega) [], ?_⟩
    rw [hnc]
    rfl

theorem colGroups_first_two {numCols a b : Nat} {rest : List Nat}
    (hb : ∀ h ∈ a :: b :: rest, h < numCols) :
    (colGroups numCols (a :: b :: rest)).getD 0 (0, 0) = (0, a) ∧
    ∃ e, (colGroups numCols (a :: b :: rest)).getD 1 (0, 0) = (a + 1, e) ∧ b ≤ e := by
  unfold colGroups
  cases hlast : (a :: b :: rest).getLast? with
  | none =>
    rw [List.getLast?_eq_none_iff] at hlast
    simp at hlast
  | some last =>
    dsimp only
    by_cases hc : last < numCols - 1
    · rw [if_pos hc]
      simp only [colGroupsGo]
      cases rest with
      | nil =>
        refine ⟨rfl, numCols - 1, rfl, ?_⟩
        have := hb b (by simp)
        omega
      | cons x xs =>
        simp only [colGroupsGo]
        exact ⟨rfl, b, rfl, Nat.le_refl b⟩
    · rw [if_neg hc]
      simp only [colGroupsGo]
      exact ⟨rfl, b, rfl, Nat.le_refl b⟩

theorem groupJoin_nonempty_strip {row : List PyStr} {g : Nat × Nat} {c : Nat}
    (hclean : ∀ s ∈ row, CellClean s) (hc1 : g.1 ≤ c) (hc2 : c ≤ g.2) (hcl : c < row.length)
    (hne : (stripWs (row.getD c [])).isEmpty = false) :
    (stripWs (groupJoin row g)).isEmpty = false := by
  have hjne := groupJoin_nonempty hc1 hc2 hcl hne
  rw [(groupJoin_clean g hclean).2]
  cases hx : (groupJoin row g).isEmpty with
  | false => rfl
  | true => exact absurd (List.isEmpty_iff.mp hx) hjne

theorem mergeSparse_inv {m : Nat} {V : CleanTable} (hm : 2 ≤ m)
    (hrows : ∀ r ∈ V, RowOK m r)
    (hex : ∃ r ∈ V, (stripWs (r.getD (m - 1) [])).isEmpty = false)
    (hF : ∀ r ∈ V.drop 1, isContRow r = false)
    (hH : ∀ r ∈ V, r.any (fun c => !(stripWs c).isEmpty) = true)
    (hVlen : 2 ≤ V.length) :
    CleanInv (mergeSparse V) := by
  have hVne : V ≠ [] := by
    intro hx
    rw [hx] at hVlen
    simp at hVlen
  have hhdmem : V.headD [] ∈ V := headD_mem hVne []
  have hhdlen : (V.headD []).length = m := (hrows _ hhdmem).1
  simp only [mergeSparse]
  rw [if_neg (by
    simp only [Bool.or_eq_true, decide_eq_true_eq]
    push_neg
    refine ⟨?_, by omega⟩
    cases V with
    | nil => exact absurd rfl hVne
    | cons x t => simp)]
  by_cases hsk : (decide ((headerCols (V.headD [])).length ≥ (V.headD []).length) ||
      decide ((headerCols (V.headD [])).length < 2)) = true
  · rw [if_pos hsk]
    refine ⟨hVlen, ?_, ?_, ?_, hF, ?_, hH⟩
    · rw [hhdlen]
      exact hm
    · intro r hr
      rw [hhdlen]
      exact hrows r hr
    · rw [hhdlen]
      exact hex
    · simpa only [Bool.or_eq_true, decide_eq_true_eq] using hsk
  · rw [if_neg hsk]
    simp only [Bool.or_eq_true, decide_eq_true_eq] at hsk
    push_neg at hsk
    have h2le : 2 ≤ (headerCols (V.headD [])).length := by omega
    have hpw := headerCols_pairwise (V.headD [])
    have hblt := @headerCols_lt (V.headD [])
    have hcontain := colGroups_contain hblt hpw
    set G := colGroups (V.headD []).length (headerCols (V.headD [])) with hG
    have hGlen : G.length = (headerCols (V.headD [])).length := colGroups_length _ _
    have hG2 : 2 ≤ G.length := by omega
    have hne1 : headerCols (V.headD []) ≠ [] := by
      intro hx
      rw [hx] at h2le
      simp at h2le
    obtain ⟨a, t1, he1⟩ := List.exists_cons_of_ne_nil hne1
    have hne2 : t1 ≠ [] := by
      intro hx
      rw [he1, hx] at h2le
      simp at h2le
    obtain ⟨b, rest, he2⟩ := List.exists_cons_of_ne_nil hne2
    have hcols_eq : headerCols (V.headD []) = a :: b :: rest := by rw [he1, he2]
    have hGfirst := colGroups_first_two (show ∀ h ∈ a :: b :: rest, h < (V.headD []).length by
      rw [← hcols_eq]
      exact hblt)
    have hG0 : G.getD 0 (0, 0) = (0, a) := by
      rw [hG, hcols_eq]
      exact hGfirst.1
    obtain ⟨e, hG1e, hbe⟩ := hGfirst.2
    have hG1 : G.getD 1 (0, 0) = (a + 1, e) := by
      rw [hG, hcols_eq]
      exact hG1e
    have hab : a < b := by
      rw [hcols_eq] at hpw
      exact (List.pairwise_cons.mp hpw).1 b (by simp)
    have hhdr_cell : ∀ i, i < G.length →
        (stripWs ((List.map (groupJoin (V.headD [])) G).getD i [])).isEmpty = false := by
      intro i hi
      rw [getD_map_gen hi [] ((0, 0) : Nat × Nat)]
      obtain ⟨hc, hcm, hb1, hb2⟩ := hcontain (G.getD i (0, 0)) (getD_mem_of_lt hi (0, 0))
      have hclt : hc < (V.headD []).length := hblt hc hcm
      have hcne : (stripWs ((V.headD []).getD hc [])).isEmpty = false := by
        have hof := List.of_mem_filter (by unfold headerCols at hcm; exact hcm)
        cases hx : (stripWs ((V.headD []).getD hc [])).isEmpty with
        | false => rfl
        | true =>
          rw [hx] at hof
          simp at hof
      exact groupJoin_nonempty_strip (hrows _ hhdmem).2 hb1 hb2 hclt hcne
    have hj01 : ∀ r ∈ V, isContRow r = false →
        ∃ j, j < 2 ∧ (stripWs ((List.map (groupJoin r) G).getD j [])).isEmpty = false := by
      intro r hr hnc
      have hrlen := (hrows r hr).1
      have hrclean := (hrows r hr).2
      unfold isContRow at hnc
      cases h0 : (stripWs (r.getD 0 [])).isEmpty with
      | false =>
        refine ⟨0, by omega, ?_⟩
        rw [getD_map_gen (by omega) [] ((0, 0) : Nat × Nat), hG0]
        exact groupJoin_nonempty_strip hrclean (Nat.le_refl 0) (Nat.zero_le a)
          (by rw [hrlen]; omega) h0
      | true =>
        rw [h0] at hnc
        simp only [Bool.true_and] at hnc
        by_cases ha1 : 1 ≤ a
        · refine ⟨0, by omega, ?_⟩
          rw [getD_map_gen (by omega) [] ((0, 0) : Nat × Nat), hG0]
          exact groupJoin_nonempty_strip hrclean (Nat.zero_le 1) ha1
            (by rw [hrlen]; omega) hnc
        · refine ⟨1, by omega, ?_⟩
          rw [getD_map_gen (by omega) [] ((0, 0) : Nat × Nat), hG1]
          exact groupJoin_nonempty_strip hrclean (by omega) (by omega)
            (by rw [hrlen]; omega) hnc
    have hheadD : (V.map (fun row => List.map (groupJoin row) G)).headD [] =
        List.map (groupJoin (V.headD [])) G := by
      cases V with
      | nil => exact absurd rfl hVne
      | cons hd tl => rfl
    refine ⟨?_, ?_, ?_, ?_, ?_, ?_, ?_⟩
    · rw [List.length_map]
      exact hVlen
    · rw [hheadD, List.length_map]
      exact hG2
    · intro r hr
      obtain ⟨r0, hr0, hr2⟩ := List.mem_map.mp hr
      constructor
      · rw [← hr2, List.length_map, hheadD, List.length_map]
      · intro s hs
        rw [← hr2] at hs
        obtain ⟨g, hgm, hgs⟩ := List.mem_map.mp hs
        rw [← hgs]
        exact groupJoin_clean g (hrows r0 hr0).2
    · refine ⟨List.map (groupJoin (V.headD [])) G, List.mem_map.mpr ⟨V.headD [], hhdmem, rfl⟩, ?_⟩
      rw [hheadD, List.length_map]
      exact hhdr_cell (G.length - 1) (by omega)
    · intro r hr
      rw [← List.map_drop] at hr
      obtain ⟨r0, hr0, hr2⟩ := List.mem_map.mp hr
      have hnc0 := hF r0 hr0
      obtain ⟨j, hj2, hjne⟩ := hj01 r0 (List.mem_of_mem_drop hr0) hnc0
      rw [← hr2]
      unfold isContRow
      interval_cases j
      · rw [hjne]
        rfl
      · rw [hjne]
        simp
    · left
      rw [hheadD]
      apply ge_of_eq
      apply headerCols_full
      intro i hi
      rw [List.length_map] at hi
      exact hhdr_cell i hi
    · intro r hr
      obtain ⟨r0, hr0, hr2⟩ := List.mem_map.mp hr
      obtain ⟨hd, tl, hVeq⟩ := List.exists_cons_of_ne_nil hVne
      have hhd_eq : V.headD [] = hd := by
        rw [hVeq]
        rfl
      rw [hVeq] at hr0
      rcases List.mem_cons.mp hr0 with h1 | h1
      · subst h1
        have hcell := hhdr_cell 0 (by omega)
        rw [hhd_eq] at hcell
        rw [← hr2]
        apply List.any_eq_true.mpr
        refine ⟨(List.map (groupJoin r0) G).getD 0 [],
          getD_mem_of_lt (by rw [List.length_map]; omega) [], ?_⟩
        rw [hcell]
        rfl
      · have hnc0 : isContRow r0 = false := by
          apply hF
          rw [hVeq]
          exact h1
        obtain ⟨j, hj2, hjne⟩ := hj01 r0 (by rw [hVeq]; exact List.mem_cons_of_mem hd h1) hnc0
        rw [← hr2]
        apply List.any_eq_true.mpr
        refine ⟨(List.map (groupJoin r0) G).getD j [],
          getD_mem_of_lt (by rw [List.length_map]; omega) [], ?_⟩
        rw [hjne]
        rfl

theorem cleanOne_of_inv (hts : List PyStr) (u : CleanTable) (hinv : CleanInv u) :
    cleanOne hts (u.map (fun row => row.map some)) = some u := by
  obtain ⟨hA, hC, hB, hE, hF, hG, hH⟩ := hinv
  have hune : u ≠ [] := by
    intro h
    rw [h] at hA
    simp at hA
  have hfilter : (u.map (fun row => row.map some)).filter (fun row => !row.isEmpty) =
      u.map (fun row => row.map some) := by
    apply List.filter_eq_self.mpr
    intro r hr
    obtain ⟨row, hrow, hr2⟩ := List.mem_map.mp hr
    have hlen := (hB row hrow).1
    rw [← hr2]
    cases row with
    | nil =>
      rw [List.length_nil] at hlen
      omega
    | cons x t => rfl
  have hcleaned : ((u.map (fun row => row.map some)).filter (fun row => !row.isEmpty)).map
      (fun row => row.map (cleanTableCell hts)) = u := by
    rw [hfilter, List.map_map]
    apply map_eq_self_of
    intro row hrow
    show (row.map some).map (cleanTableCell hts) = row
    rw [List.map_map]
    apply map_eq_self_of
    intro s hs
    have hcc := (hB row hrow).2 s hs
    exact cleanTableCell_self hts hcc.1 hcc.2
  have hmax : maxUsedCols u = (u.headD []).length := by
    apply Nat.le_antisymm
    · apply foldl_max_le u 0 _ (Nat.zero_le _)
      intro r hr
      rw [← (hB r hr).1]
      exact lastUsed_le_length r
    · obtain ⟨row, hrow, hp⟩ := hE
      have hrne : row ≠ [] := by
        intro hx
        have := (hB row hrow).1
        rw [hx] at this
        rw [List.length_nil] at this
        omega
      have hlu : lastUsed row = (u.headD []).length := by
        rw [← (hB row hrow).1]
        apply lastUsed_eq_length hrne
        rw [(hB row hrow).1]
        exact hp
      rw [← hlu]
      exact foldl_max_ge u 0 row hrow
  have hmapne : (u.map (fun row => row.map some)).isEmpty = false := by
    cases u with
    | nil => exact absurd rfl hune
    | cons x t => rfl
  simp only [cleanOne]
  rw [if_neg (by rw [hmapne]; exact Bool.false_ne_true)]
  rw [hcleaned, hmax]
  rw [if_neg (by omega)]
  have htrim : u.map (List.take (u.headD []).length) = u := by
    apply map_eq_self_of
    intro row hrow
    rw [← (hB row hrow).1]
    exact List.take_length row
  rw [htrim, mergeContRows_no_cont hF]
  have hdropb : dropBlankRows u = u := List.filter_eq_self.mpr hH
  rw [hdropb]
  have hms : mergeSparse u = u := by
    simp only [mergeSparse]
    have hne2 : u.isEmpty = false := by
      cases u with
      | nil => exact absurd rfl hune
      | cons x t => rfl
    rw [if_neg (by
      simp only [hne2, Bool.false_or, decide_eq_true_eq]
      omega)]
    rw [if_pos (by
      simp only [Bool.or_eq_true, decide_eq_true_eq]
      rcases hG with h | h
      · exact Or.inl h
      · exact Or.inr h)]
  rw [hms]
  rw [if_pos hA]

theorem cleanOne_inv {hts : List PyStr} {t : RawTable} {u : CleanTable}
    (hrect : ∀ row ∈ t, row.length = (t.headD []).length)
    (h : cleanOne hts t = some u) : CleanInv u := by
  simp only [cleanOne] at h
  by_cases h0 : t.isEmpty = true
  · rw [if_pos h0] at h
    exact absurd h (by simp)
  · rw [if_neg h0] at h
    set n := (t.headD []).length with hn
    set C := (t.filter (fun row => !row.isEmpty)).map
      (fun row => row.map (cleanTableCell hts)) with hCdef
    have hCrows : ∀ r ∈ C, r.length = n ∧ ∀ s ∈ r, CellClean s := by
      intro r hr
      rw [hCdef] at hr
      obtain ⟨r0, hr0, hr2⟩ := List.mem_map.mp hr
      constructor
      · rw [← hr2, List.length_map, hn]
        exact hrect r0 (List.mem_of_mem_filter hr0)
      · intro s hs
        rw [← hr2] at hs
        obtain ⟨c, _, hcs⟩ := List.mem_map.mp hs
        rw [← hcs]
        exact cleanTableCell_clean hts c
    set m := maxUsedCols C with hmdef
    have hfold : maxUsedCols C = C.foldl (fun m row => max m (lastUsed row)) 0 := rfl
    have hmn : m ≤ n := by
      rw [hmdef, hfold]
      apply foldl_max_le C 0 n (Nat.zero_le n)
      intro r hr
      rw [← (hCrows r hr).1]
      exact lastUsed_le_length r
    by_cases hm2 : m < 2
    · rw [if_pos hm2] at h
      exact absurd h (by simp)
    · rw [if_neg hm2] at h
      have hm2' : 2 ≤ m := by omega
      have hTrows : ∀ r ∈ C.map (List.take m), RowOK m r := by
        intro r hr
        obtain ⟨r0, hr0, hr2⟩ := List.mem_map.mp hr
        constructor
        · rw [← hr2, List.length_take, (hCrows r0 hr0).1]
          omega
        · intro s hs
          rw [← hr2] at hs
          exact (hCrows r0 hr0).2 s (mem_of_mem_take hs)
      have hTex : ∃ r ∈ C.map (List.take m),
          (stripWs (r.getD (m - 1) [])).isEmpty = false := by
        rcases foldl_max_attain C 0 with h1 | ⟨x, hx, h2⟩
        · exfalso
          have hz : m = 0 := by
            rw [hmdef, hfold]
            exact h1
          omega
        · have hxm : lastUsed x = m := by
            rw [hmdef, hfold]
            exact h2
          have hcell := lastUsed_pos_cell hxm (by omega)
          refine ⟨x.take m, List.mem_map.mpr ⟨x, hx, rfl⟩, ?_⟩
          rw [getD_take_lt (by omega) (by rw [(hCrows x hx).1]; exact hmn) []]
          exact hcell
      have hcont := mergeContGo_inv m hm2' (C.map (List.take m)) [] (by simp) hTrows
        (by simp) (Or.inr hTex)
      have hmc_eq : mergeContRows (C.map (List.take m)) =
          mergeContGo [] (C.map (List.take m)) := rfl
      set V1 := mergeContRows (C.map (List.take m)) with hV1def
      have hcont1 : ∀ r ∈ V1, RowOK m r := by
        rw [hmc_eq]
        exact hcont.1
      have hcont2 : ∀ r ∈ V1.drop 1, isContRow r = false := by
        rw [hmc_eq]
        exact hcont.2.1
      have hcont3 : ∃ r ∈ V1, (stripWs (r.getD (m - 1) [])).isEmpty = false := by
        rw [hmc_eq]
        exact hcont.2.2
      set V2 := dropBlankRows V1 with hV2def
      have hdbv : dropBlankRows V1 =
          V1.filter (fun row => row.any (fun c => !(stripWs c).isEmpty)) := rfl
      have hV2sub : ∀ r ∈ V2, r ∈ V1 := by
        intro r hr
        rw [hV2def, hdbv] at hr
        exact List.mem_of_mem_filter hr
      have hV2rows : ∀ r ∈ V2, RowOK m r := fun r hr => hcont1 r (hV2sub r hr)
      have hV2H : ∀ r ∈ V2, r.any (fun c => !(stripWs c).isEmpty) = true := by
        intro r hr
        rw [hV2def, hdbv] at hr
        have hx := List.of_mem_filter hr
        exact hx
      have hV2ex : ∃ r ∈ V2, (stripWs (r.getD (m - 1) [])).isEmpty = false := by
        obtain ⟨r, hr, hp⟩ := hcont3
        refine ⟨r, ?_, hp⟩
        rw [hV2def, hdbv]
        apply List.mem_filter.mpr
        refine ⟨hr, ?_⟩
        apply List.any_eq_true.mpr
        refine ⟨r.getD (m - 1) [], getD_mem_of_lt (by rw [(hcont1 r hr).1]; omega) [], ?_⟩
        rw [hp]
        rfl
      have hV2F : ∀ r ∈ V2.drop 1, isContRow r = false := by
        cases hV1c : V1 with
        | nil =>
          intro r hr
          rw [hV2def, hV1c] at hr
          simp [dropBlankRows] at hr
        | cons v0 vrest =>
          have hrest_nc : ∀ r ∈ vrest, isContRow r = false := by
            intro r hr
            apply hcont2
            rw [hV1c]
            simpa using hr
          have hrest_filter : vrest.filter
              (fun row => row.any (fun c => !(stripWs c).isEmpty)) = vrest := by
            apply List.filter_eq_self.mpr
            intro r hr
            exact noncont_any (hcont1 r (by rw [hV1c]; exact List.mem_cons_of_mem v0 hr))
              hm2' (hrest_nc r hr)
          intro r hr
          rw [hV2def, hV1c] at hr
          have hdb : dropBlankRows (v0 :: vrest) =
              if v0.any (fun c => !(stripWs c).isEmpty) = true then v0 :: vrest
              else vrest := by
            unfold dropBlankRows
            rw [List.filter_cons]
            by_cases hv0 : v0.any (fun c => !(stripWs c).isEmpty) = true
            · rw [if_pos hv0, if_pos hv0, hrest_filter]
            · rw [if_neg hv0, if_neg hv0, hrest_filter]
          rw [hdb] at hr
          by_cases hv0 : v0.any (fun c => !(stripWs c).isEmpty) = true
          · rw [if_pos hv0] at hr
            exact hrest_nc r (by simpa using hr)
          · rw [if_neg hv0] at hr
            exact hrest_nc r (List.mem_of_mem_drop hr)
      by_cases hu2 : (mergeSparse V2).length ≥ 2
      · rw [if_pos hu2] at h
        have hu : u = mergeSparse V2 := (Option.some_inj.mp h).symm
        rw [hu]
        apply mergeSparse_inv hm2' hV2rows hV2ex hV2F hV2H
        rw [← mergeSparse_length V2]
        exact hu2
      · rw [if_neg hu2] at h
        exact absurd h (by simp)

/-- C6: table cleaning is idempotent.  For every list of rectangular raw
cell matrices (each row of a table has the table's common width — the shape
`pdfplumber`'s `Table.extract` produces), re-running `_clean_tables` on the
tables it emitted returns them unchanged: every emitted table's cells are
single-line and stripped so `_clean_table_cell` fixes them, its trailing
column is populated so the width survives the used-column trim, it has no
continuation rows after the first and no blank rows, and its header defeats
a second sparse-column merge. -/
theorem c6_clean_tables_idempotent (hts : List PyStr) (tables : List RawTable)
    (hrect : ∀ t ∈ tables, ∀ row ∈ t, row.length = (t.headD []).length) :
    cleanTables hts
        ((cleanTables hts tables).map (fun u => u.map (fun row => row.map some))) =
      cleanTables hts tables := by
  revert hrect
  induction tables with
  | nil =>
    intro _
    rfl
  | cons t rest ih =>
    intro hrect
    have hih := ih (fun t2 ht2 => hrect t2 (List.mem_cons_of_mem t ht2))
    unfold cleanTables at hih ⊢
    cases hct : cleanOne hts t with
    | none =>
      rw [List.filterMap_cons_none hct]
      exact hih
    | some u =>
      rw [List.filterMap_cons_some hct]
      simp only [List.map_cons]
      rw [List.filterMap_cons_some (cleanOne_of_inv hts u
        (cleanOne_inv (hrect t (by simp)) hct)), hih]

set_option maxHeartbeats 2000000 in
/-- C6 witness: the idempotence theorem applied to a concrete two-by-two
raw table — the cleaner emits the stripped table, and cleaning the emitted
table again returns it unchanged. -/
theorem c6_clean_tables_idempotent_witness :
    cleanTables []
        ((cleanTables [] [[[some (pl "Name"), some (pl "Qty")],
            [some (pl "apple"), some (pl "3")]]]).map
          (fun u => u.map (fun row => row.map some))) =
      cleanTables [] [[[some (pl "Name"), some (pl "Qty")],
        [some (pl "apple"), some (pl "3")]]] ∧
    cleanTables [] [[[some (pl "Name"), some (pl "Qty")],
        [some (pl "apple"), some (pl "3")]]] =
      [[[pl "Name", pl "Qty"], [pl "apple", pl "3"]]] := by
  constructor
  · exact c6_clean_tables_idempotent [] [[[some (pl "Name"), some (pl "Qty")],
      [some (pl "apple"), some (pl "3")]]] (by decide)
  · decide
